import Mathlib

/-!
# mcp-ocr-server: result cache, preprocessing, request handling and worker pool

A shallow embedding of

* `internal/cache/cache.go` (`Cache`, `NewCache`, `Get`, `Set`, `Delete`, `Clear`, `Size`,
  `evictOldest`, `cleanup`, `GenerateKey`),
* `internal/preprocessing/analyzer.go` (`QualityAnalyzer.generatePipeline`),
* `internal/preprocessing/pipeline.go` (`NewPipeline`, `Pipeline.determineSteps`,
  `Pipeline.Process`),
* `internal/preprocessing/preprocessor.go` (`Preprocessor.getDefaultPipeline`,
  `Preprocessor.applyStep`, `Preprocessor.Process`),
* `pkg/errors/errors.go` (`ErrorCode`, `OCRError`, `New`, `Wrap`),
* `internal/ocr/tesseract.go` (`TesseractEngine.RecognizeText`),
* `internal/tools/handler.go` (`Handler.recognizeImage`, `Handler.readImageFile`,
  `Handler.handleBatchRecognize`),
* `internal/pool/worker_pool.go` (`NewWorkerPool`, `Start`, `Stop`, `Submit`, `worker`),
* `internal/ocr/pool.go` (`NewEnginePool`, `Get`, `Put`, `Close`) with `Initialize` of
  `internal/ocr/tesseract_cgo.go`,
* `internal/preprocessing/analyzer.go` (`CalculateSkewAngle`, `calculateMedian`),
* `internal/config/config.go` (`GetDefault`) and the preprocessor configuration that
  `NewHandler` of `internal/tools/handler.go` derives from it.

Conventions.

* `time.Time` and `time.Duration` are integers (nanoseconds on one monotonic clock):
  `t.Before(u)` is `t < u`, `t.After(u)` is `u < t`, `t.Add(d)` is `t + d`. Every operation that
  reads `time.Now()` takes the reading as its `now` argument.
* A Go `map[string]*CacheEntry` is an association list whose keys are pairwise distinct;
  `len` is the length of that list. The order in which `range` visits a map is not fixed by the
  language, so every ranging operation takes a `RangeOrder`, an arbitrary rearrangement of the
  entries.
* The cached value has Go type `interface{}`; the embedding is polymorphic in its type `V`.
* Locks and logging have no effect on the values computed and are left out.
-/

/-! ## internal/cache/cache.go -/

/-- CacheEntry: a cached value with the instant at which it expires. -/
structure CacheEntry (V : Type) where
  Value : V
  ExpireTime : Int
deriving DecidableEq

/-- Cache: the store, its capacity, the time-to-live of an entry and the enabled switch. -/
structure Cache (V : Type) where
  store : List (String × CacheEntry V)
  maxSize : Int
  ttl : Int
  enabled : Bool
deriving DecidableEq

/-- The order in which one `range` loop visits the entries of a map: some rearrangement of
them. -/
structure RangeOrder (V : Type) where
  run : List (String × CacheEntry V) → List (String × CacheEntry V)
  perm : ∀ l, (run l).Perm l

/-- The loop visits the entries in the order the association list holds them. -/
def RangeOrder.stored {V : Type} : RangeOrder V :=
  ⟨fun l => l, fun l => List.Perm.refl l⟩

/-- The loop visits the entries in the opposite order. -/
def RangeOrder.reversed {V : Type} : RangeOrder V :=
  ⟨fun l => l.reverse, fun l => List.reverse_perm l⟩

/-- Go's `delete(m, key)`. -/
def mapDelete {V : Type} (m : List (String × CacheEntry V)) (key : String) :
    List (String × CacheEntry V) :=
  m.filter (fun p => p.1 != key)

/-- Go's `m[key] = entry`: the binding of `key`, if any, is replaced. -/
def mapStore {V : Type} (m : List (String × CacheEntry V)) (key : String) (entry : CacheEntry V) :
    List (String × CacheEntry V) :=
  (key, entry) :: mapDelete m key

/-- Go's `entry, exists := m[key]`. -/
def mapIndex {V : Type} (m : List (String × CacheEntry V)) (key : String) :
    Option (CacheEntry V) :=
  m.lookup key

/-- NewCache: an empty store with the given capacity, time-to-live and switch. -/
def NewCache {V : Type} (maxSize : Int) (ttl : Int) (enabled : Bool) : Cache V :=
  { store := [], maxSize := maxSize, ttl := ttl, enabled := enabled }

/-- Get: `some v` stands for the Go result `(v, true)`, `none` for `(nil, false)`. -/
def Cache.Get {V : Type} (c : Cache V) (now : Int) (key : String) : Option V :=
  if !c.enabled then none
  else
    match mapIndex c.store key with
    | none => none
    | some entry => if entry.ExpireTime < now then none else some entry.Value

/-- One iteration of the loop of `evictOldest` on the pair `(oldestKey, oldestTime)`. -/
def evictOldestStep {V : Type} (acc : String × Int) (kv : String × CacheEntry V) : String × Int :=
  if acc.1 == "" || kv.2.ExpireTime < acc.2 then (kv.1, kv.2.ExpireTime) else acc

/-- The key `evictOldest` holds in `oldestKey` after its loop. The zero `time.Time` that
`oldestTime` starts from is never compared: the first entry visited is taken because
`oldestKey == ""`. -/
def evictOldestKey {V : Type} (visited : List (String × CacheEntry V)) : String :=
  (visited.foldl evictOldestStep ("", 0)).1

/-- evictOldest: scan the store, then delete `oldestKey` unless it is the empty string. -/
def Cache.evictOldest {V : Type} (c : Cache V) (ord : RangeOrder V) : Cache V :=
  let oldestKey := evictOldestKey (ord.run c.store)
  if oldestKey != "" then { c with store := mapDelete c.store oldestKey } else c

/-- Set: on an enabled cache, evict when `len(c.store) >= c.maxSize`, then store the entry with
expiry `now + ttl`. -/
def Cache.Set {V : Type} (c : Cache V) (ord : RangeOrder V) (now : Int) (key : String)
    (value : V) : Cache V :=
  if !c.enabled then c
  else
    let c1 := if (c.store.length : Int) ≥ c.maxSize then c.evictOldest ord else c
    { c1 with store := mapStore c1.store key ⟨value, now + c.ttl⟩ }

/-- Delete: on an enabled cache, remove the key. -/
def Cache.Delete {V : Type} (c : Cache V) (key : String) : Cache V :=
  if !c.enabled then c else { c with store := mapDelete c.store key }

/-- Clear: on an enabled cache, replace the store by an empty one. -/
def Cache.Clear {V : Type} (c : Cache V) : Cache V :=
  if !c.enabled then c else { c with store := [] }

/-- Size: `len(c.store)`. -/
def Cache.Size {V : Type} (c : Cache V) : Nat :=
  c.store.length

/-- cleanup: the sweep; every entry with `now.After(entry.ExpireTime)` is deleted. -/
def Cache.cleanup {V : Type} (c : Cache V) (now : Int) : Cache V :=
  { c with store := c.store.filter (fun p => !decide (p.2.ExpireTime < now)) }

/-- A call on the cache that changes it, as a value: a client's `Set`, `Delete` or `Clear`, or a
tick of the cleanup routine. -/
inductive CacheOp (V : Type) where
  | set (ord : RangeOrder V) (key : String) (value : V)
  | delete (key : String)
  | clear
  | sweep

/-- Perform one call at clock reading `now`. -/
def Cache.apply {V : Type} (c : Cache V) (now : Int) : CacheOp V → Cache V
  | .set ord key value => c.Set ord now key value
  | .delete key => c.Delete key
  | .clear => c.Clear
  | .sweep => c.cleanup now

/-- Perform a sequence of calls, each with its clock reading, from left to right. -/
def Cache.run {V : Type} (c : Cache V) : List (Int × CacheOp V) → Cache V
  | [] => c
  | (now, op) :: rest => (c.apply now op).run rest

/-- Untouched k c trace: along `trace`, run from `c`, no client call overwrites, deletes, evicts or
clears the key `k`: a `Set` is on another key and its eviction leaves the binding of `k` as it
was, a `Delete` is on another key, and there is no `Clear`. Sweeps are unconstrained. -/
def Cache.Untouched {V : Type} (k : String) : Cache V → List (Int × CacheOp V) → Prop
  | _, [] => True
  | c, (now, op) :: rest =>
    (match op with
      | .set ord key value =>
        key ≠ k ∧ mapIndex (c.Set ord now key value).store k = mapIndex c.store k
      | .delete key => key ≠ k
      | .clear => False
      | .sweep => True) ∧
    Cache.Untouched k (c.apply now op) rest

/-- Go's `[]byte(s)`: the UTF-8 bytes of a string. -/
def stringBytes (s : String) : List UInt8 :=
  s.toUTF8.data.toList

/-- GenerateKey: the hasher is written `data` and then the bytes of every option, in order, and
the key is the digest of all that was written. The digest, `hex.EncodeToString` of the SHA-256
sum, comes from Go's standard library and is the argument `sum`. -/
def GenerateKey (sum : List UInt8 → String) (data : List UInt8) (options : List String) :
    String :=
  sum (options.foldl (fun written opt => written ++ stringBytes opt) data)

/-- Go's `fmt.Sprintf("%t", b)`. -/
def formatBool (b : Bool) : String :=
  if b then "true" else "false"

/-! ## internal/tools/handler.go -/

/-- The `cacheKey` of `Handler.recognizeImage`:
`cache.GenerateKey(imageData, language, fmt.Sprintf("%t", preprocess))`. -/
def cacheKey (sum : List UInt8 → String) (imageData : List UInt8) (language : String)
    (preprocess : Bool) : String :=
  GenerateKey sum imageData [language, formatBool preprocess]

/-! ## internal/preprocessing/analyzer.go

A `float64` reading or threshold is a rational number: every finite `float64` is one, and Go's
`<` and `>` on finite values are the exact order. NaN is not represented. -/

/-- ImageQuality: the result of a quality analysis. -/
structure ImageQuality where
  Sharpness : Rat
  Contrast : Rat
  Brightness : Rat
  NeedsPreprocessing : Bool
  SuggestedPipeline : List String
deriving DecidableEq

/-- QualityAnalyzer: the four thresholds. -/
structure QualityAnalyzer where
  sharpnessThreshold : Rat
  contrastThreshold : Rat
  brightnessMinThreshold : Rat
  brightnessMaxThreshold : Rat
deriving DecidableEq

/-- NewQualityAnalyzer: the maximum brightness threshold is fixed at 200. -/
def NewQualityAnalyzer (sharpnessThreshold contrastThreshold brightnessMin : Rat) :
    QualityAnalyzer :=
  { sharpnessThreshold := sharpnessThreshold
    contrastThreshold := contrastThreshold
    brightnessMinThreshold := brightnessMin
    brightnessMaxThreshold := 200 }

/-- determinePreprocessingNeed. -/
def QualityAnalyzer.determinePreprocessingNeed (a : QualityAnalyzer) (quality : ImageQuality) :
    Bool :=
  if quality.Sharpness < a.sharpnessThreshold then true
  else if quality.Contrast < a.contrastThreshold then true
  else if quality.Brightness < a.brightnessMinThreshold ∨
      quality.Brightness > a.brightnessMaxThreshold then true
  else false

/-- generatePipeline: the list grows by one `append` per statement of the Go function. -/
def QualityAnalyzer.generatePipeline (a : QualityAnalyzer) (quality : ImageQuality) :
    List String :=
  let pipeline : List String := []
  let pipeline := pipeline ++ ["grayscale"]
  let pipeline :=
    if quality.Brightness < a.brightnessMinThreshold then pipeline ++ ["brighten"]
    else if quality.Brightness > a.brightnessMaxThreshold then pipeline ++ ["darken"]
    else pipeline
  let pipeline :=
    if quality.Contrast < a.contrastThreshold then pipeline ++ ["contrast_enhance"] else pipeline
  let pipeline :=
    if quality.Sharpness < a.sharpnessThreshold then pipeline ++ ["denoise"] else pipeline
  let pipeline := pipeline ++ ["binarization"]
  let pipeline := pipeline ++ ["deskew"]
  pipeline

/-- The three numbers `Analyze` measures on a decoded image (Laplacian variance, standard
deviation and mean of the grey levels); the measuring itself is done by the image library. -/
structure Readings where
  sharpness : Rat
  contrast : Rat
  brightness : Rat
deriving DecidableEq

/-- Analyze: `none` is an empty image, for which the Go function returns an error; otherwise
the readings are stored and the two decisions are derived from them. -/
def QualityAnalyzer.Analyze (a : QualityAnalyzer) (img : Option Readings) :
    Except String ImageQuality :=
  match img with
  | none => .error "empty image"
  | some r =>
    let quality : ImageQuality :=
      { Sharpness := r.sharpness, Contrast := r.contrast, Brightness := r.brightness
        NeedsPreprocessing := false, SuggestedPipeline := [] }
    let quality := { quality with NeedsPreprocessing := a.determinePreprocessingNeed quality }
    let quality := { quality with SuggestedPipeline := a.generatePipeline quality }
    .ok quality

/-! ## internal/preprocessing/pipeline.go -/

/-- Pipeline.determineSteps. The types of `analysis` and of `p.config.QualityThresholds` that
this file uses are declared nowhere in the sources at hand, so the four numbers the function
reads are its arguments: `thresholds.HighNoise`, `thresholds.SkewAngleThreshold`,
`analysis.NoiseLevel` and `analysis.SkewAngle`. -/
def Pipeline.determineSteps (HighNoise SkewAngleThreshold NoiseLevel SkewAngle : Rat) :
    List String :=
  let steps : List String := []
  let steps := steps ++ ["grayscale"]
  let steps := if NoiseLevel > HighNoise then steps ++ ["denoise"] else steps
  let steps := steps ++ ["binarization"]
  let steps := if SkewAngle > SkewAngleThreshold then steps ++ ["deskew"] else steps
  steps

/-! ## internal/preprocessing/preprocessor.go -/

/-- The `QualityThresholds` member of `Config`. -/
structure Config.Thresholds where
  Sharpness : Rat
  Contrast : Rat
  Brightness : Rat
deriving DecidableEq

/-- Config: the preprocessing configuration. -/
structure Config where
  Enabled : Bool
  AutoMode : Bool
  Grayscale : Bool
  Denoise : Bool
  DenoiseStrength : Int
  Binarization : Bool
  BinarizationMode : String
  AdaptiveBlockSize : Int
  AdaptiveC : Rat
  DeskewCorrection : Bool
  DeskewAngleLimit : Rat
  Resize : Bool
  ResizeWidth : Int
  ResizeHeight : Int
  QualityThresholds : Config.Thresholds
deriving DecidableEq

/-- Preprocessor: a configuration and the analyzer built from it. -/
structure Preprocessor where
  config : Config
  analyzer : QualityAnalyzer
deriving DecidableEq

/-- NewPreprocessor. -/
def NewPreprocessor (config : Config) : Preprocessor :=
  { config := config
    analyzer := NewQualityAnalyzer config.QualityThresholds.Sharpness
      config.QualityThresholds.Contrast config.QualityThresholds.Brightness }

/-- getDefaultPipeline: one step per configuration switch that is on. -/
def Preprocessor.getDefaultPipeline (p : Preprocessor) : List String :=
  let pipeline : List String := []
  let pipeline := if p.config.Grayscale then pipeline ++ ["grayscale"] else pipeline
  let pipeline := if p.config.Denoise then pipeline ++ ["denoise"] else pipeline
  let pipeline := if p.config.Binarization then pipeline ++ ["binarization"] else pipeline
  let pipeline := if p.config.DeskewCorrection then pipeline ++ ["deskew"] else pipeline
  let pipeline := if p.config.Resize then pipeline ++ ["resize"] else pipeline
  pipeline

/-- The step list `Preprocessor.Process` settles on (its `pipeline` variable) for an enabled
preprocessor and a decoded image `img`. `Process` turns an empty image away before this point,
so there `img` is `some` readings; the function is total all the same. -/
def Preprocessor.pipeline (p : Preprocessor) (img : Option Readings) : List String :=
  if p.config.AutoMode then
    match p.analyzer.Analyze img with
    | .error _ => p.getDefaultPipeline
    | .ok quality => quality.SuggestedPipeline
  else p.getDefaultPipeline

/-! ## Wording of the specification, for comparison with the code -/

/-- The part of a step list up to and including the first occurrence of `step`. -/
def uptoStep (step : String) : List String → List String
  | [] => []
  | s :: rest => if s == step then [s] else s :: uptoStep step rest

/-- The steps of `[grayscale, denoise, binarization, deskew, resize]` whose switch is on. -/
def switchedSteps (grayscale denoise binarization deskew resize : Bool) : List String :=
  ([("grayscale", grayscale), ("denoise", denoise), ("binarization", binarization),
    ("deskew", deskew), ("resize", resize)].filter (fun s => s.2)).map (fun s => s.1)

/-- A sample analyzer: thresholds 100 (sharpness), 50 (contrast), 50 (minimum brightness). -/
def sampleAnalyzer : QualityAnalyzer :=
  NewQualityAnalyzer 100 50 50

/-- A sample reading: low sharpness 10, high contrast 80, normal brightness 120. -/
def blurredReading : ImageQuality :=
  { Sharpness := 10, Contrast := 80, Brightness := 120
    NeedsPreprocessing := true, SuggestedPipeline := [] }

/-- A configuration with automatic mode off and the switches grayscale, binarization and
resize on. -/
def manualConfig : Config :=
  { Enabled := true, AutoMode := false, Grayscale := true, Denoise := false
    DenoiseStrength := 5, Binarization := true, BinarizationMode := "otsu"
    AdaptiveBlockSize := 11, AdaptiveC := 2, DeskewCorrection := false
    DeskewAngleLimit := 10, Resize := true, ResizeWidth := 800, ResizeHeight := 0
    QualityThresholds := { Sharpness := 100, Contrast := 50, Brightness := 50 } }

/-! ## internal/preprocessing/pipeline.go: `Pipeline.Process`

An image (`gocv.Mat`) is a value of an arbitrary type `M`. A `Processor` is its `Process`
method, a function from an image to an image or an error message. -/

/-- AnalysisResult: declared outside the sources at hand; these are the two fields that
`determineSteps` reads. -/
structure AnalysisResult where
  NoiseLevel : Rat
  SkewAngle : Rat
deriving DecidableEq

/-- Pipeline: the analyzer (its `Analyze` method, declared outside the sources at hand), the two
thresholds `determineSteps` reads from the configuration, and the `processors` map. -/
structure Pipeline (M : Type) where
  analyzer : M → AnalysisResult
  HighNoise : Rat
  SkewAngleThreshold : Rat
  processors : List (String × (M → Except String M))

/-- NewPipeline: the four processors are registered under their step names. The transforms
themselves are calls into the image library. -/
def NewPipeline {M : Type} (analyzer : M → AnalysisResult) (HighNoise SkewAngleThreshold : Rat)
    (grayscale binarization denoise deskew : M → Except String M) : Pipeline M :=
  { analyzer := analyzer
    HighNoise := HighNoise
    SkewAngleThreshold := SkewAngleThreshold
    processors := [("grayscale", grayscale), ("binarization", binarization),
      ("denoise", denoise), ("deskew", deskew)] }

/-- What `Pipeline.Process` returns: the image (`none` for the zero `gocv.Mat{}`), the applied
steps, the analysis (`none` for `nil`) and the error (`none` for `nil`). -/
structure Pipeline.Output (M : Type) where
  result : Option M
  appliedSteps : List String
  analysis : Option AnalysisResult
  err : Option String

/-- The loop of `Pipeline.Process` over the remaining `steps`, from the current `result` and
`appliedSteps`: a step without a registered processor is passed over, a failing processor ends
the loop. -/
def Pipeline.loop {M : Type} (p : Pipeline M) (analysis : AnalysisResult) :
    List String → M → List String → Pipeline.Output M
  | [], result, appliedSteps =>
    { result := some result, appliedSteps := appliedSteps, analysis := some analysis, err := none }
  | step :: rest, result, appliedSteps =>
    match p.processors.lookup step with
    | none => Pipeline.loop p analysis rest result appliedSteps
    | some processor =>
      match processor result with
      | .error err =>
        { result := none, appliedSteps := appliedSteps, analysis := some analysis
          err := some ("failed to process " ++ step ++ ": " ++ err) }
      | .ok processed => Pipeline.loop p analysis rest processed (appliedSteps ++ [step])

/-- Pipeline.Process: `Empty` is `gocv.Mat.Empty`. -/
def Pipeline.Process {M : Type} (p : Pipeline M) (Empty : M → Bool) (img : M) :
    Pipeline.Output M :=
  if Empty img then
    { result := none, appliedSteps := [], analysis := none, err := some "input image is empty" }
  else
    let analysis := p.analyzer img
    let steps := Pipeline.determineSteps p.HighNoise p.SkewAngleThreshold analysis.NoiseLevel
      analysis.SkewAngle
    Pipeline.loop p analysis steps img []

/-- The processor registered for `step`, as a function that fails with the message
`"no processor"` when there is none. -/
def Pipeline.processorOf {M : Type} (p : Pipeline M) (step : String) (input : M) :
    Except String M :=
  match p.processors.lookup step with
  | none => .error "no processor"
  | some processor => processor input

/-- The processors of `steps` applied from left to right, each to the output of the one before,
stopping at the first failure. -/
def Pipeline.applyInOrder {M : Type} (p : Pipeline M) : List String → M → Except String M
  | [], input => .ok input
  | step :: rest, input =>
    match p.processorOf step input with
    | .error err => .error err
    | .ok output => Pipeline.applyInOrder p rest output

/-! ## pkg/errors/errors.go -/

/-- ErrorCode: the eight error codes. -/
inductive ErrorCode where
  | ErrInvalidInput
  | ErrFileNotFound
  | ErrUnsupportedFormat
  | ErrImageTooLarge
  | ErrPreprocessingFailed
  | ErrOCREngineFailed
  | ErrTimeout
  | ErrInternalError
deriving DecidableEq

/-- The string constant of a code. -/
def ErrorCode.text : ErrorCode → String
  | .ErrInvalidInput => "INVALID_INPUT"
  | .ErrFileNotFound => "FILE_NOT_FOUND"
  | .ErrUnsupportedFormat => "UNSUPPORTED_FORMAT"
  | .ErrImageTooLarge => "IMAGE_TOO_LARGE"
  | .ErrPreprocessingFailed => "PREPROCESSING_FAILED"
  | .ErrOCREngineFailed => "OCR_ENGINE_FAILED"
  | .ErrTimeout => "TIMEOUT"
  | .ErrInternalError => "INTERNAL_ERROR"

/-- OCRError: code, message and the message of the wrapped error, if any. `Details` is empty
and `StackTrace` unset in every error the code builds; both are left out. -/
structure OCRError where
  Code : ErrorCode
  Message : String
  Err : Option String
deriving DecidableEq

/-- OCRError.Error: the text of the error. -/
def OCRError.Error (e : OCRError) : String :=
  match e.Err with
  | some err => "[" ++ e.Code.text ++ "] " ++ e.Message ++ ": " ++ err
  | none => "[" ++ e.Code.text ++ "] " ++ e.Message

/-- New: an error without a wrapped error. -/
def ocrErrors.New (code : ErrorCode) (message : String) : OCRError :=
  { Code := code, Message := message, Err := none }

/-- Wrap: an error around `err`. -/
def ocrErrors.Wrap (err : String) (code : ErrorCode) (message : String) : OCRError :=
  { Code := code, Message := message, Err := some err }

/-! ## internal/ocr/engine.go, internal/ocr/tesseract.go -/

/-- EngineConfig. -/
structure EngineConfig where
  Language : String
  DataPath : String
  PageSegMode : Int
  EngineMode : Int
  Whitelist : String
  Timeout : Int
deriving DecidableEq

/-- RecognizeOptions: `Metadata` is a map from strings to strings. -/
structure RecognizeOptions where
  Language : String
  PageSegMode : Option Int
  Preprocess : Bool
  Metadata : List (String × String)
deriving DecidableEq

/-- RecognizeResult. -/
structure RecognizeResult where
  Text : String
  Confidence : Rat
  Language : String
  Duration : Int
  Metadata : List (String × String)
deriving DecidableEq

/-- What the Tesseract client and the context do during one `RecognizeText`: the error, if any,
of `SetLanguage`, `SetPageSegMode` and `SetImageFromBytes`; whether `ctx.Done()` is the case the
`select` takes; what `Text` and `MeanConfidence` return; and the time the call takes. -/
structure ClientRun where
  SetLanguage : Option String
  SetPageSegMode : Option String
  SetImageFromBytes : Option String
  ctxDone : Bool
  Text : Except String String
  MeanConfidence : Except String Int
  elapsed : Int

/-- TesseractEngine: its configuration, and the behaviour of the client library for a language,
a page segmentation mode and image bytes. -/
structure TesseractEngine where
  config : EngineConfig
  client : String → Int → List UInt8 → ClientRun

/-- getLanguage. -/
def TesseractEngine.getLanguage (e : TesseractEngine) (opts : RecognizeOptions) : String :=
  if opts.Language != "" then opts.Language else e.config.Language

/-- The page segmentation mode `configureClient` arrives at. -/
def TesseractEngine.pageSegMode (e : TesseractEngine) (opts : RecognizeOptions) : Int :=
  match opts.PageSegMode with
  | some psm => psm
  | none => e.config.PageSegMode

/-- configureClient: `none` stands for a `nil` error. -/
def TesseractEngine.configureClient (e : TesseractEngine) (run : ClientRun)
    (opts : RecognizeOptions) : Option OCRError :=
  match run.SetLanguage with
  | some err => some (ocrErrors.Wrap err .ErrOCREngineFailed "failed to set language")
  | none =>
    if e.pageSegMode opts > 0 then
      match run.SetPageSegMode with
      | some err => some (ocrErrors.Wrap err .ErrOCREngineFailed "failed to set page seg mode")
      | none => none
    else none

/-- getConfidence: 0 when the client cannot tell. -/
def TesseractEngine.getConfidence (run : ClientRun) : Rat :=
  match run.MeanConfidence with
  | .error _ => 0
  | .ok conf => conf

/-- RecognizeText. -/
def TesseractEngine.RecognizeText (e : TesseractEngine) (imageData : List UInt8)
    (opts : RecognizeOptions) : Except OCRError RecognizeResult :=
  let run := e.client (e.getLanguage opts) (e.pageSegMode opts) imageData
  match e.configureClient run opts with
  | some err => .error err
  | none =>
    match run.SetImageFromBytes with
    | some err => .error (ocrErrors.Wrap err .ErrOCREngineFailed "failed to set image data")
    | none =>
      if run.ctxDone then .error (ocrErrors.New .ErrTimeout "OCR operation timeout")
      else
        match run.Text with
        | .error err => .error (ocrErrors.Wrap err .ErrOCREngineFailed "OCR recognition failed")
        | .ok text =>
          .ok { Text := text
                Confidence := TesseractEngine.getConfidence run
                Language := e.getLanguage opts
                Duration := run.elapsed
                Metadata := opts.Metadata }

/-! ## internal/preprocessing/preprocessor.go: `Preprocessor.Process` -/

/-- The calls into the image library that `Preprocessor.Process` makes, on images of type `M`:
decoding and encoding, the emptiness test, the three measurements of `Analyze`, and the
transforms behind the steps. -/
structure ImageLib (M : Type) where
  IMDecode : List UInt8 → Except String M
  IMEncode : M → Except String (List UInt8)
  Empty : M → Bool
  measure : M → Readings
  toGray : M → M
  denoise : M → M
  thresholdOtsu : M → M
  adaptiveThreshold : Int → Rat → M → M
  skewAngle : M → Rat
  rotate : Rat → M → M
  enhanceContrast : M → M
  convertTo : Int → M → M
  resize : Int → Int → M → M

/-- applyBinarization. -/
def Preprocessor.applyBinarization {M : Type} (p : Preprocessor) (lib : ImageLib M) (img : M) :
    M :=
  let gray := lib.toGray img
  if p.config.BinarizationMode == "otsu" then lib.thresholdOtsu gray
  else if p.config.BinarizationMode == "adaptive" then
    lib.adaptiveThreshold p.config.AdaptiveBlockSize p.config.AdaptiveC gray
  else lib.thresholdOtsu gray

/-- applyDeskew: the image is rotated when the measured angle is above 0.5 and below the
configured limit in magnitude. -/
def Preprocessor.applyDeskew {M : Type} (p : Preprocessor) (lib : ImageLib M) (img : M) : M :=
  let angle := lib.skewAngle (lib.toGray img)
  if |angle| > 1 / 2 ∧ |angle| < p.config.DeskewAngleLimit then lib.rotate angle img else img

/-- applyStep: the error the Go function returns is always `nil`, so the result is the
image. -/
def Preprocessor.applyStep {M : Type} (p : Preprocessor) (lib : ImageLib M) (img : M)
    (step : String) : M :=
  if step == "grayscale" then lib.toGray img
  else if step == "denoise" then (if p.config.Denoise then lib.denoise img else img)
  else if step == "binarization" then
    (if p.config.Binarization then p.applyBinarization lib img else img)
  else if step == "deskew" then
    (if p.config.DeskewCorrection then p.applyDeskew lib img else img)
  else if step == "contrast_enhance" then lib.enhanceContrast img
  else if step == "brighten" then lib.convertTo 30 img
  else if step == "darken" then lib.convertTo (-30) img
  else if step == "resize" then
    (if p.config.Resize then lib.resize p.config.ResizeWidth p.config.ResizeHeight img else img)
  else img

/-- Process: decode, choose the steps, apply them in order, encode. -/
def Preprocessor.Process {M : Type} (p : Preprocessor) (lib : ImageLib M)
    (imageData : List UInt8) : Except OCRError (List UInt8) :=
  if !p.config.Enabled then .ok imageData
  else
    match lib.IMDecode imageData with
    | .error err => .error (ocrErrors.Wrap err .ErrPreprocessingFailed "failed to decode image")
    | .ok img =>
      if lib.Empty img then
        .error (ocrErrors.New .ErrPreprocessingFailed "decoded image is empty")
      else
        let pipeline := p.pipeline (some (lib.measure img))
        let processed := pipeline.foldl (fun m step => p.applyStep lib m step) img
        match lib.IMEncode processed with
        | .error err =>
          .error (ocrErrors.Wrap err .ErrPreprocessingFailed "failed to encode processed image")
        | .ok buf => .ok buf

/-! ## internal/tools/handler.go: `recognizeImage` and `handleBatchRecognize`

The handler's engine is the `TesseractEngine` that `NewHandler` builds. A call returns its
result together with the cache as it leaves it and the list of the calls it made on the cache,
the preprocessor and the engine, in order. -/

/-- Handler: the engine, the preprocessor, the cache, and the two configuration values the
handlers read (`config.OCR.MaxImageSize`, `config.OCR.Language`). -/
structure Handler where
  engine : TesseractEngine
  preprocessor : Preprocessor
  cache : Cache RecognizeResult
  MaxImageSize : Int
  Language : String

/-- One call made by `recognizeImage` on a collaborator. -/
inductive Invocation where
  | lookup (key : String)
  | preprocess (imageData : List UInt8)
  | recognize (imageData : List UInt8) (opts : RecognizeOptions)
  | store (key : String)
deriving DecidableEq

/-- What one `recognizeImage` call yields. -/
structure RecognizeRun where
  result : Except OCRError RecognizeResult
  cache : Cache RecognizeResult
  calls : List Invocation

/-- The options `recognizeImage` passes to the engine. -/
def Handler.recognizeOptions (language : String) (preprocess autoMode : Bool) :
    RecognizeOptions :=
  { Language := language, PageSegMode := none, Preprocess := preprocess
    Metadata := [("auto_mode", formatBool autoMode)] }

/-- The `processedData` of `recognizeImage`: the preprocessor's output, or the original bytes
when preprocessing is off or fails. -/
def Handler.processedData {M : Type} (h : Handler) (lib : ImageLib M) (imageData : List UInt8)
    (preprocess : Bool) : List UInt8 :=
  if preprocess then
    match h.preprocessor.Process lib imageData with
    | .error _ => imageData
    | .ok processed => processed
  else imageData

/-- recognizeImage: `nowGet` and `nowSet` are the clock readings of the cache lookup and of
the cache write, `ord` the order of the eviction scan of that write. -/
def Handler.recognizeImage {M : Type} (h : Handler) (sum : List UInt8 → String)
    (lib : ImageLib M) (ord : RangeOrder RecognizeResult) (nowGet nowSet : Int)
    (imageData : List UInt8) (language : String) (preprocess autoMode : Bool) : RecognizeRun :=
  if (imageData.length : Int) > h.MaxImageSize then
    { result := .error (ocrErrors.New .ErrImageTooLarge
        ("image size exceeds limit: " ++ toString imageData.length ++ " bytes"))
      cache := h.cache, calls := [] }
  else
    let key := cacheKey sum imageData language preprocess
    match h.cache.Get nowGet key with
    | some cached => { result := .ok cached, cache := h.cache, calls := [.lookup key] }
    | none =>
      let processedData := h.processedData lib imageData preprocess
      let calls := if preprocess then [Invocation.lookup key, .preprocess imageData]
        else [Invocation.lookup key]
      let opts := Handler.recognizeOptions language preprocess autoMode
      match h.engine.RecognizeText processedData opts with
      | .error err =>
        { result := .error err, cache := h.cache
          calls := calls ++ [.recognize processedData opts] }
      | .ok result =>
        { result := .ok result, cache := h.cache.Set ord nowSet key result
          calls := calls ++ [.recognize processedData opts, .store key] }

/-- What the file system answers for a path (after `filepath.Clean`): no such file, a file
that cannot be read, or the bytes of the file. -/
inductive FileState where
  | absent
  | unreadable (err : String)
  | content (data : List UInt8)

/-- readImageFile. -/
def Handler.readImageFile (fs : String → FileState) (path : String) :
    Except OCRError (List UInt8) :=
  match fs path with
  | .absent => .error (ocrErrors.New .ErrFileNotFound ("file not found: " ++ path))
  | .unreadable err => .error (ocrErrors.Wrap err .ErrInternalError "failed to read image file")
  | .content data => .ok data

/-- The arguments of a batch call. `image_paths` is `none` when the argument is missing or is
not an array; an element is `none` when it is not a string. The other three are `none` when
missing or of another type. -/
structure BatchArgs where
  image_paths : Option (List (Option String))
  language : Option String
  preprocess : Option Bool
  auto_mode : Option Bool

/-- One entry of the `results` array of a batch response. `duration` is the `Duration` whose
seconds the entry reports. -/
inductive BatchEntry where
  | failed (path : String) (error : String)
  | recognized (path : String) (text : String) (confidence : Rat) (language : String)
      (duration : Int)
deriving DecidableEq

/-- The `path` field of an entry. -/
def BatchEntry.path : BatchEntry → String
  | .failed path _ => path
  | .recognized path _ _ _ _ => path

/-- Whether an entry is an error entry. -/
def BatchEntry.isError : BatchEntry → Bool
  | .failed _ _ => true
  | .recognized _ _ _ _ _ => false

/-- What one goroutine of a batch finds when it runs: the shared cache at the moment of its
lookup, the order of its eviction scan, and its two clock readings. -/
structure Turn where
  cache : Cache RecognizeResult
  ord : RangeOrder RecognizeResult
  nowGet : Int
  nowSet : Int

/-- The body of the goroutine started for one path: the entry it writes to `results[index]`. -/
def Handler.batchItem {M : Type} (h : Handler) (sum : List UInt8 → String) (lib : ImageLib M)
    (fs : String → FileState) (turn : Turn) (imagePath : String) (language : String)
    (preprocess autoMode : Bool) : BatchEntry :=
  match Handler.readImageFile fs imagePath with
  | .error err => .failed imagePath err.Error
  | .ok imageData =>
    match ({ h with cache := turn.cache }.recognizeImage sum lib turn.ord turn.nowGet turn.nowSet
        imageData language preprocess autoMode).result with
    | .error err => .failed imagePath err.Error
    | .ok result =>
      .recognized imagePath result.Text result.Confidence result.Language result.Duration

/-- The string elements of the `image_paths` array, in order. -/
def Handler.stringElements : List (Option String) → List String
  | [] => []
  | none :: rest => Handler.stringElements rest
  | some path :: rest => path :: Handler.stringElements rest

/-- The data of a successful batch response. An element of `results` is `none` while its
goroutine has not written it. -/
structure BatchResponse where
  results : List (Option BatchEntry)
  count : Nat

/-- handleBatchRecognize. `turns index` is what the goroutine of `index` finds, and
`completion` lists the indices in the order in which the goroutines write their entries; the
call returns once all of them have, so `completion` is a rearrangement of the indices. -/
def Handler.handleBatchRecognize {M : Type} (h : Handler) (sum : List UInt8 → String)
    (lib : ImageLib M) (fs : String → FileState) (args : BatchArgs) (turns : Nat → Turn)
    (completion : List Nat) : Except OCRError BatchResponse :=
  match args.image_paths with
  | none => .error (ocrErrors.New .ErrInvalidInput "image_paths is required")
  | some imagePathsInterface =>
    let imagePaths := Handler.stringElements imagePathsInterface
    if imagePaths.length = 0 then
      .error (ocrErrors.New .ErrInvalidInput "no valid image paths provided")
    else
      let language := args.language.getD h.Language
      let preprocess := args.preprocess.getD true
      let autoMode := args.auto_mode.getD true
      let results := completion.foldl
        (fun results index =>
          match imagePaths[index]? with
          | none => results
          | some imagePath =>
            results.set index
              (some (h.batchItem sum lib fs (turns index) imagePath language preprocess autoMode)))
        (List.replicate imagePaths.length none)
      .ok { results := results, count := results.length }

/-! ## Sample values for the handler -/

/-- A digest for the samples: the number of bytes written, as text. -/
def sampleSum (written : List UInt8) : String :=
  toString written.length

/-- A client that reads "hello" with confidence 90 in 5 time units. -/
def sampleClientRun : ClientRun :=
  { SetLanguage := none, SetPageSegMode := none, SetImageFromBytes := none, ctxDone := false
    Text := .ok "hello", MeanConfidence := .ok 90, elapsed := 5 }

/-- An engine with that client for every input. -/
def sampleEngine : TesseractEngine :=
  { config := { Language := "eng", DataPath := "", PageSegMode := 3, EngineMode := 3
                Whitelist := "", Timeout := 30 }
    client := fun _ _ _ => sampleClientRun }

/-- A configuration with preprocessing enabled and automatic mode on. -/
def autoConfig : Config :=
  { manualConfig with AutoMode := true }

/-- A handler with an empty enabled cache of capacity 10 and time-to-live 100, and an image
size limit of 1000 bytes. -/
def sampleHandler : Handler :=
  { engine := sampleEngine, preprocessor := NewPreprocessor autoConfig
    cache := NewCache 10 100 true, MaxImageSize := 1000, Language := "eng" }

/-- An image library, on images that are byte lists, whose decoder rejects every input. -/
def brokenLib : ImageLib (List UInt8) :=
  { IMDecode := fun _ => .error "cannot decode", IMEncode := fun m => .ok m
    Empty := fun m => m.isEmpty, measure := fun _ => ⟨10, 80, 120⟩
    toGray := fun m => m, denoise := fun m => m, thresholdOtsu := fun m => m
    adaptiveThreshold := fun _ _ m => m, skewAngle := fun _ => 0, rotate := fun _ m => m
    enhanceContrast := fun m => m, convertTo := fun _ m => m, resize := fun _ _ m => m }

/-- A file system with the readable files "A" and "C" and nothing else. -/
def sampleFiles (path : String) : FileState :=
  if path == "A" then .content [1, 2, 3]
  else if path == "C" then .content [4, 5]
  else .absent

/-- What every goroutine of the sample batch finds: the empty cache, at clock reading 0. -/
def sampleTurn : Turn :=
  { cache := NewCache 10 100 true, ord := RangeOrder.stored, nowGet := 0, nowSet := 1 }

/-! ## internal/pool/worker_pool.go

A buffered channel is the list of the values it holds, its capacity and a closed flag. The
worker goroutines and the goroutine that receives from `Results()` run concurrently with the
callers of `Start`, `Stop` and `Submit`; their moves are the events of `pool.Event`, each with a
guard, and a course of the pool is a list of calls and events. Taking a task and executing it
is one event: `Execute` does not touch the pool. -/

/-- What one `Execute` returns (value and error), with the time it took. -/
structure pool.Execution (V : Type) where
  Value : V
  Error : Option String
  elapsed : Int

/-- Task: its `ID`, and its `Execute` as a function of whether the context passed is done. -/
structure pool.Task (V : Type) where
  ID : String
  Execute : Bool → pool.Execution V

/-- Result. -/
structure pool.Result (V : Type) where
  TaskID : String
  Value : V
  Error : Option String
  Duration : Int
deriving DecidableEq

/-- WorkerPool. `taskQueue` and `resultQueue` are the buffers of the two channels, both of
capacity `queueSize`; `ctxDone` says whether `cancel` has been called; `workers` counts the
worker goroutines that have not returned (the counter of `wg`); `holding` lists the results of
the workers that wait in the inner `select` to send their result. Two histories are kept with
the state: `received`, the results received from `Results()` so far, and `accepted`, the tasks
`Submit` has accepted so far. -/
structure pool.WorkerPool (V : Type) where
  workerCount : Int
  queueSize : Nat
  taskQueue : List (pool.Task V)
  taskQueueClosed : Bool
  resultQueue : List (pool.Result V)
  resultQueueClosed : Bool
  ctxDone : Bool
  started : Bool
  workers : Nat
  holding : List (pool.Result V)
  received : List (pool.Result V)
  accepted : List (pool.Task V)

/-- NewWorkerPool. The capacity of the two channels is a natural number: `make` panics on a
negative size, so no pool exists with one. -/
def pool.NewWorkerPool {V : Type} (workerCount : Int) (queueSize : Nat) : pool.WorkerPool V :=
  { workerCount := workerCount, queueSize := queueSize
    taskQueue := [], taskQueueClosed := false
    resultQueue := [], resultQueueClosed := false
    ctxDone := false, started := false, workers := 0
    holding := [], received := [], accepted := [] }

/-- How a call ends: it returns, it panics, or it does not return. -/
inductive pool.Outcome (α : Type) where
  | returned (a : α)
  | panicked (msg : String)
  | blocked

/-- Start: the pool after the call and the error returned (`none` for `nil`). -/
def pool.WorkerPool.Start {V : Type} (p : pool.WorkerPool V) :
    pool.WorkerPool V × Option String :=
  if p.started then (p, some "worker pool already started")
  else ({ p with workers := p.workers + p.workerCount.toNat, started := true }, none)

/-- The `Result` a worker builds for a task it has executed. -/
def pool.Task.result {V : Type} (task : pool.Task V) (ctxDone : Bool) : pool.Result V :=
  { TaskID := task.ID
    Value := (task.Execute ctxDone).Value
    Error := (task.Execute ctxDone).Error
    Duration := (task.Execute ctxDone).elapsed }

/-- A move of a worker goroutine or of the receiver of `Results()`:
`take`, an idle worker receives the task at the head of the task queue and executes it;
`publish i`, the worker holding result `i` sends it into the buffer of the result queue;
`handover i`, that worker sends it directly to a receiver waiting on the empty result queue;
`receive`, the receiver takes the result at the head of the result queue;
`exit`, an idle worker returns because the task queue is closed and empty or the context done;
`drop i`, the worker holding result `i` returns because the context is done. -/
inductive pool.Event where
  | take
  | publish (i : Nat)
  | handover (i : Nat)
  | receive
  | exit
  | drop (i : Nat)
deriving DecidableEq

/-- The pool after an event, `none` when the event cannot happen in this state. A worker that
holds a result sends it only while the result queue is open: `Stop` closes that channel after
every worker has returned, and no worker takes a task afterwards, the task queue being closed
and drained by then. -/
def pool.WorkerPool.fire {V : Type} (p : pool.WorkerPool V) :
    pool.Event → Option (pool.WorkerPool V)
  | .take =>
    match p.taskQueue with
    | [] => none
    | task :: rest =>
      if p.holding.length < p.workers then
        some { p with taskQueue := rest, holding := p.holding ++ [task.result p.ctxDone] }
      else none
  | .publish i =>
    match p.holding[i]? with
    | none => none
    | some result =>
      if !p.resultQueueClosed ∧ p.resultQueue.length < p.queueSize then
        some { p with resultQueue := p.resultQueue ++ [result], holding := p.holding.eraseIdx i }
      else none
  | .handover i =>
    match p.holding[i]? with
    | none => none
    | some result =>
      if !p.resultQueueClosed ∧ p.resultQueue.length = 0 then
        some { p with received := p.received ++ [result], holding := p.holding.eraseIdx i }
      else none
  | .receive =>
    match p.resultQueue with
    | [] => none
    | result :: rest => some { p with resultQueue := rest, received := p.received ++ [result] }
  | .exit =>
    if p.holding.length < p.workers ∧ ((p.taskQueue.length = 0 ∧ p.taskQueueClosed) ∨ p.ctxDone)
    then some { p with workers := p.workers - 1 }
    else none
  | .drop i =>
    match p.holding[i]? with
    | none => none
    | some _ =>
      if p.ctxDone then some { p with holding := p.holding.eraseIdx i, workers := p.workers - 1 }
      else none

/-- The pool after a list of events, `none` when one of them cannot happen. -/
def pool.WorkerPool.exec {V : Type} (p : pool.WorkerPool V) :
    List pool.Event → Option (pool.WorkerPool V)
  | [] => some p
  | e :: rest =>
    match p.fire e with
    | none => none
    | some p1 => pool.WorkerPool.exec p1 rest

/-- Stop. `during` is what the workers and the receiver do while the call waits in
`wg.Wait()`; the call is still waiting (`blocked`) as long as a worker has not returned.
Closing a closed channel panics. -/
def pool.WorkerPool.Stop {V : Type} (p : pool.WorkerPool V) (during : List pool.Event) :
    pool.Outcome (pool.WorkerPool V) :=
  if !p.started then .returned p
  else if p.taskQueueClosed then .panicked "close of closed channel"
  else
    match ({ p with taskQueueClosed := true } : pool.WorkerPool V).exec during with
    | none => .blocked
    | some p1 =>
      if p1.workers != 0 then .blocked
      else if p1.resultQueueClosed then .panicked "close of closed channel"
      else .returned { p1 with ctxDone := true, resultQueueClosed := true, started := false }

/-- What is left to the scheduler when `Submit` reaches its `select`: whether an idle worker is
parked in its receive from the task queue at that instant, and whether the `ctx.Done()` case is
the one taken when the send can proceed as well. -/
structure pool.Select where
  receiverParked : Bool
  preferDone : Bool
deriving DecidableEq

/-- The send `p.taskQueue <- task` of `Submit`, once chosen: a send on a closed channel panics;
a buffer with room takes the task; otherwise the task goes directly to the parked worker, which
executes it. -/
def pool.WorkerPool.send {V : Type} (p : pool.WorkerPool V) (task : pool.Task V) :
    pool.Outcome (pool.WorkerPool V × Option String) :=
  if p.taskQueueClosed then .panicked "send on closed channel"
  else if p.taskQueue.length < p.queueSize then
    .returned ({ p with taskQueue := p.taskQueue ++ [task], accepted := p.accepted ++ [task] },
      none)
  else
    .returned ({ p with holding := p.holding ++ [task.result p.ctxDone]
                        accepted := p.accepted ++ [task] }, none)

/-- Whether the send case of the `select` of `Submit` can proceed: the channel is closed, or
its buffer has room, or its buffer is empty and a worker is parked in the receive. -/
def pool.WorkerPool.sendReady {V : Type} (p : pool.WorkerPool V) (sel : pool.Select) : Bool :=
  p.taskQueueClosed || decide (p.taskQueue.length < p.queueSize) ||
    (decide (p.taskQueue.length = 0) && decide (p.holding.length < p.workers) &&
      sel.receiverParked)

/-- Submit: the pool after the call and the error returned (`none` for `nil`). -/
def pool.WorkerPool.Submit {V : Type} (p : pool.WorkerPool V) (sel : pool.Select)
    (task : pool.Task V) : pool.Outcome (pool.WorkerPool V × Option String) :=
  if !p.started then .returned (p, some "worker pool not started")
  else if p.sendReady sel then
    if p.ctxDone && sel.preferDone then .returned (p, some "worker pool stopped")
    else p.send task
  else if p.ctxDone then .returned (p, some "worker pool stopped")
  else .returned (p, some "task queue full")

/-- One step of a course of the pool between `Start` and `Stop`: a `Submit` call or an
event. -/
inductive pool.Step (V : Type) where
  | submit (sel : pool.Select) (task : pool.Task V)
  | event (e : pool.Event)

/-- The pool after a list of steps; `none` when an event cannot happen or a `Submit` does not
return. -/
def pool.WorkerPool.run {V : Type} (p : pool.WorkerPool V) :
    List (pool.Step V) → Option (pool.WorkerPool V)
  | [] => some p
  | .submit sel task :: rest =>
    match p.Submit sel task with
    | .returned (p1, _) => pool.WorkerPool.run p1 rest
    | .panicked _ => none
    | .blocked => none
  | .event e :: rest =>
    match p.fire e with
    | none => none
    | some p1 => pool.WorkerPool.run p1 rest

/-- A pool between `Start` and `Stop`: started, both channels open, the context live. -/
def pool.WorkerPool.Open {V : Type} (p : pool.WorkerPool V) : Prop :=
  p.started = true ∧ p.taskQueueClosed = false ∧ p.resultQueueClosed = false ∧ p.ctxDone = false

/-- The task IDs present in the pool or already handed out: of the queued tasks, of the
results held by workers, of the results in the result queue and of the results received. -/
def pool.WorkerPool.accountedIDs {V : Type} (p : pool.WorkerPool V) : List String :=
  p.taskQueue.map (fun t => t.ID) ++ p.holding.map (fun r => r.TaskID)
    ++ p.resultQueue.map (fun r => r.TaskID) ++ p.received.map (fun r => r.TaskID)

/-- The results sent on the result queue so far: those in its buffer and those received. -/
def pool.WorkerPool.published {V : Type} (p : pool.WorkerPool V) : List (pool.Result V) :=
  p.resultQueue ++ p.received

/-- A bound on the events that can still happen without a further `Submit`: three for a queued
task (take, publish, receive), two for a held result, one for a result in the result queue. -/
def pool.WorkerPool.backlog {V : Type} (p : pool.WorkerPool V) : Nat :=
  3 * p.taskQueue.length + 2 * p.holding.length + p.resultQueue.length

/-- What holds of a pool all along a course between `Start` and `Stop`: it is open; the
accounted task IDs are the IDs of the accepted tasks, each as often; every queued task was
accepted; and every result, held, queued or received, is the result of an accepted task
executed under the live context. -/
def pool.WorkerPool.Inv {V : Type} (p : pool.WorkerPool V) : Prop :=
  p.Open ∧ p.accountedIDs.Perm (p.accepted.map (fun t => t.ID)) ∧
  (∀ t ∈ p.taskQueue, t ∈ p.accepted) ∧
  (∀ r ∈ p.holding ++ p.resultQueue ++ p.received, ∃ t ∈ p.accepted, r = t.result false)

/-- The task of the pool's test: it returns "result-task1" after 10 time units. -/
def pool.sampleTask : pool.Task String :=
  { ID := "task1", Execute := fun _ => { Value := "result-task1", Error := none, elapsed := 10 } }

/-- The failing task of the pool's test: it returns the error "test error". -/
def pool.failingTask : pool.Task String :=
  { ID := "task-error", Execute := fun _ => { Value := "", Error := some "test error", elapsed := 0 } }

/-- A course of the started sample pool: the two sample tasks are submitted, two workers take
them, both results are published and then received. -/
def pool.sampleCourse : List (pool.Step String) :=
  [.submit { receiverParked := false, preferDone := false } pool.sampleTask,
   .submit { receiverParked := false, preferDone := false } pool.failingTask,
   .event .take, .event .take, .event (.publish 0), .event (.publish 0),
   .event .receive, .event .receive]

/-- The pool at the end of the sample course. -/
def pool.sampleEnd : pool.WorkerPool String :=
  { workerCount := 2, queueSize := 10
    taskQueue := [], taskQueueClosed := false
    resultQueue := [], resultQueueClosed := false
    ctxDone := false, started := true, workers := 2
    holding := []
    received := [{ TaskID := "task1", Value := "result-task1", Error := none, Duration := 10 },
      { TaskID := "task-error", Value := "", Error := some "test error", Duration := 0 }]
    accepted := [pool.sampleTask, pool.failingTask] }

/-! ## internal/ocr/pool.go, internal/ocr/tesseract_cgo.go

An engine instance (a pointer to a `TesseractCGoEngine`) is the number under which it was
constructed: two instances are the same exactly when their numbers are. A value of the
interface type `Engine` is `none` for `nil` and `some` instance otherwise. `cgoEngines` is a
buffered channel: the list of the instances it holds, its capacity and a closed flag. A receive
or a send inside a `select` with a `default` case is one indivisible step, so concurrent `Get`
and `Put` calls are sequences of calls in some order. -/

/-- Initialize of `TesseractCGoEngine`: the settings are passed to the client, whose answers
are not looked at, and the error returned is `nil` on every path. -/
def TesseractCGoEngine.Initialize (_engine : Nat) (_config : EngineConfig) : Option String :=
  none

/-- EnginePool. `poolSize` is the capacity of `cgoEngines` and `chanClosed` says whether the
channel has been closed. Two histories are kept with the state: `constructed`, the number of
instances `NewTesseractCGoEngine` has made so far (the next one gets this number), and
`closeCalls`, the instances on which `Close` has been called, in order. -/
structure EnginePool where
  cgoEngines : List Nat
  poolSize : Nat
  chanClosed : Bool
  config : EngineConfig
  constructed : Nat
  closeCalls : List Nat
deriving DecidableEq

/-- The loop of `NewEnginePool` from iteration `i`, with `remaining` iterations to go: the pool
as the loop leaves it and the error returned (`none` for `nil`). When an initialization fails
the channel is closed and the instances made so far are closed, their errors dropped. -/
def NewEnginePool.loop (config : EngineConfig) (i : Nat) :
    Nat → EnginePool → EnginePool × Option String
  | 0, pool => (pool, none)
  | remaining + 1, pool =>
    let engine := pool.constructed
    let pool := { pool with constructed := pool.constructed + 1 }
    match TesseractCGoEngine.Initialize engine config with
    | some err =>
      ({ pool with chanClosed := true, cgoEngines := []
                   closeCalls := pool.closeCalls ++ pool.cgoEngines },
        some ("failed to initialize engine " ++ toString i ++ ": " ++ err))
    | none =>
      NewEnginePool.loop config (i + 1) remaining
        { pool with cgoEngines := pool.cgoEngines ++ [engine] }

/-- NewEnginePool. The capacity is a natural number: `make` panics on a negative size. -/
def NewEnginePool (config : EngineConfig) (poolSize : Nat) : EnginePool × Option String :=
  NewEnginePool.loop config 0 poolSize
    { cgoEngines := [], poolSize := poolSize, chanClosed := false, config := config
      constructed := 0, closeCalls := [] }

/-- Get: the pool after the call, the engine returned and the error returned. A receive from a
closed and empty channel yields the zero value at once, here the `nil` engine. -/
def EnginePool.Get (p : EnginePool) : EnginePool × Option Nat × Option String :=
  match p.cgoEngines with
  | engine :: rest => ({ p with cgoEngines := rest }, some engine, none)
  | [] =>
    if p.chanClosed then (p, none, none)
    else
      let engine := p.constructed
      let p := { p with constructed := p.constructed + 1 }
      match TesseractCGoEngine.Initialize engine p.config with
      | some err => (p, none, some ("failed to create new engine: " ++ err))
      | none => (p, some engine, none)

/-- Put. The send case of the `select` is taken when the buffer has room; on a closed channel
it is taken as well and panics. Otherwise the engine is closed, its error dropped. -/
def EnginePool.Put (p : EnginePool) (engine : Option Nat) : pool.Outcome EnginePool :=
  match engine with
  | none => .returned p
  | some engine =>
    if p.chanClosed then .panicked "send on closed channel"
    else if p.cgoEngines.length < p.poolSize then
      .returned { p with cgoEngines := p.cgoEngines ++ [engine] }
    else .returned { p with closeCalls := p.closeCalls ++ [engine] }

/-- The loop of `EnginePool.Close` over the instances drained from the channel, on the pair of
the `Close` calls made so far and `lastErr`. `engineClose calls engine` is what `engine.Close()`
returns when `calls` are the `Close` calls made before it. -/
def EnginePool.closeLoop (engineClose : List Nat → Nat → Option String) :
    List Nat → List Nat × Option String → List Nat × Option String
  | [], acc => acc
  | engine :: rest, (closeCalls, lastErr) =>
    match engineClose closeCalls engine with
    | some err => EnginePool.closeLoop engineClose rest (closeCalls ++ [engine], some err)
    | none => EnginePool.closeLoop engineClose rest (closeCalls ++ [engine], lastErr)

/-- Close: the pool after the call and the error returned. Closing a closed channel panics. -/
def EnginePool.Close (p : EnginePool) (engineClose : List Nat → Nat → Option String) :
    pool.Outcome (EnginePool × Option String) :=
  if p.chanClosed then .panicked "close of closed channel"
  else
    let done := EnginePool.closeLoop engineClose p.cgoEngines (p.closeCalls, none)
    .returned ({ p with chanClosed := true, cgoEngines := [], closeCalls := done.1 }, done.2)

/-- What the `Close` calls on `engines` return, one after the other, when `calls` are the
`Close` calls made before the first of them. -/
def EnginePool.closeErrors (engineClose : List Nat → Nat → Option String) :
    List Nat → List Nat → List (Option String)
  | _, [] => []
  | calls, engine :: rest =>
    engineClose calls engine :: EnginePool.closeErrors engineClose (calls ++ [engine]) rest

/-- A call of `Get` or `Put` on the pool. -/
inductive EnginePool.Call where
  | get
  | put (engine : Option Nat)
deriving DecidableEq

/-- The pool after a sequence of `Get` and `Put` calls, `none` when one of them panics. -/
def EnginePool.run (p : EnginePool) : List EnginePool.Call → Option EnginePool
  | [] => some p
  | .get :: rest => EnginePool.run p.Get.1 rest
  | .put engine :: rest =>
    match p.Put engine with
    | .returned p1 => EnginePool.run p1 rest
    | .panicked _ => none
    | .blocked => none

/-- A pool in use: the pool, and the instances its callers hold, each with the caller that
got it from `Get` and has not put it back. -/
structure EnginePool.Usage where
  pool : EnginePool
  held : List (Nat × Nat)
deriving DecidableEq

/-- A `Get` or `Put` call with its caller. -/
inductive EnginePool.Move where
  | get (caller : Nat)
  | put (caller : Nat) (engine : Nat)
deriving DecidableEq

/-- One call of a caller. A `Get` that returns an instance makes the caller hold it; a `Put`
ends the caller's holding of the instance. `none` is a call that panics. -/
def EnginePool.Usage.step (u : EnginePool.Usage) : EnginePool.Move → Option EnginePool.Usage
  | .get caller =>
    match u.pool.Get with
    | (p1, some engine, _) => some { pool := p1, held := u.held ++ [(caller, engine)] }
    | (p1, none, _) => some { pool := p1, held := u.held }
  | .put caller engine =>
    match u.pool.Put (some engine) with
    | .returned p1 => some { pool := p1, held := u.held.erase (caller, engine) }
    | .panicked _ => none
    | .blocked => none

/-- A sequence of calls of callers, from left to right; `none` when one of them panics. -/
def EnginePool.Usage.play (u : EnginePool.Usage) : List EnginePool.Move → Option EnginePool.Usage
  | [] => some u
  | move :: rest =>
    match u.step move with
    | none => none
    | some u1 => EnginePool.Usage.play u1 rest

/-- Whether every `Put` of a sequence of calls is made by a caller that holds the instance at
that point. -/
def EnginePool.Usage.disciplined (u : EnginePool.Usage) : List EnginePool.Move → Bool
  | [] => true
  | move :: rest =>
    (match move with
      | .get _ => true
      | .put caller engine => decide ((caller, engine) ∈ u.held)) &&
    match u.step move with
    | none => true
    | some u1 => EnginePool.Usage.disciplined u1 rest

/-- A sample of what `Close` returns: on instance 0 the error "first", on every other instance
the error "second", whatever was closed before. -/
def sampleEngineClose (_calls : List Nat) (engine : Nat) : Option String :=
  if engine = 0 then some "first" else some "second"

/-- The engine configuration of the samples. -/
def sampleEngineConfig : EngineConfig :=
  { Language := "eng", DataPath := "", PageSegMode := 3, EngineMode := 3
    Whitelist := "", Timeout := 30 }

/-- What holds of a pool in use all along a disciplined sequence of `Get` and `Put` calls: the
channel is open; the idle instances and the held instances are pairwise distinct, so no
instance is idle twice, held twice, or idle and held at once; and every one of them was
constructed before. -/
def EnginePool.Usage.Inv (u : EnginePool.Usage) : Prop :=
  u.pool.chanClosed = false ∧
  (u.pool.cgoEngines ++ u.held.map Prod.snd).Nodup ∧
  ∀ e ∈ u.pool.cgoEngines ++ u.held.map Prod.snd, e < u.pool.constructed

/-- A sample of use: caller 7 gets instance 0, caller 8 gets instance 1, caller 9 gets a fresh
instance 2, caller 7 puts instance 0 back, caller 8 gets it. -/
def sampleMoves : List EnginePool.Move :=
  [.get 7, .get 8, .get 9, .put 7 0, .get 8]

/-! ## internal/preprocessing/analyzer.go: `CalculateSkewAngle`, `calculateMedian`

The angle of a detected line, `math.Atan2(y2-y1, x2-x1) * 180.0 / math.Pi`, comes from the
standard library; `CalculateSkewAngle` is given the angles of the rows of `lines`, in order.
They are finite `float64` values. Comparisons of such values are exact; the sum and the
quotient that `calculateMedian` computes are rounded as the format prescribes. -/

/-- The result of a `float64` operation whose operands are finite: a finite value, or an
infinity when the rounded result is too large for the format. -/
inductive float64.Result where
  | finite (value : Rat)
  | infinite (negative : Bool)
deriving DecidableEq

/-- The integer nearest to `n / d`, the even one of the two when `n / d` lies half way. -/
def float64.roundHalfEven (n d : Nat) : Nat :=
  if 2 * (n % d) < d then n / d
  else if d < 2 * (n % d) then n / d + 1
  else if (n / d) % 2 = 0 then n / d
  else n / d + 1

/-- The number `k` with `2 ^ k ≤ n < 2 ^ (k + 1)`, for `n ≥ 1`, found by halving at most
`fuel` times. -/
def float64.log2 : Nat → Nat → Nat
  | 0, _ => 0
  | fuel + 1, n => if n < 2 then 0 else float64.log2 fuel (n / 2) + 1

/-- The binary exponent of `n / d`, for `n ≥ 1` and `d ≥ 1`: the integer `e` with
`2 ^ e ≤ n / d < 2 ^ (e + 1)`. It is the difference of the exponents of `n` and `d`, or one
less. -/
def float64.exponent (n d : Nat) : Int :=
  let e : Int := (float64.log2 n n : Int) - (float64.log2 d d : Int)
  if d * 2 ^ e.toNat ≤ n * 2 ^ (-e).toNat then e else e - 1

/-- Rounding to `float64` (IEEE 754 binary64, round to nearest, ties to even): a value with
binary exponent `e` is rounded to a multiple of `2 ^ (e - 52)`, a value below `2 ^ (-1022)` in
magnitude to a multiple of `2 ^ (-1074)`, and a value that rounds to `2 ^ 1024` or more in
magnitude becomes an infinity. The two zeros of the format are one value. -/
def float64.round (q : Rat) : float64.Result :=
  if q = 0 then .finite 0
  else
    let s : Int := max (float64.exponent q.num.natAbs q.den) (-1022) - 52
    let m := float64.roundHalfEven (q.num.natAbs * 2 ^ (-s).toNat) (q.den * 2 ^ s.toNat)
    if 2 ^ 1024 ≤ m * 2 ^ s.toNat then .infinite (decide (q < 0))
    else
      .finite (mkRat ((if q < 0 then -1 else 1) * ((m * 2 ^ s.toNat : Nat) : Int))
        (2 ^ (-s).toNat))

/-- Go's `x + y` on finite `float64` values: the sum, rounded. -/
def float64.add (x y : Rat) : float64.Result :=
  float64.round (x + y)

/-- Go's `x / 2.0`, where `x` is the result of an operation: half a finite value, rounded; an
infinity stays what it is. -/
def float64.half (x : float64.Result) : float64.Result :=
  match x with
  | .finite value => float64.round (value / 2)
  | .infinite negative => .infinite negative

/-- The two slices of `calculateMedian`: its argument `values` and its local `sorted`. -/
structure calculateMedian.Frame where
  values : List Rat
  sorted : List Rat
deriving DecidableEq

/-- The body of the inner loop of `calculateMedian`: `sorted[i]` and `sorted[j]` change places
when `sorted[i] > sorted[j]`. -/
def calculateMedian.exchange (f : calculateMedian.Frame) (i j : Nat) : calculateMedian.Frame :=
  if f.sorted.getD i 0 > f.sorted.getD j 0 then
    { f with sorted := (f.sorted.set i (f.sorted.getD j 0)).set j (f.sorted.getD i 0) }
  else f

/-- The inner loop of `calculateMedian` for one `i`: `j` runs from `i + 1` to
`len(sorted) - 1`. -/
def calculateMedian.inner (f : calculateMedian.Frame) (i : Nat) : calculateMedian.Frame :=
  (List.range' (i + 1) (f.sorted.length - (i + 1))).foldl
    (fun g j => calculateMedian.exchange g i j) f

/-- The outer loop of `calculateMedian`: `i` runs from 0 to `len(sorted) - 1`. -/
def calculateMedian.sort (f : calculateMedian.Frame) : calculateMedian.Frame :=
  (List.range f.sorted.length).foldl calculateMedian.inner f

/-- The two slices when the loops of `calculateMedian` are done: `sorted` starts as a copy of
`values`. -/
def calculateMedian.frame (values : List Rat) : calculateMedian.Frame :=
  calculateMedian.sort { values := values, sorted := values }

/-- calculateMedian. For an even count the two middle values are added and the sum is divided
by 2.0, both in `float64` arithmetic. -/
def calculateMedian (values : List Rat) : float64.Result :=
  if values.length = 0 then .finite 0
  else
    let sorted := (calculateMedian.frame values).sorted
    let mid := sorted.length / 2
    if sorted.length % 2 = 0 then
      float64.half (float64.add (sorted.getD (mid - 1) 0) (sorted.getD mid 0))
    else .finite (sorted.getD mid 0)

/-- The `float64` value 26.56505117707799, the angle in degrees of a line of slope 1/2. -/
def slopeHalfAngle : Rat :=
  1869349290346353 / 70368744177664

/-- The `float64` value 14.036243467926477, the angle in degrees of a line of slope 1/4. -/
def slopeQuarterAngle : Rat :=
  7901702606479405 / 562949953421312

/-- The `float64` value 36.86989764584402, the angle in degrees of a line of slope 3/4. -/
def slopeThreeQuartersAngle : Rat :=
  1297244197648527 / 35184372088832

/-- A cache of capacity 3 and time-to-live 10 after `Set("a", 1)`, `Set("b", 2)` and
`Set("c", 3)` at clock readings 0, 1 and 2. -/
def sampleCache : Cache Nat :=
  (((NewCache 3 10 true).Set RangeOrder.stored 0 "a" 1).Set RangeOrder.stored 1 "b" 2).Set
    RangeOrder.stored 2 "c" 3

/-! ## internal/config/config.go and `NewHandler` of internal/tools/handler.go -/

/-- The `QualityThresholds` member of `PreprocessingConfig`. -/
structure config.QualityThresholds where
  Sharpness : Rat
  Contrast : Rat
  Brightness : Rat
deriving DecidableEq

/-- OCRConfig. -/
structure config.OCRConfig where
  Engine : String
  Language : String
  DataPath : String
  PageSegMode : Int
  EngineMode : Int
  Whitelist : String
  SupportedLangs : List String
  MaxImageSize : Int
  Timeout : Int
deriving DecidableEq

/-- PreprocessingConfig. -/
structure config.PreprocessingConfig where
  Enabled : Bool
  AutoMode : Bool
  Grayscale : Bool
  Denoise : Bool
  DenoiseStrength : Int
  Binarization : Bool
  BinarizationMode : String
  AdaptiveBlockSize : Int
  AdaptiveC : Rat
  DeskewCorrection : Bool
  DeskewAngleLimit : Rat
  Resize : Bool
  ResizeWidth : Int
  ResizeHeight : Int
  QualityThresholds : config.QualityThresholds
deriving DecidableEq

/-- PerformanceConfig. -/
structure config.PerformanceConfig where
  WorkerPoolSize : Int
  QueueSize : Int
  CacheEnabled : Bool
  CacheSize : Int
  CacheTTL : Int
  ResourcePooling : Bool
deriving DecidableEq

/-- The sections of the application configuration that `NewHandler` reads; the `Server` and
`Logger` sections are left out. -/
structure config.Config where
  OCR : config.OCRConfig
  Preprocessing : config.PreprocessingConfig
  Performance : config.PerformanceConfig
deriving DecidableEq

/-- GetDefault. The literal does not mention `QualityThresholds`, so its three numbers have
the zero value. -/
def config.GetDefault : config.Config :=
  { OCR :=
      { Engine := "tesseract"
        Language := "eng+chi_sim+chi_tra+jpn"
        DataPath := "/usr/local/share/tessdata"
        PageSegMode := 3
        EngineMode := 3
        Whitelist := ""
        SupportedLangs := ["eng", "chi_sim", "chi_tra", "jpn"]
        MaxImageSize := 10 * 1024 * 1024
        Timeout := 30 }
    Preprocessing :=
      { Enabled := true
        AutoMode := true
        Grayscale := true
        Denoise := true
        DenoiseStrength := 5
        Binarization := true
        BinarizationMode := "otsu"
        AdaptiveBlockSize := 11
        AdaptiveC := 2
        DeskewCorrection := true
        DeskewAngleLimit := 10
        Resize := false
        ResizeWidth := 0
        ResizeHeight := 0
        QualityThresholds := { Sharpness := 0, Contrast := 0, Brightness := 0 } }
    Performance :=
      { WorkerPoolSize := 4
        QueueSize := 100
        CacheEnabled := true
        CacheSize := 100
        CacheTTL := 3600
        ResourcePooling := true } }

/-- The `preprocessorConfig` that `NewHandler` builds from the application configuration. -/
def NewHandler.preprocessorConfig (cfg : config.Config) : Config :=
  { Enabled := cfg.Preprocessing.Enabled
    AutoMode := cfg.Preprocessing.AutoMode
    Grayscale := cfg.Preprocessing.Grayscale
    Denoise := cfg.Preprocessing.Denoise
    DenoiseStrength := cfg.Preprocessing.DenoiseStrength
    Binarization := cfg.Preprocessing.Binarization
    BinarizationMode := cfg.Preprocessing.BinarizationMode
    AdaptiveBlockSize := cfg.Preprocessing.AdaptiveBlockSize
    AdaptiveC := cfg.Preprocessing.AdaptiveC
    DeskewCorrection := cfg.Preprocessing.DeskewCorrection
    DeskewAngleLimit := cfg.Preprocessing.DeskewAngleLimit
    Resize := cfg.Preprocessing.Resize
    ResizeWidth := cfg.Preprocessing.ResizeWidth
    ResizeHeight := cfg.Preprocessing.ResizeHeight
    QualityThresholds :=
      { Sharpness := cfg.Preprocessing.QualityThresholds.Sharpness
        Contrast := cfg.Preprocessing.QualityThresholds.Contrast
        Brightness := cfg.Preprocessing.QualityThresholds.Brightness } }

/-- The `preprocessor` of the handler that `NewHandler` returns. -/
def NewHandler.preprocessor (cfg : config.Config) : Preprocessor :=
  NewPreprocessor (NewHandler.preprocessorConfig cfg)

/-- A result with its metadata left out. -/
def RecognizeResult.withoutMetadata (result : RecognizeResult) : RecognizeResult :=
  { result with Metadata := [] }

/-- A call with the metadata of the options left out. -/
def Invocation.withoutMetadata : Invocation → Invocation
  | .recognize imageData opts => .recognize imageData { opts with Metadata := [] }
  | call => call

/-! ## Theorems: the cache -/

theorem mapIndex_mapStore_self {V : Type} (m : List (String × CacheEntry V)) (k : String)
    (e : CacheEntry V) : mapIndex (mapStore m k e) k = some e := by
  simp [mapIndex, mapStore, List.lookup]

theorem mem_mapDelete {V : Type} {m : List (String × CacheEntry V)} {key : String}
    {p : String × CacheEntry V} : p ∈ mapDelete m key ↔ p ∈ m ∧ p.1 ≠ key := by
  simp [mapDelete]

theorem mapIndex_mem {V : Type} {m : List (String × CacheEntry V)} {k : String}
    {e : CacheEntry V} (h : mapIndex m k = some e) : (k, e) ∈ m := by
  induction m with
  | nil => simp [mapIndex] at h
  | cons p rest ih =>
    obtain ⟨k1, e1⟩ := p
    by_cases hk : k = k1
    · subst hk
      simp [mapIndex, List.lookup] at h
      simp [h]
    · have hb : (k == k1) = false := by simpa using hk
      simp only [mapIndex, List.lookup, hb] at h
      exact List.mem_cons_of_mem _ (ih h)

theorem mapIndex_filter_some {V : Type} (q : String × CacheEntry V → Bool)
    {m : List (String × CacheEntry V)} {k : String} {e : CacheEntry V}
    (h : mapIndex m k = some e) (hq : q (k, e) = true) :
    mapIndex (m.filter q) k = some e := by
  induction m with
  | nil => simp [mapIndex] at h
  | cons p rest ih =>
    obtain ⟨k1, e1⟩ := p
    by_cases hk : k = k1
    · subst hk
      simp [mapIndex, List.lookup] at h
      subst h
      simp [mapIndex, List.filter, hq, List.lookup]
    · have hb : (k == k1) = false := by simpa using hk
      simp only [mapIndex, List.lookup, hb] at h
      have ih1 := ih h
      by_cases hq1 : q (k1, e1) = true
      · simpa [mapIndex, List.filter, hq1, List.lookup, hb] using ih1
      · simpa [mapIndex, List.filter, hq1] using ih1

theorem Cache.evictOldest_enabled {V : Type} (c : Cache V) (ord : RangeOrder V) :
    (c.evictOldest ord).enabled = c.enabled := by
  unfold Cache.evictOldest
  dsimp only
  split <;> rfl

theorem Cache.Set_enabled {V : Type} (c : Cache V) (ord : RangeOrder V) (now : Int)
    (key : String) (value : V) : (c.Set ord now key value).enabled = c.enabled := by
  unfold Cache.Set
  split
  · rfl
  · dsimp only
    split
    · exact Cache.evictOldest_enabled c ord
    · rfl

theorem Cache.apply_enabled {V : Type} (c : Cache V) (now : Int) (op : CacheOp V) :
    (c.apply now op).enabled = c.enabled := by
  cases op with
  | set ord key value => exact Cache.Set_enabled c ord now key value
  | delete key =>
    show (c.Delete key).enabled = c.enabled
    unfold Cache.Delete
    split <;> rfl
  | clear =>
    show c.Clear.enabled = c.enabled
    unfold Cache.Clear
    split <;> rfl
  | sweep => rfl

theorem Cache.evictOldest_store_mem {V : Type} (c : Cache V) (ord : RangeOrder V)
    {p : String × CacheEntry V} (h : p ∈ (c.evictOldest ord).store) : p ∈ c.store := by
  unfold Cache.evictOldest at h
  dsimp only at h
  split at h
  · exact (mem_mapDelete.mp h).1
  · exact h

theorem Cache.Set_store_mem {V : Type} (c : Cache V) (ord : RangeOrder V) (now : Int)
    (key : String) (value : V) {p : String × CacheEntry V}
    (h : p ∈ (c.Set ord now key value).store) : p ∈ c.store ∨ p.1 = key := by
  unfold Cache.Set at h
  split at h
  · exact Or.inl h
  · dsimp only at h
    rcases List.mem_cons.mp h with h1 | h1
    · right
      rw [h1]
    · left
      have h2 := (mem_mapDelete.mp h1).1
      split at h2
      · exact Cache.evictOldest_store_mem c ord h2
      · exact h2

theorem Cache.Delete_store {V : Type} (c : Cache V) (key : String) (h : c.enabled = true) :
    (c.Delete key).store = mapDelete c.store key := by
  simp [Cache.Delete, h]

theorem Cache.Delete_store_mem {V : Type} (c : Cache V) (key : String)
    {p : String × CacheEntry V} (h : p ∈ (c.Delete key).store) : p ∈ c.store := by
  unfold Cache.Delete at h
  split at h
  · exact h
  · exact (mem_mapDelete.mp h).1

/-- The entry of `k` survives one call that does not touch it, as long as the clock has not
passed its expiry. -/
theorem Cache.apply_keeps_live {V : Type} (c : Cache V) (k : String) (e : CacheEntry V)
    (now : Int) (op : CacheOp V) (rest : List (Int × CacheOp V))
    (hen : c.enabled = true) (hidx : mapIndex c.store k = some e)
    (hnow : now ≤ e.ExpireTime) (hkeep : Cache.Untouched k c ((now, op) :: rest)) :
    mapIndex (c.apply now op).store k = some e := by
  cases op with
  | set ord key value =>
    have h := hkeep.1.2
    rw [← hidx]
    exact h
  | delete key =>
    have h : key ≠ k := hkeep.1
    show mapIndex (c.Delete key).store k = some e
    rw [Cache.Delete_store c key hen]
    apply mapIndex_filter_some _ hidx
    simpa using fun hk => h hk.symm
  | clear => exact absurd hkeep.1 (fun hf => hf)
  | sweep =>
    show mapIndex (c.cleanup now).store k = some e
    apply mapIndex_filter_some _ hidx
    simpa using hnow

/-- Every binding of `k` in the store stays the entry `e` across one call that does not write
`k`. -/
theorem Cache.apply_keeps_only {V : Type} (c : Cache V) (k : String) (e : CacheEntry V)
    (now : Int) (op : CacheOp V) (rest : List (Int × CacheOp V))
    (honly : ∀ e1, (k, e1) ∈ c.store → e1 = e)
    (hkeep : Cache.Untouched k c ((now, op) :: rest)) :
    ∀ e1, (k, e1) ∈ (c.apply now op).store → e1 = e := by
  intro e1 hmem
  cases op with
  | set ord key value =>
    have h : key ≠ k := hkeep.1.1
    rcases Cache.Set_store_mem c ord now key value hmem with h1 | h1
    · exact honly e1 h1
    · exact absurd h1.symm h
  | delete key => exact honly e1 (Cache.Delete_store_mem c key hmem)
  | clear => exact absurd hkeep.1 (fun hf => hf)
  | sweep =>
    have h1 : (k, e1) ∈ c.store.filter (fun p => !decide (p.2.ExpireTime < now)) := hmem
    exact honly e1 (List.mem_filter.mp h1).1

theorem Cache.run_keeps_live {V : Type} (k : String) (e : CacheEntry V) (u : Int)
    (hu : u ≤ e.ExpireTime) (trace : List (Int × CacheOp V)) :
    ∀ c : Cache V, c.enabled = true → mapIndex c.store k = some e →
      (∀ p ∈ trace, p.1 ≤ u) → Cache.Untouched k c trace →
      (c.run trace).enabled = true ∧ mapIndex (c.run trace).store k = some e := by
  induction trace with
  | nil => intro c hen hidx _ _; exact ⟨hen, hidx⟩
  | cons p rest ih =>
    obtain ⟨now, op⟩ := p
    intro c hen hidx hclock hkeep
    have hnow : now ≤ u := hclock (now, op) (List.mem_cons_self _ _)
    apply ih (c.apply now op)
    · rw [Cache.apply_enabled]; exact hen
    · exact Cache.apply_keeps_live c k e now op rest hen hidx (le_trans hnow hu) hkeep
    · intro q hq; exact hclock q (List.mem_cons_of_mem _ hq)
    · exact hkeep.2

theorem Cache.run_keeps_only {V : Type} (k : String) (e : CacheEntry V)
    (trace : List (Int × CacheOp V)) :
    ∀ c : Cache V, (∀ e1, (k, e1) ∈ c.store → e1 = e) → Cache.Untouched k c trace →
      ∀ e1, (k, e1) ∈ (c.run trace).store → e1 = e := by
  induction trace with
  | nil => intro c honly _; exact honly
  | cons p rest ih =>
    obtain ⟨now, op⟩ := p
    intro c honly hkeep
    exact ih (c.apply now op) (Cache.apply_keeps_only c k e now op rest honly hkeep) hkeep.2

theorem Cache.run_enabled {V : Type} (trace : List (Int × CacheOp V)) :
    ∀ c : Cache V, (c.run trace).enabled = c.enabled := by
  induction trace with
  | nil => intro c; rfl
  | cons p rest ih =>
    obtain ⟨now, op⟩ := p
    intro c
    show ((c.apply now op).run rest).enabled = c.enabled
    rw [ih, Cache.apply_enabled]

theorem Cache.Set_store_of_enabled {V : Type} (c : Cache V) (ord : RangeOrder V) (now : Int)
    (key : String) (value : V) (hen : c.enabled = true) :
    ∃ m, (c.Set ord now key value).store = mapStore m key ⟨value, now + c.ttl⟩ := by
  unfold Cache.Set
  simp only [hen, Bool.not_true, Bool.false_eq_true, if_false]
  exact ⟨_, rfl⟩

theorem Cache.run_disabled {V : Type} (trace : List (Int × CacheOp V)) :
    ∀ c : Cache V, c.enabled = false → c.store = [] → c.run trace = c := by
  induction trace with
  | nil => intro c _ _; rfl
  | cons p rest ih =>
    obtain ⟨now, op⟩ := p
    intro c hen hst
    have hstep : c.apply now op = c := by
      cases op with
      | set ord key value => simp [Cache.apply, Cache.Set, hen]
      | delete key => simp [Cache.apply, Cache.Delete, hen]
      | clear => simp [Cache.apply, Cache.Clear, hen]
      | sweep =>
        cases c
        simp only at hst
        simp [Cache.apply, Cache.cleanup, hst]
    show (c.apply now op).run rest = c
    rw [hstep]
    exact ih c hen hst

/-- The scan of `evictOldest`, started on an entry already taken, over entries none of which
has the empty key: it ends on an entry, taken before or visited, whose expiry is least. -/
theorem evictOldestStep_foldl_spec {V : Type} (visited : List (String × CacheEntry V)) :
    ∀ (k0 : String) (e0 : CacheEntry V), k0 ≠ "" → (∀ p ∈ visited, p.1 ≠ "") →
      ∃ e, (visited.foldl evictOldestStep (k0, e0.ExpireTime)).2 = e.ExpireTime ∧
        (((visited.foldl evictOldestStep (k0, e0.ExpireTime)).1, e) = (k0, e0) ∨
          ((visited.foldl evictOldestStep (k0, e0.ExpireTime)).1, e) ∈ visited) ∧
        (visited.foldl evictOldestStep (k0, e0.ExpireTime)).1 ≠ "" ∧
        e.ExpireTime ≤ e0.ExpireTime ∧ ∀ p ∈ visited, e.ExpireTime ≤ p.2.ExpireTime := by
  induction visited with
  | nil =>
    intro k0 e0 hk0 _
    exact ⟨e0, rfl, Or.inl rfl, hk0, le_refl _, fun p hp => absurd hp (List.not_mem_nil p)⟩
  | cons p rest ih =>
    intro k0 e0 hk0 hkeys
    have hp : p.1 ≠ "" := hkeys p (List.mem_cons_self _ _)
    have hrest : ∀ q ∈ rest, q.1 ≠ "" := fun q hq => hkeys q (List.mem_cons_of_mem _ hq)
    have hb : (k0 == "") = false := by simpa using hk0
    by_cases hlt : p.2.ExpireTime < e0.ExpireTime
    · have hstep : evictOldestStep (k0, e0.ExpireTime) p = (p.1, p.2.ExpireTime) := by
        simp [evictOldestStep, hlt]
      rw [List.foldl_cons, hstep]
      obtain ⟨e, h2, hmem, hne, hle, hall⟩ := ih p.1 p.2 hp hrest
      refine ⟨e, h2, Or.inr ?_, hne, le_trans hle (le_of_lt hlt), ?_⟩
      · rcases hmem with h | h
        · rw [h]; exact List.mem_cons_self _ _
        · exact List.mem_cons_of_mem _ h
      · intro q hq
        rcases List.mem_cons.mp hq with h | h
        · rw [h]; exact hle
        · exact hall q h
    · have hstep : evictOldestStep (k0, e0.ExpireTime) p = (k0, e0.ExpireTime) := by
        simp [evictOldestStep, hb, hlt]
      rw [List.foldl_cons, hstep]
      obtain ⟨e, h2, hmem, hne, hle, hall⟩ := ih k0 e0 hk0 hrest
      refine ⟨e, h2, ?_, hne, hle, ?_⟩
      · rcases hmem with h | h
        · exact Or.inl h
        · exact Or.inr (List.mem_cons_of_mem _ h)
      · intro q hq
        rcases List.mem_cons.mp hq with h | h
        · rw [h]; exact le_trans hle (not_lt.mp hlt)
        · exact hall q h

/-- Over a non-empty list of entries none of which has the empty key, the scan of
`evictOldest` ends on the key of a visited entry whose expiry is least. -/
theorem evictOldestKey_spec {V : Type} (visited : List (String × CacheEntry V))
    (hne : visited ≠ []) (hkeys : ∀ p ∈ visited, p.1 ≠ "") :
    evictOldestKey visited ≠ "" ∧
    ∃ e, (evictOldestKey visited, e) ∈ visited ∧ ∀ p ∈ visited, e.ExpireTime ≤ p.2.ExpireTime := by
  cases visited with
  | nil => exact absurd rfl hne
  | cons p rest =>
    have hp : p.1 ≠ "" := hkeys p (List.mem_cons_self _ _)
    have hrest : ∀ q ∈ rest, q.1 ≠ "" := fun q hq => hkeys q (List.mem_cons_of_mem _ hq)
    have hstep : evictOldestStep ("", 0) p = (p.1, p.2.ExpireTime) := by
      simp [evictOldestStep]
    obtain ⟨e, _, hmem, hne1, hle, hall⟩ := evictOldestStep_foldl_spec rest p.1 p.2 hp hrest
    unfold evictOldestKey
    rw [List.foldl_cons, hstep]
    refine ⟨hne1, e, ?_, ?_⟩
    · rcases hmem with h | h
      · rw [h]; exact List.mem_cons_self _ _
      · exact List.mem_cons_of_mem _ h
    · intro q hq
      rcases List.mem_cons.mp hq with h | h
      · rw [h]; exact hle
      · exact hall q h

/-- In a store whose keys are pairwise distinct, deleting the key of an entry removes that one
entry. -/
theorem mapDelete_length_of_mem {V : Type} (m : List (String × CacheEntry V))
    (hnodup : (m.map Prod.fst).Nodup) {k : String} {e : CacheEntry V} (hmem : (k, e) ∈ m) :
    (mapDelete m k).length + 1 = m.length := by
  induction m with
  | nil => exact absurd hmem (List.not_mem_nil _)
  | cons p rest ih =>
    obtain ⟨k1, e1⟩ := p
    rw [List.map_cons, List.nodup_cons] at hnodup
    by_cases hk : k1 = k
    · subst hk
      have hnot : ∀ q ∈ rest, (q.1 != k1) = true := by
        intro q hq
        have hq1 : q.1 ≠ k1 := by
          intro h
          have h2 : q.1 ∈ rest.map Prod.fst := List.mem_map_of_mem Prod.fst hq
          rw [h] at h2
          exact hnodup.1 h2
        simpa using hq1
      have hfil : rest.filter (fun q => q.1 != k1) = rest := List.filter_eq_self.mpr hnot
      simp [mapDelete, List.filter, hfil]
    · have hmem1 : (k, e) ∈ rest := by
        rcases List.mem_cons.mp hmem with h | h
        · exact absurd (Prod.mk.inj h).1.symm hk
        · exact h
      have hb : (k1 != k) = true := by simpa using hk
      have := ih hnodup.2 hmem1
      simp only [mapDelete] at this ⊢
      simp [List.filter, hb, this]

/-- The eviction as designed: on a non-empty store with pairwise distinct keys, none of them
empty, `evictOldest` removes exactly one entry, whatever the order of the scan, and no entry of
the store expires before the removed one. -/
theorem Cache.evictOldest_removes_earliest {V : Type} (c : Cache V) (ord : RangeOrder V)
    (hne : c.store ≠ []) (hnodup : (c.store.map Prod.fst).Nodup)
    (hkeys : ∀ p ∈ c.store, p.1 ≠ "") :
    ∃ k e, (k, e) ∈ c.store ∧ (c.evictOldest ord).store = mapDelete c.store k ∧
      (c.evictOldest ord).store.length + 1 = c.store.length ∧
      ∀ p ∈ c.store, e.ExpireTime ≤ p.2.ExpireTime := by
  have hperm := ord.perm c.store
  have hne1 : ord.run c.store ≠ [] := by
    intro h
    rw [h] at hperm
    exact hne (List.perm_nil.mp hperm.symm)
  have hkeys1 : ∀ p ∈ ord.run c.store, p.1 ≠ "" := fun p hp => hkeys p (hperm.mem_iff.mp hp)
  obtain ⟨hk, e, hmem, hmin⟩ := evictOldestKey_spec (ord.run c.store) hne1 hkeys1
  have hmem1 : (evictOldestKey (ord.run c.store), e) ∈ c.store := hperm.mem_iff.mp hmem
  have hst : (c.evictOldest ord).store = mapDelete c.store (evictOldestKey (ord.run c.store)) := by
    unfold Cache.evictOldest
    simp [hk]
  refine ⟨_, e, hmem1, hst, ?_, fun p hp => hmin p (hperm.mem_iff.mpr hp)⟩
  rw [hst]
  exact mapDelete_length_of_mem c.store hnodup hmem1

theorem Cache.evictOldest_maxSize {V : Type} (c : Cache V) (ord : RangeOrder V) :
    (c.evictOldest ord).maxSize = c.maxSize := by
  unfold Cache.evictOldest
  dsimp only
  split <;> rfl

theorem Cache.Set_maxSize {V : Type} (c : Cache V) (ord : RangeOrder V) (now : Int)
    (key : String) (value : V) : (c.Set ord now key value).maxSize = c.maxSize := by
  unfold Cache.Set
  split
  · rfl
  · dsimp only
    split
    · exact Cache.evictOldest_maxSize c ord
    · rfl

theorem mapStore_length_le {V : Type} (m : List (String × CacheEntry V)) (key : String)
    (e : CacheEntry V) : (mapStore m key e).length ≤ m.length + 1 := by
  simp only [mapStore, mapDelete, List.length_cons]
  exact Nat.succ_le_succ (List.length_filter_le _ _)

/-- One `Set` keeps the bound when no key of the store is empty. -/
theorem Cache.Set_size_le_of_nonempty_keys {V : Type} (c : Cache V) (ord : RangeOrder V)
    (now : Int) (key : String) (value : V) (hmax : 1 ≤ c.maxSize)
    (hkeys : ∀ p ∈ c.store, p.1 ≠ "") (hsize : (c.store.length : Int) ≤ c.maxSize) :
    ((c.Set ord now key value).store.length : Int) ≤ c.maxSize := by
  unfold Cache.Set
  split
  · exact hsize
  · dsimp only
    split
    · rename_i hfull
      have hne : c.store ≠ [] := by
        intro h
        rw [h] at hfull
        simp at hfull
        omega
      have hperm := ord.perm c.store
      have hne1 : ord.run c.store ≠ [] := by
        intro h
        rw [h] at hperm
        exact hne (List.perm_nil.mp hperm.symm)
      have hkeys1 : ∀ p ∈ ord.run c.store, p.1 ≠ "" :=
        fun p hp => hkeys p (hperm.mem_iff.mp hp)
      obtain ⟨hk, e, hmem, _⟩ := evictOldestKey_spec (ord.run c.store) hne1 hkeys1
      have hmem1 : (evictOldestKey (ord.run c.store), e) ∈ c.store := hperm.mem_iff.mp hmem
      have hst : (c.evictOldest ord).store
          = mapDelete c.store (evictOldestKey (ord.run c.store)) := by
        unfold Cache.evictOldest
        simp [hk]
      have hlt : (c.evictOldest ord).store.length < c.store.length := by
        rw [hst]
        unfold mapDelete
        apply List.length_filter_lt_length_iff_exists.mpr
        exact ⟨_, hmem1, by simp⟩
      have h1 := mapStore_length_le (c.evictOldest ord).store key ⟨value, now + c.ttl⟩
      omega
    · rename_i hroom
      have h1 := mapStore_length_le c.store key ⟨value, now + c.ttl⟩
      omega

theorem Cache.Set_keys_nonempty {V : Type} (c : Cache V) (ord : RangeOrder V) (now : Int)
    (key : String) (value : V) (hkey : key ≠ "") (hkeys : ∀ p ∈ c.store, p.1 ≠ "") :
    ∀ p ∈ (c.Set ord now key value).store, p.1 ≠ "" := by
  intro p hp
  rcases Cache.Set_store_mem c ord now key value hp with h | h
  · exact hkeys p h
  · rw [h]; exact hkey

/-- The bound as designed: from the empty cache of capacity at least 1, after any sequence of
`Set` calls none of which uses the empty key, `Size` is at most the capacity. -/
theorem Cache.size_le_maxSize_of_nonempty_keys {V : Type} (maxSize ttl : Int) (enabled : Bool)
    (hmax : 1 ≤ maxSize) (calls : List (Int × CacheOp V))
    (hcalls : ∀ call ∈ calls, ∃ ord key value, call.2 = CacheOp.set ord key value ∧ key ≠ "") :
    (((NewCache maxSize ttl enabled : Cache V).run calls).Size : Int) ≤ maxSize := by
  have hgen : ∀ (calls : List (Int × CacheOp V)) (c : Cache V),
      (∀ call ∈ calls, ∃ ord key value, call.2 = CacheOp.set ord key value ∧ key ≠ "") →
      1 ≤ c.maxSize → (∀ p ∈ c.store, p.1 ≠ "") → (c.store.length : Int) ≤ c.maxSize →
      (((c.run calls).store.length : Int) ≤ c.maxSize) := by
    intro calls
    induction calls with
    | nil => intro c _ _ _ hsize; exact hsize
    | cons call rest ih =>
      intro c hcalls hmax hkeys hsize
      obtain ⟨now, op⟩ := call
      obtain ⟨ord, key, value, hop, hkey⟩ := hcalls (now, op) (List.mem_cons_self _ _)
      simp only at hop
      subst hop
      have hrest := ih (c.Set ord now key value)
        (fun q hq => hcalls q (List.mem_cons_of_mem _ hq))
        (by rw [Cache.Set_maxSize]; exact hmax)
        (Cache.Set_keys_nonempty c ord now key value hkey hkeys)
        (by rw [Cache.Set_maxSize]
            exact Cache.Set_size_le_of_nonempty_keys c ord now key value hmax hkeys hsize)
      rw [Cache.Set_maxSize] at hrest
      exact hrest
  have h0 := hgen calls (NewCache maxSize ttl enabled) hcalls hmax
    (fun p hp => absurd hp (List.not_mem_nil p))
    (by simp [NewCache]; omega)
  exact h0

/-- C1 (the bound fails on the code): with capacity 1, `Set("", v1)` followed by `Set("a", v2)`
leaves two entries, in whatever order the eviction scan visits the store. The scan ends with
`oldestKey == ""`, which `evictOldest` reads as "no entry found", so nothing is deleted. -/
theorem Cache.size_exceeds_maxSize_after_empty_key (ord1 ord2 : RangeOrder String) (ttl : Int) :
    (((NewCache 1 ttl true : Cache String).Set ord1 0 "" "v1").Set ord2 1 "a" "v2").Size = 2 := by
  have h1 : ((NewCache 1 ttl true : Cache String).Set ord1 0 "" "v1")
      = ⟨[("", ⟨"v1", ttl⟩)], 1, ttl, true⟩ := by
    simp [Cache.Set, NewCache, mapStore, mapDelete]
  rw [h1]
  have h2 : ord2.run [("", (⟨"v1", ttl⟩ : CacheEntry String))] = [("", ⟨"v1", ttl⟩)] :=
    List.perm_singleton.mp (ord2.perm _)
  simp [Cache.Set, Cache.evictOldest, evictOldestKey, evictOldestStep, h2, mapStore, mapDelete,
    Cache.Size]

/-- C2 (the eviction rule fails on the code): a cache of capacity 3 filled by `Set("")` at 1,
`Set("a")` at 3 and `Set("b")` at 9 (time-to-live 0, so these are the expiry times) receives
`Set("c")` at 10. Visiting the store as held (b, a, ""), the scan ends on the key "" and nothing
is removed: four entries remain. Visiting it in the opposite order ("", a, b), the entry "a"
(expiry 3) is removed although the entry "" (expiry 1) expires earlier and stays. -/
theorem Cache.evictOldest_misses_with_empty_key :
    ((((((NewCache 3 0 true : Cache String).Set RangeOrder.stored 1 "" "v0").Set
        RangeOrder.stored 3 "a" "v1").Set RangeOrder.stored 9 "b" "v2").Set
        RangeOrder.stored 10 "c" "v3").store.map (fun p => (p.1, p.2.ExpireTime))
      = [("c", 10), ("b", 9), ("a", 3), ("", 1)]) ∧
    ((((((NewCache 3 0 true : Cache String).Set RangeOrder.stored 1 "" "v0").Set
        RangeOrder.stored 3 "a" "v1").Set RangeOrder.stored 9 "b" "v2").Set
        RangeOrder.reversed 10 "c" "v3").store.map (fun p => (p.1, p.2.ExpireTime))
      = [("c", 10), ("b", 9), ("", 1)]) := by
  decide

/-- C3: on an enabled cache, after `Set(k, v)` at time `s`, and after any calls that do not
overwrite, delete, evict or clear `k` (sweeps included, each at a clock reading not after `u`),
`Get(k)` at time `u` returns `(v, true)` when `u < s + ttl` and reports absent when
`u > s + ttl`. The time-to-live may be any duration, in particular any `t >= 0`. -/
theorem Cache.Get_after_Set {V : Type} (c : Cache V) (ord : RangeOrder V) (s : Int) (k : String)
    (v : V) (trace : List (Int × CacheOp V)) (u : Int)
    (hen : c.enabled = true)
    (hclock : ∀ p ∈ trace, p.1 ≤ u)
    (hkeep : Cache.Untouched k (c.Set ord s k v) trace) :
    (u < s + c.ttl → ((c.Set ord s k v).run trace).Get u k = some v) ∧
    (s + c.ttl < u → ((c.Set ord s k v).run trace).Get u k = none) := by
  obtain ⟨m, hm⟩ := Cache.Set_store_of_enabled c ord s k v hen
  have hen1 : (c.Set ord s k v).enabled = true := by rw [Cache.Set_enabled]; exact hen
  have hidx : mapIndex (c.Set ord s k v).store k = some ⟨v, s + c.ttl⟩ := by
    rw [hm]; exact mapIndex_mapStore_self m k _
  have honly : ∀ e1, (k, e1) ∈ (c.Set ord s k v).store → e1 = ⟨v, s + c.ttl⟩ := by
    intro e1 h1
    rw [hm] at h1
    rcases List.mem_cons.mp h1 with h2 | h2
    · exact (Prod.mk.inj h2).2
    · exact absurd rfl (mem_mapDelete.mp h2).2
  constructor
  · intro hu
    obtain ⟨hen2, hidx2⟩ := Cache.run_keeps_live k ⟨v, s + c.ttl⟩ u (le_of_lt hu) trace
      (c.Set ord s k v) hen1 hidx hclock hkeep
    have hnot : ¬ (s + c.ttl < u) := not_lt.mpr (le_of_lt hu)
    simp [Cache.Get, hen2, hidx2, hnot]
  · intro hu
    have hen2 : ((c.Set ord s k v).run trace).enabled = true := by
      rw [Cache.run_enabled]; exact hen1
    have honly2 := Cache.run_keeps_only k ⟨v, s + c.ttl⟩ trace (c.Set ord s k v) honly hkeep
    unfold Cache.Get
    simp only [hen2, Bool.not_true, Bool.false_eq_true, if_false]
    cases hcase : mapIndex ((c.Set ord s k v).run trace).store k with
    | none => rfl
    | some e1 =>
      have he1 := honly2 e1 (mapIndex_mem hcase)
      subst he1
      simp [hu]

/-- C3 at the test's numbers: time-to-live 100, `Set("key1", "value1")` at 0, then a sweep at 20,
a `Set` of another key at 30 and a `Delete` of a third key at 40: `Get("key1")` finds the value
at 50; with a further sweep at 120 it reports absent at 150. -/
theorem Cache.Get_after_Set_witness :
    ((((NewCache 10 100 true : Cache String).Set RangeOrder.stored 0 "key1" "value1").run
        [(20, CacheOp.sweep), (30, CacheOp.set RangeOrder.stored "key2" "value2"),
          (40, CacheOp.delete "key3")]).Get 50 "key1" = some "value1") ∧
    ((((NewCache 10 100 true : Cache String).Set RangeOrder.stored 0 "key1" "value1").run
        [(20, CacheOp.sweep), (120, CacheOp.sweep)]).Get 150 "key1" = none) :=
  ⟨(Cache.Get_after_Set (NewCache 10 100 true) RangeOrder.stored 0 "key1" "value1"
      [(20, CacheOp.sweep), (30, CacheOp.set RangeOrder.stored "key2" "value2"),
        (40, CacheOp.delete "key3")] 50 rfl (by decide)
      ⟨trivial, ⟨by decide, by decide⟩, by decide, trivial⟩).1 (by decide),
   (Cache.Get_after_Set (NewCache 10 100 true) RangeOrder.stored 0 "key1" "value1"
      [(20, CacheOp.sweep), (120, CacheOp.sweep)] 150 rfl (by decide)
      ⟨trivial, trivial, trivial⟩).2 (by decide)⟩

/-- C4: a cache built with `enabled = false` stays empty under every sequence of `Set`,
`Delete` and `Clear` calls (and sweeps), every `Get` on it reports absent, and so does a `Get`
after one more `Set` of the same key. -/
theorem Cache.disabled_is_inert {V : Type} (maxSize ttl : Int)
    (trace : List (Int × CacheOp V)) :
    ((NewCache maxSize ttl false : Cache V).run trace).Size = 0 ∧
    (∀ (now : Int) (key : String),
      ((NewCache maxSize ttl false : Cache V).run trace).Get now key = none) ∧
    (∀ (ord : RangeOrder V) (s u : Int) (k : String) (v : V),
      (((NewCache maxSize ttl false : Cache V).run trace).Set ord s k v).Get u k = none) := by
  rw [Cache.run_disabled trace (NewCache maxSize ttl false) rfl rfl]
  refine ⟨rfl, ?_, ?_⟩
  · intro now key
    simp [Cache.Get, NewCache]
  · intro ord s u k v
    simp [Cache.Get, Cache.Set, NewCache]

/-! ## Theorems: the cache key -/

theorem stringBytes_formatBool_true : stringBytes (formatBool true) = [116, 114, 117, 101] := by
  decide

theorem stringBytes_formatBool_false :
    stringBytes (formatBool false) = [102, 97, 108, 115, 101] := by
  decide

theorem GenerateKey_two_options (sum : List UInt8 → String) (data : List UInt8)
    (o1 o2 : String) :
    GenerateKey sum data [o1, o2] = sum (data ++ stringBytes o1 ++ stringBytes o2) := rfl

/-- The byte strings hashed for two requests are equal exactly when the flags are equal and
image bytes followed by language bytes are equal. -/
theorem hashed_bytes_eq_iff (b1 b2 : List UInt8) (l1 l2 : String) (p1 p2 : Bool) :
    b1 ++ stringBytes l1 ++ stringBytes (formatBool p1)
        = b2 ++ stringBytes l2 ++ stringBytes (formatBool p2)
      ↔ p1 = p2 ∧ b1 ++ stringBytes l1 = b2 ++ stringBytes l2 := by
  constructor
  · intro h
    cases p1 <;> cases p2
    · exact ⟨rfl, List.append_cancel_right h⟩
    · rw [stringBytes_formatBool_true, stringBytes_formatBool_false] at h
      have h1 := congrArg List.reverse h
      simp at h1
    · rw [stringBytes_formatBool_true, stringBytes_formatBool_false] at h
      have h1 := congrArg List.reverse h
      simp at h1
    · exact ⟨rfl, List.append_cancel_right h⟩
  · rintro ⟨hp, hb⟩
    rw [hp, hb]

/-- A string that is not empty has at least one byte. -/
theorem stringBytes_ne_nil (s : String) (h : s ≠ "") : stringBytes s ≠ [] := by
  obtain ⟨data⟩ := s
  cases data with
  | nil => exact absurd rfl h
  | cons c cs =>
    intro h1
    have h2 := congrArg List.length h1
    simp [stringBytes, String.toUTF8] at h2
    have := Char.utf8Size_pos c
    omega

/-- The bytes hashed with one option that is not empty differ from the bytes hashed with no
option. -/
theorem hashed_bytes_option_ne (data : List UInt8) (opt : String) (h : opt ≠ "") :
    data ++ stringBytes opt ≠ data := by
  intro h1
  have h2 := congrArg List.length h1
  simp at h2
  exact stringBytes_ne_nil opt h h2

/-- C5 (counterexample): the requests (image bytes "a", language "b", preprocess) and (image
bytes "ab", language "", preprocess) differ, and for every digest function they get the same
key, because the hasher is written the same bytes. -/
theorem cacheKey_collision_across_components :
    (([97] : List UInt8), "b", true) ≠ (([97, 98] : List UInt8), "", true) ∧
    ∀ sum : List UInt8 → String, cacheKey sum [97] "b" true = cacheKey sum [97, 98] "" true := by
  constructor
  · decide
  · intro sum
    rfl

/-- C5 (amended): the key of a request is the digest of image bytes, language bytes and flag
bytes written one after the other; two requests are hashed from the same bytes exactly when
their flags are equal and image bytes followed by language bytes coincide, and such requests
get the same key. -/
theorem cacheKey_depends_on_concatenation :
    (∀ (sum : List UInt8 → String) (b : List UInt8) (l : String) (p : Bool),
      cacheKey sum b l p = sum (b ++ stringBytes l ++ stringBytes (formatBool p))) ∧
    (∀ (b1 b2 : List UInt8) (l1 l2 : String) (p1 p2 : Bool),
      b1 ++ stringBytes l1 ++ stringBytes (formatBool p1)
          = b2 ++ stringBytes l2 ++ stringBytes (formatBool p2)
        ↔ p1 = p2 ∧ b1 ++ stringBytes l1 = b2 ++ stringBytes l2) ∧
    (∀ (sum : List UInt8 → String) (b1 b2 : List UInt8) (l1 l2 : String) (p : Bool),
      b1 ++ stringBytes l1 = b2 ++ stringBytes l2 → cacheKey sum b1 l1 p = cacheKey sum b2 l2 p) := by
  refine ⟨fun sum b l p => rfl, hashed_bytes_eq_iff, ?_⟩
  intro sum b1 b2 l1 l2 p h
  show sum (b1 ++ stringBytes l1 ++ stringBytes (formatBool p))
    = sum (b2 ++ stringBytes l2 ++ stringBytes (formatBool p))
  rw [h]

/-! ## Theorems: the choice of preprocessing steps -/

theorem generatePipeline_eq (a : QualityAnalyzer) (q : ImageQuality) :
    a.generatePipeline q
      = ["grayscale"]
        ++ (if q.Brightness < a.brightnessMinThreshold then ["brighten"]
            else if q.Brightness > a.brightnessMaxThreshold then ["darken"] else [])
        ++ (if q.Contrast < a.contrastThreshold then ["contrast_enhance"] else [])
        ++ (if q.Sharpness < a.sharpnessThreshold then ["denoise"] else [])
        ++ ["binarization"] ++ ["deskew"] := by
  unfold QualityAnalyzer.generatePipeline
  by_cases h1 : q.Brightness < a.brightnessMinThreshold <;>
  by_cases h2 : q.Brightness > a.brightnessMaxThreshold <;>
  by_cases h3 : q.Contrast < a.contrastThreshold <;>
  by_cases h4 : q.Sharpness < a.sharpnessThreshold <;>
  simp [h1, h2, h3, h4]

/-- C7 (counterexample): thresholds 100, 50, 50 and 200; the reading has sharpness 10 (low),
contrast 80 (high) and brightness 120 (normal); the quality reading has no skew component. The
decided list is not `[grayscale, denoise, binarization]`: it ends with `deskew`. -/
theorem generatePipeline_blurred_has_deskew :
    blurredReading.Sharpness < sampleAnalyzer.sharpnessThreshold ∧
    ¬ blurredReading.Contrast < sampleAnalyzer.contrastThreshold ∧
    sampleAnalyzer.brightnessMinThreshold ≤ blurredReading.Brightness ∧
    blurredReading.Brightness ≤ sampleAnalyzer.brightnessMaxThreshold ∧
    sampleAnalyzer.generatePipeline blurredReading ≠ ["grayscale", "denoise", "binarization"] ∧
    "deskew" ∈ sampleAnalyzer.generatePipeline blurredReading := by
  decide

/-- C7 (amended): for a reading with sharpness below its threshold, contrast not below its
threshold and brightness between the minimum and the maximum, the decided list is exactly
`[grayscale, denoise, binarization, deskew]`: no brighten, darken or contrast_enhance step, and
the deskew step that `generatePipeline` always appends. -/
theorem generatePipeline_low_sharpness_only (a : QualityAnalyzer) (q : ImageQuality)
    (hsharp : q.Sharpness < a.sharpnessThreshold)
    (hcontrast : ¬ q.Contrast < a.contrastThreshold)
    (hmin : a.brightnessMinThreshold ≤ q.Brightness)
    (hmax : q.Brightness ≤ a.brightnessMaxThreshold) :
    a.generatePipeline q = ["grayscale", "denoise", "binarization", "deskew"] := by
  rw [generatePipeline_eq]
  simp [hsharp, hcontrast, not_lt.mpr hmin, not_lt.mpr hmax]

/-- C7 (amended) at the sample analyzer and reading. -/
theorem generatePipeline_low_sharpness_only_witness :
    sampleAnalyzer.generatePipeline blurredReading
      = ["grayscale", "denoise", "binarization", "deskew"] :=
  generatePipeline_low_sharpness_only sampleAnalyzer blurredReading (by decide) (by decide)
    (by decide) (by decide)

/-- C8 (counterexample): `generatePipeline` lists `deskew` for the sample reading although a
skew of 0 does not exceed the limit 10; `determineSteps` with threshold 1 does not list `deskew`
for a detected angle of -5, whose magnitude 5 exceeds 1. -/
theorem deskew_not_decided_by_skew_magnitude :
    ¬ ("deskew" ∈ sampleAnalyzer.generatePipeline blurredReading ↔ (10 : Rat) < |(0 : Rat)|) ∧
    ¬ ("deskew" ∈ Pipeline.determineSteps 50 1 0 (-5) ↔ (1 : Rat) < |(-5 : Rat)|) := by
  constructor
  · intro h
    have h1 : (10 : Rat) < |(0 : Rat)| := h.mp (by decide)
    norm_num at h1
  · intro h
    have h1 : "deskew" ∈ Pipeline.determineSteps 50 1 0 (-5) := h.mpr (by norm_num)
    revert h1
    decide

/-- C8 (amended): `generatePipeline` lists `deskew` for every reading, once and as the last
step, whatever the skew; `determineSteps`, for a detected angle that is not negative, lists
`deskew` exactly when the angle exceeds the threshold. -/
theorem deskew_step_rule :
    (∀ (a : QualityAnalyzer) (q : ImageQuality),
      ∃ steps, a.generatePipeline q = steps ++ ["deskew"] ∧ "deskew" ∉ steps) ∧
    (∀ HighNoise SkewAngleThreshold NoiseLevel SkewAngle : Rat, 0 ≤ SkewAngle →
      ("deskew" ∈ Pipeline.determineSteps HighNoise SkewAngleThreshold NoiseLevel SkewAngle
        ↔ SkewAngleThreshold < |SkewAngle|)) := by
  constructor
  · intro a q
    refine ⟨_, generatePipeline_eq a q, ?_⟩
    by_cases h1 : q.Brightness < a.brightnessMinThreshold <;>
    by_cases h2 : q.Brightness > a.brightnessMaxThreshold <;>
    by_cases h3 : q.Contrast < a.contrastThreshold <;>
    by_cases h4 : q.Sharpness < a.sharpnessThreshold <;>
    simp [h1, h2, h3, h4]
  · intro hn th nl sk hsk
    rw [abs_of_nonneg hsk]
    unfold Pipeline.determineSteps
    by_cases h1 : nl > hn <;> by_cases h2 : sk > th <;> simp [h1, h2]

/-- C9: up to and including `binarization`, the list of `generatePipeline` is `grayscale`, then
`brighten` if brightness is below the minimum and otherwise `darken` if it is above the maximum,
then `contrast_enhance` exactly when contrast is below its threshold, then `denoise` exactly
when sharpness is below its threshold, then `binarization`; `binarization` occurs exactly once
and `brighten` and `darken` never occur together. -/
theorem generatePipeline_upto_binarization (a : QualityAnalyzer) (q : ImageQuality) :
    uptoStep "binarization" (a.generatePipeline q)
      = ["grayscale"]
        ++ (if q.Brightness < a.brightnessMinThreshold then ["brighten"]
            else if q.Brightness > a.brightnessMaxThreshold then ["darken"] else [])
        ++ (if q.Contrast < a.contrastThreshold then ["contrast_enhance"] else [])
        ++ (if q.Sharpness < a.sharpnessThreshold then ["denoise"] else [])
        ++ ["binarization"] ∧
    (a.generatePipeline q).count "binarization" = 1 ∧
    ¬ ("brighten" ∈ a.generatePipeline q ∧ "darken" ∈ a.generatePipeline q) := by
  rw [generatePipeline_eq]
  by_cases h1 : q.Brightness < a.brightnessMinThreshold <;>
  by_cases h2 : q.Brightness > a.brightnessMaxThreshold <;>
  by_cases h3 : q.Contrast < a.contrastThreshold <;>
  by_cases h4 : q.Sharpness < a.sharpnessThreshold <;>
  simp only [h1, h2, h3, h4, if_true, if_false] <;>
  decide

theorem getDefaultPipeline_eq_switchedSteps (p : Preprocessor) :
    p.getDefaultPipeline
      = switchedSteps p.config.Grayscale p.config.Denoise p.config.Binarization
          p.config.DeskewCorrection p.config.Resize := by
  unfold Preprocessor.getDefaultPipeline
  cases p.config.Grayscale <;> cases p.config.Denoise <;> cases p.config.Binarization <;>
    cases p.config.DeskewCorrection <;> cases p.config.Resize <;> rfl

/-- Each switch can be read back from the list: it is on exactly when its step occurs. -/
theorem switchedSteps_mem :
    ∀ g d b k r : Bool,
      (decide ("grayscale" ∈ switchedSteps g d b k r), decide ("denoise" ∈ switchedSteps g d b k r),
        decide ("binarization" ∈ switchedSteps g d b k r),
        decide ("deskew" ∈ switchedSteps g d b k r), decide ("resize" ∈ switchedSteps g d b k r))
      = (g, d, b, k, r) := by
  decide

theorem switchedSteps_injective (g d b k r g1 d1 b1 k1 r1 : Bool)
    (h : switchedSteps g d b k r = switchedSteps g1 d1 b1 k1 r1) :
    g = g1 ∧ d = d1 ∧ b = b1 ∧ k = k1 ∧ r = r1 := by
  have h1 := switchedSteps_mem g d b k r
  rw [h, switchedSteps_mem] at h1
  simp only [Prod.mk.injEq] at h1
  obtain ⟨hg, hd, hb, hk, hr⟩ := h1
  exact ⟨hg.symm, hd.symm, hb.symm, hk.symm, hr.symm⟩

/-- C10: with automatic mode off, the step list of the preprocessor is the sublist of
`[grayscale, denoise, binarization, deskew, resize]` whose switches are on, in that order,
whatever the image; and two preprocessors with automatic mode off that arrive at the same list,
on whatever images, have the same five switches, so the 32 combinations give 32 lists. -/
theorem Preprocessor.pipeline_of_switches (p : Preprocessor)
    (hauto : p.config.AutoMode = false) :
    (∀ img : Option Readings,
      p.pipeline img
        = switchedSteps p.config.Grayscale p.config.Denoise p.config.Binarization
            p.config.DeskewCorrection p.config.Resize) ∧
    (∀ img1 img2 : Option Readings, p.pipeline img1 = p.pipeline img2) ∧
    (∀ (p2 : Preprocessor) (img img2 : Option Readings), p2.config.AutoMode = false →
      p.pipeline img = p2.pipeline img2 →
      p.config.Grayscale = p2.config.Grayscale ∧ p.config.Denoise = p2.config.Denoise ∧
      p.config.Binarization = p2.config.Binarization ∧
      p.config.DeskewCorrection = p2.config.DeskewCorrection ∧
      p.config.Resize = p2.config.Resize) := by
  have hp : ∀ (p1 : Preprocessor) (img : Option Readings), p1.config.AutoMode = false →
      p1.pipeline img
        = switchedSteps p1.config.Grayscale p1.config.Denoise p1.config.Binarization
            p1.config.DeskewCorrection p1.config.Resize := by
    intro p1 img h1
    unfold Preprocessor.pipeline
    simp only [h1, Bool.false_eq_true, if_false]
    exact getDefaultPipeline_eq_switchedSteps p1
  refine ⟨fun img => hp p img hauto, ?_, ?_⟩
  · intro img1 img2
    rw [hp p img1 hauto, hp p img2 hauto]
  · intro p2 img img2 hauto2 h
    rw [hp p img hauto, hp p2 img2 hauto2] at h
    exact switchedSteps_injective _ _ _ _ _ _ _ _ _ _ h

/-- C10 at `manualConfig`: the list is `[grayscale, binarization, resize]` for a blurred image
as for a sharp, bright one. -/
theorem Preprocessor.pipeline_of_switches_witness :
    (NewPreprocessor manualConfig).pipeline (some ⟨10, 80, 120⟩)
        = ["grayscale", "binarization", "resize"] ∧
    (NewPreprocessor manualConfig).pipeline (some ⟨10, 80, 120⟩)
        = (NewPreprocessor manualConfig).pipeline (some ⟨500, 20, 230⟩) :=
  ⟨(Preprocessor.pipeline_of_switches (NewPreprocessor manualConfig) rfl).1 (some ⟨10, 80, 120⟩),
   (Preprocessor.pipeline_of_switches (NewPreprocessor manualConfig) rfl).2.1
      (some ⟨10, 80, 120⟩) (some ⟨500, 20, 230⟩)⟩

/-! ## Theorems: `Pipeline.Process` -/

theorem Pipeline.processorOf_of_lookup {M : Type} (p : Pipeline M) (step : String)
    (processor : M → Except String M) (h : p.processors.lookup step = some processor) (input : M) :
    p.processorOf step input = processor input := by
  simp [Pipeline.processorOf, h]

/-- When every processor succeeds the loop returns the last output and appends every step. -/
theorem Pipeline.loop_of_success {M : Type} (p : Pipeline M) (analysis : AnalysisResult)
    (steps : List String) :
    ∀ (result : M) (appliedSteps : List String) (out : M),
      (∀ step ∈ steps, (p.processors.lookup step).isSome = true) →
      p.applyInOrder steps result = .ok out →
      Pipeline.loop p analysis steps result appliedSteps
        = { result := some out, appliedSteps := appliedSteps ++ steps,
            analysis := some analysis, err := none } := by
  induction steps with
  | nil =>
    intro result appliedSteps out _ h
    simp only [Pipeline.applyInOrder, Except.ok.injEq] at h
    simp [Pipeline.loop, h]
  | cons step rest ih =>
    intro result appliedSteps out hreg h
    have hstep := hreg step (List.mem_cons_self _ _)
    obtain ⟨processor, hproc⟩ := Option.isSome_iff_exists.mp hstep
    have hof := Pipeline.processorOf_of_lookup p step processor hproc result
    simp only [Pipeline.applyInOrder, hof] at h
    cases hrun : processor result with
    | error err => simp [hrun] at h
    | ok processed =>
      simp only [hrun] at h
      have := ih processed (appliedSteps ++ [step]) out
        (fun s hs => hreg s (List.mem_cons_of_mem _ hs)) h
      simp [Pipeline.loop, hproc, hrun, this]

/-- When the processors of `pre` succeed and the processor of `s` fails, the loop returns no
image, the steps of `pre`, and an error naming `s`, whatever steps come after `s`. -/
theorem Pipeline.loop_of_failure {M : Type} (p : Pipeline M) (analysis : AnalysisResult)
    (pre : List String) :
    ∀ (result : M) (appliedSteps : List String) (s : String) (post : List String) (mid : M)
      (e : String),
      (∀ step ∈ pre ++ [s], (p.processors.lookup step).isSome = true) →
      p.applyInOrder pre result = .ok mid →
      p.processorOf s mid = .error e →
      Pipeline.loop p analysis (pre ++ s :: post) result appliedSteps
        = { result := none, appliedSteps := appliedSteps ++ pre,
            analysis := some analysis, err := some ("failed to process " ++ s ++ ": " ++ e) } := by
  induction pre with
  | nil =>
    intro result appliedSteps s post mid e hreg h hfail
    simp only [Pipeline.applyInOrder, Except.ok.injEq] at h
    subst h
    have hs := hreg s (by simp)
    obtain ⟨processor, hproc⟩ := Option.isSome_iff_exists.mp hs
    rw [Pipeline.processorOf_of_lookup p s processor hproc] at hfail
    simp [Pipeline.loop, hproc, hfail]
  | cons step rest ih =>
    intro result appliedSteps s post mid e hreg h hfail
    have hstep := hreg step (by simp)
    obtain ⟨processor, hproc⟩ := Option.isSome_iff_exists.mp hstep
    have hof := Pipeline.processorOf_of_lookup p step processor hproc result
    simp only [Pipeline.applyInOrder, hof] at h
    cases hrun : processor result with
    | error err => simp [hrun] at h
    | ok processed =>
      simp only [hrun] at h
      have := ih processed (appliedSteps ++ [step]) s post mid e
        (fun x hx => hreg x (by
          rcases List.mem_append.mp hx with h1 | h1
          · exact List.mem_append.mpr (Or.inl (List.mem_cons_of_mem _ h1))
          · exact List.mem_append.mpr (Or.inr h1))) h hfail
      simp [Pipeline.loop, hproc, hrun, this]

/-- Every step `determineSteps` can decide has a processor in a pipeline built by
`NewPipeline`. -/
theorem NewPipeline_registers_decided_steps {M : Type} (analyzer : M → AnalysisResult)
    (HighNoise SkewAngleThreshold : Rat)
    (grayscale binarization denoise deskew : M → Except String M) (NoiseLevel SkewAngle : Rat) :
    ∀ step ∈ Pipeline.determineSteps HighNoise SkewAngleThreshold NoiseLevel SkewAngle,
      ((NewPipeline analyzer HighNoise SkewAngleThreshold grayscale binarization denoise
        deskew).processors.lookup step).isSome = true := by
  intro step hstep
  have hall : step ∈ ["grayscale", "denoise", "binarization", "deskew"] := by
    unfold Pipeline.determineSteps at hstep
    by_cases h1 : NoiseLevel > HighNoise <;> by_cases h2 : SkewAngle > SkewAngleThreshold <;>
      simp [h1, h2] at hstep <;> simp <;> tauto
  simp only [List.mem_cons, List.mem_singleton, List.not_mem_nil, or_false] at hall
  rcases hall with h | h | h | h <;> subst h <;> rfl

/-- C11: on a non-empty image, for a pipeline in which every decided step has a processor (as
in every pipeline built by `NewPipeline`), `Pipeline.Process` folds the decided steps from the
left with early exit. If every processor succeeds, the image returned is the processors applied
in the decided order, each to the output of the one before, and the applied steps are the whole
decided list. If the processors before step `s` succeed and the processor of `s` fails with
`e`, no image is returned, the error is "failed to process s: e", and the applied steps are
exactly the decided steps before `s`, whatever the later steps are. -/
theorem Pipeline.Process_folds_decided_steps {M : Type} (p : Pipeline M) (Empty : M → Bool)
    (img : M) (hne : Empty img = false)
    (hreg : ∀ step ∈ Pipeline.determineSteps p.HighNoise p.SkewAngleThreshold
        (p.analyzer img).NoiseLevel (p.analyzer img).SkewAngle,
      (p.processors.lookup step).isSome = true) :
    (∀ out : M,
      p.applyInOrder (Pipeline.determineSteps p.HighNoise p.SkewAngleThreshold
        (p.analyzer img).NoiseLevel (p.analyzer img).SkewAngle) img = .ok out →
      p.Process Empty img
        = { result := some out
            appliedSteps := Pipeline.determineSteps p.HighNoise p.SkewAngleThreshold
              (p.analyzer img).NoiseLevel (p.analyzer img).SkewAngle
            analysis := some (p.analyzer img), err := none }) ∧
    (∀ (pre : List String) (s : String) (post : List String) (mid : M) (e : String),
      Pipeline.determineSteps p.HighNoise p.SkewAngleThreshold
        (p.analyzer img).NoiseLevel (p.analyzer img).SkewAngle = pre ++ s :: post →
      p.applyInOrder pre img = .ok mid →
      p.processorOf s mid = .error e →
      p.Process Empty img
        = { result := none, appliedSteps := pre, analysis := some (p.analyzer img)
            err := some ("failed to process " ++ s ++ ": " ++ e) }) := by
  constructor
  · intro out hrun
    have := Pipeline.loop_of_success p (p.analyzer img) _ img [] out hreg hrun
    simp only [Pipeline.Process, hne, Bool.false_eq_true, if_false]
    simpa using this
  · intro pre s post mid e hsplit hpre hfail
    have hreg1 : ∀ step ∈ pre ++ [s], (p.processors.lookup step).isSome = true := by
      intro step hstep
      apply hreg
      rw [hsplit]
      rcases List.mem_append.mp hstep with h | h
      · exact List.mem_append.mpr (Or.inl h)
      · exact List.mem_append.mpr (Or.inr (List.mem_cons.mpr (Or.inl (List.mem_singleton.mp h))))
    have := Pipeline.loop_of_failure p (p.analyzer img) pre img [] s post mid e hreg1 hpre hfail
    simp only [Pipeline.Process, hne, Bool.false_eq_true, if_false, hsplit]
    simpa using this

/-- C11 on two pipelines built by `NewPipeline` over images that are numbers (0 is the empty
image), with noise 9 above the threshold 5 and skew 3 above the threshold 1, so that the decided
steps are grayscale, denoise, binarization, deskew. With processors that add 1, 10, 100 and
1000, the image 7 becomes 1118 and all four steps are applied. When the binarization processor
fails with "boom", no image is returned, the applied steps are grayscale and denoise, and the
error names binarization. -/
theorem Pipeline.Process_folds_decided_steps_witness :
    (NewPipeline (fun _ : Nat => ⟨9, 3⟩) 5 1 (fun m => .ok (m + 1)) (fun m => .ok (m + 100))
        (fun m => .ok (m + 10)) (fun m => .ok (m + 1000))).Process (fun m => m == 0) 7
      = { result := some 1118
          appliedSteps := ["grayscale", "denoise", "binarization", "deskew"]
          analysis := some ⟨9, 3⟩, err := none } ∧
    (NewPipeline (fun _ : Nat => ⟨9, 3⟩) 5 1 (fun m => .ok (m + 1)) (fun _ => .error "boom")
        (fun m => .ok (m + 10)) (fun m => .ok (m + 1000))).Process (fun m => m == 0) 7
      = { result := none, appliedSteps := ["grayscale", "denoise"]
          analysis := some ⟨9, 3⟩, err := some "failed to process binarization: boom" } :=
  ⟨(Pipeline.Process_folds_decided_steps
      (NewPipeline (fun _ : Nat => ⟨9, 3⟩) 5 1 (fun m => .ok (m + 1)) (fun m => .ok (m + 100))
        (fun m => .ok (m + 10)) (fun m => .ok (m + 1000))) (fun m => m == 0) 7 rfl
      (NewPipeline_registers_decided_steps _ _ _ _ _ _ _ _ _)).1 1118 rfl,
   (Pipeline.Process_folds_decided_steps
      (NewPipeline (fun _ : Nat => ⟨9, 3⟩) 5 1 (fun m => .ok (m + 1)) (fun _ => .error "boom")
        (fun m => .ok (m + 10)) (fun m => .ok (m + 1000))) (fun m => m == 0) 7 rfl
      (NewPipeline_registers_decided_steps _ _ _ _ _ _ _ _ _)).2
      ["grayscale", "denoise"] "binarization" ["deskew"] 18 "boom" (by decide) rfl rfl⟩

/-! ## Theorems: `recognizeImage` -/

/-- The engine fails only with the codes OCR_ENGINE_FAILED and TIMEOUT. -/
theorem TesseractEngine.RecognizeText_error_code (e : TesseractEngine) (imageData : List UInt8)
    (opts : RecognizeOptions) (err : OCRError)
    (h : e.RecognizeText imageData opts = .error err) :
    err.Code = .ErrOCREngineFailed ∨ err.Code = .ErrTimeout := by
  unfold TesseractEngine.RecognizeText at h
  simp only at h
  split at h
  · rename_i err1 hcfg
    simp only [Except.error.injEq] at h
    subst h
    unfold TesseractEngine.configureClient at hcfg
    split at hcfg
    · simp only [Option.some.injEq] at hcfg
      subst hcfg
      exact Or.inl rfl
    · split at hcfg
      · split at hcfg
        · simp only [Option.some.injEq] at hcfg
          subst hcfg
          exact Or.inl rfl
        · simp at hcfg
      · simp at hcfg
  · split at h
    · simp only [Except.error.injEq] at h
      subst h
      exact Or.inl rfl
    · split at h
      · simp only [Except.error.injEq] at h
        subst h
        exact Or.inr rfl
      · split at h
        · simp only [Except.error.injEq] at h
          subst h
          exact Or.inl rfl
        · simp at h

/-- A call whose payload exceeds the limit returns at once. -/
theorem Handler.recognizeImage_of_too_large {M : Type} (h : Handler) (sum : List UInt8 → String)
    (lib : ImageLib M) (ord : RangeOrder RecognizeResult) (nowGet nowSet : Int)
    (imageData : List UInt8) (language : String) (preprocess autoMode : Bool)
    (hsize : h.MaxImageSize < (imageData.length : Int)) :
    h.recognizeImage sum lib ord nowGet nowSet imageData language preprocess autoMode
      = { result := .error (ocrErrors.New .ErrImageTooLarge
            ("image size exceeds limit: " ++ toString imageData.length ++ " bytes"))
          cache := h.cache, calls := [] } := by
  unfold Handler.recognizeImage
  simp [hsize]

/-- A call whose key is found in the cache returns the cached result after the lookup. -/
theorem Handler.recognizeImage_of_hit {M : Type} (h : Handler) (sum : List UInt8 → String)
    (lib : ImageLib M) (ord : RangeOrder RecognizeResult) (nowGet nowSet : Int)
    (imageData : List UInt8) (language : String) (preprocess autoMode : Bool)
    (cached : RecognizeResult)
    (hsize : (imageData.length : Int) ≤ h.MaxImageSize)
    (hhit : h.cache.Get nowGet (cacheKey sum imageData language preprocess) = some cached) :
    h.recognizeImage sum lib ord nowGet nowSet imageData language preprocess autoMode
      = { result := .ok cached, cache := h.cache
          calls := [.lookup (cacheKey sum imageData language preprocess)] } := by
  unfold Handler.recognizeImage
  simp [not_lt.mpr hsize, hhit]

/-- A call that misses the cache runs the engine on the processed data; the outcome of the call
is the outcome of the engine, and the cache is written exactly when the engine succeeds. -/
theorem Handler.recognizeImage_of_miss {M : Type} (h : Handler) (sum : List UInt8 → String)
    (lib : ImageLib M) (ord : RangeOrder RecognizeResult) (nowGet nowSet : Int)
    (imageData : List UInt8) (language : String) (preprocess autoMode : Bool)
    (hsize : (imageData.length : Int) ≤ h.MaxImageSize)
    (hmiss : h.cache.Get nowGet (cacheKey sum imageData language preprocess) = none) :
    h.recognizeImage sum lib ord nowGet nowSet imageData language preprocess autoMode
      = { result := h.engine.RecognizeText (h.processedData lib imageData preprocess)
            (Handler.recognizeOptions language preprocess autoMode)
          cache :=
            match h.engine.RecognizeText (h.processedData lib imageData preprocess)
              (Handler.recognizeOptions language preprocess autoMode) with
            | .error _ => h.cache
            | .ok result =>
              h.cache.Set ord nowSet (cacheKey sum imageData language preprocess) result
          calls :=
            (if preprocess then
                [Invocation.lookup (cacheKey sum imageData language preprocess),
                  .preprocess imageData]
              else [Invocation.lookup (cacheKey sum imageData language preprocess)])
            ++ [.recognize (h.processedData lib imageData preprocess)
                  (Handler.recognizeOptions language preprocess autoMode)]
            ++ (match h.engine.RecognizeText (h.processedData lib imageData preprocess)
                  (Handler.recognizeOptions language preprocess autoMode) with
                | .error _ => []
                | .ok _ => [.store (cacheKey sum imageData language preprocess)]) } := by
  unfold Handler.recognizeImage
  simp only [not_lt.mpr hsize, if_false, hmiss]
  cases h.engine.RecognizeText (h.processedData lib imageData preprocess)
    (Handler.recognizeOptions language preprocess autoMode) <;> simp

/-- C12: in `recognizeImage` with `preprocess = true`, when the preprocessor is reached (the
payload fits and the key is not cached) and returns an error, the engine is invoked once, on
the original image bytes, and the outcome of the request is the outcome of the engine: the
request fails exactly when the engine does. -/
theorem Handler.recognizeImage_survives_preprocessing_failure {M : Type} (h : Handler)
    (sum : List UInt8 → String) (lib : ImageLib M) (ord : RangeOrder RecognizeResult)
    (nowGet nowSet : Int) (imageData : List UInt8) (language : String) (autoMode : Bool)
    (err : OCRError)
    (hsize : (imageData.length : Int) ≤ h.MaxImageSize)
    (hmiss : h.cache.Get nowGet (cacheKey sum imageData language true) = none)
    (hfail : h.preprocessor.Process lib imageData = .error err) :
    (h.recognizeImage sum lib ord nowGet nowSet imageData language true autoMode).result
      = h.engine.RecognizeText imageData (Handler.recognizeOptions language true autoMode) ∧
    (∀ (data : List UInt8) (opts : RecognizeOptions),
      Invocation.recognize data opts
          ∈ (h.recognizeImage sum lib ord nowGet nowSet imageData language true autoMode).calls ↔
        data = imageData ∧ opts = Handler.recognizeOptions language true autoMode) ∧
    ((h.recognizeImage sum lib ord nowGet nowSet imageData language true autoMode).calls.take 3
      = [.lookup (cacheKey sum imageData language true), .preprocess imageData,
         .recognize imageData (Handler.recognizeOptions language true autoMode)]) := by
  have hdata : h.processedData lib imageData true = imageData := by
    simp [Handler.processedData, hfail]
  rw [Handler.recognizeImage_of_miss h sum lib ord nowGet nowSet imageData language true autoMode
    hsize hmiss, hdata]
  refine ⟨rfl, ?_, ?_⟩
  · intro data opts
    cases h.engine.RecognizeText imageData (Handler.recognizeOptions language true autoMode) <;>
      simp
  · simp

/-- C12 on the sample handler with a decoder that rejects every image: the engine reads the
original three bytes and the request succeeds with the engine's result. -/
theorem Handler.recognizeImage_survives_preprocessing_failure_witness :
    (sampleHandler.recognizeImage sampleSum brokenLib RangeOrder.stored 0 1 [1, 2, 3] "eng" true
        true).result
      = .ok { Text := "hello", Confidence := 90, Language := "eng", Duration := 5
              Metadata := [("auto_mode", "true")] } ∧
    (sampleHandler.recognizeImage sampleSum brokenLib RangeOrder.stored 0 1 [1, 2, 3] "eng" true
        true).calls.take 3
      = [.lookup (cacheKey sampleSum [1, 2, 3] "eng" true), .preprocess [1, 2, 3],
         .recognize [1, 2, 3] (Handler.recognizeOptions "eng" true true)] :=
  ⟨(Handler.recognizeImage_survives_preprocessing_failure sampleHandler sampleSum brokenLib
      RangeOrder.stored 0 1 [1, 2, 3] "eng" true
      (ocrErrors.Wrap "cannot decode" .ErrPreprocessingFailed "failed to decode image")
      (by decide) (by decide) rfl).1,
   (Handler.recognizeImage_survives_preprocessing_failure sampleHandler sampleSum brokenLib
      RangeOrder.stored 0 1 [1, 2, 3] "eng" true
      (ocrErrors.Wrap "cannot decode" .ErrPreprocessingFailed "failed to decode image")
      (by decide) (by decide) rfl).2.2⟩

/-- C13: `recognizeImage` returns an error with code IMAGE_TOO_LARGE if and only if the payload
has more bytes than `MaxImageSize`; in that case it has made no call on the cache, the
preprocessor or the engine, and the cache is as it was. -/
theorem Handler.recognizeImage_too_large_iff {M : Type} (h : Handler)
    (sum : List UInt8 → String) (lib : ImageLib M) (ord : RangeOrder RecognizeResult)
    (nowGet nowSet : Int) (imageData : List UInt8) (language : String)
    (preprocess autoMode : Bool) :
    ((∃ err, (h.recognizeImage sum lib ord nowGet nowSet imageData language preprocess
          autoMode).result = .error err ∧ err.Code = .ErrImageTooLarge)
      ↔ h.MaxImageSize < (imageData.length : Int)) ∧
    (h.MaxImageSize < (imageData.length : Int) →
      (h.recognizeImage sum lib ord nowGet nowSet imageData language preprocess autoMode).calls
        = [] ∧
      (h.recognizeImage sum lib ord nowGet nowSet imageData language preprocess autoMode).cache
        = h.cache) := by
  constructor
  · constructor
    · rintro ⟨err, hres, hcode⟩
      by_contra hsize
      have hsize1 : (imageData.length : Int) ≤ h.MaxImageSize := not_lt.mp hsize
      cases hget : h.cache.Get nowGet (cacheKey sum imageData language preprocess) with
      | some cached =>
        rw [Handler.recognizeImage_of_hit h sum lib ord nowGet nowSet imageData language
          preprocess autoMode cached hsize1 hget] at hres
        simp at hres
      | none =>
        rw [Handler.recognizeImage_of_miss h sum lib ord nowGet nowSet imageData language
          preprocess autoMode hsize1 hget] at hres
        simp only at hres
        rcases TesseractEngine.RecognizeText_error_code _ _ _ _ hres with hc | hc <;>
          rw [hc] at hcode <;> exact absurd hcode (by decide)
    · intro hsize
      rw [Handler.recognizeImage_of_too_large h sum lib ord nowGet nowSet imageData language
        preprocess autoMode hsize]
      exact ⟨_, rfl, rfl⟩
  · intro hsize
    rw [Handler.recognizeImage_of_too_large h sum lib ord nowGet nowSet imageData language
      preprocess autoMode hsize]
    exact ⟨rfl, rfl⟩

/-- C14: in `recognizeImage`, when the engine, invoked on some data, returns an error, that
error is what the call returns, the cache is left exactly as it was and no cache write is
made. The cache is written, under the key of the request, only after the engine has succeeded:
the call then returns the engine's result and the cache is the old one after `Set` of that
result. Whenever the call returns an error the cache is as it was. -/
theorem Handler.recognizeImage_engine_error_propagates {M : Type} (h : Handler)
    (sum : List UInt8 → String) (lib : ImageLib M) (ord : RangeOrder RecognizeResult)
    (nowGet nowSet : Int) (imageData : List UInt8) (language : String)
    (preprocess autoMode : Bool) :
    (∀ (data : List UInt8) (opts : RecognizeOptions) (err : OCRError),
      Invocation.recognize data opts
          ∈ (h.recognizeImage sum lib ord nowGet nowSet imageData language preprocess
              autoMode).calls →
      h.engine.RecognizeText data opts = .error err →
      (h.recognizeImage sum lib ord nowGet nowSet imageData language preprocess autoMode).result
          = .error err ∧
        (h.recognizeImage sum lib ord nowGet nowSet imageData language preprocess autoMode).cache
          = h.cache ∧
        ∀ key, Invocation.store key
          ∉ (h.recognizeImage sum lib ord nowGet nowSet imageData language preprocess
              autoMode).calls) ∧
    (∀ key, Invocation.store key
          ∈ (h.recognizeImage sum lib ord nowGet nowSet imageData language preprocess
              autoMode).calls →
      key = cacheKey sum imageData language preprocess ∧
      ∃ result,
        h.engine.RecognizeText (h.processedData lib imageData preprocess)
            (Handler.recognizeOptions language preprocess autoMode) = .ok result ∧
        (h.recognizeImage sum lib ord nowGet nowSet imageData language preprocess
            autoMode).result = .ok result ∧
        (h.recognizeImage sum lib ord nowGet nowSet imageData language preprocess
            autoMode).cache = h.cache.Set ord nowSet key result) ∧
    (∀ err,
      (h.recognizeImage sum lib ord nowGet nowSet imageData language preprocess autoMode).result
          = .error err →
      (h.recognizeImage sum lib ord nowGet nowSet imageData language preprocess autoMode).cache
          = h.cache) := by
  by_cases hsize : h.MaxImageSize < (imageData.length : Int)
  · rw [Handler.recognizeImage_of_too_large h sum lib ord nowGet nowSet imageData language
      preprocess autoMode hsize]
    simp
  · have hsize1 : (imageData.length : Int) ≤ h.MaxImageSize := not_lt.mp hsize
    cases hget : h.cache.Get nowGet (cacheKey sum imageData language preprocess) with
    | some cached =>
      rw [Handler.recognizeImage_of_hit h sum lib ord nowGet nowSet imageData language
        preprocess autoMode cached hsize1 hget]
      simp
    | none =>
      rw [Handler.recognizeImage_of_miss h sum lib ord nowGet nowSet imageData language
        preprocess autoMode hsize1 hget]
      cases hrun : h.engine.RecognizeText (h.processedData lib imageData preprocess)
        (Handler.recognizeOptions language preprocess autoMode) with
      | error err0 =>
        refine ⟨?_, ?_, ?_⟩
        · intro data opts err hmem herr
          have hd : data = h.processedData lib imageData preprocess ∧
              opts = Handler.recognizeOptions language preprocess autoMode := by
            cases preprocess <;> simpa using hmem
          rw [hd.1, hd.2, hrun] at herr
          simp only [Except.error.injEq] at herr
          subst herr
          refine ⟨rfl, rfl, ?_⟩
          intro key
          cases preprocess <;> simp
        · intro key hmem
          cases preprocess <;> simp at hmem
        · intro err _
          rfl
      | ok result =>
        refine ⟨?_, ?_, ?_⟩
        · intro data opts err hmem herr
          have hd : data = h.processedData lib imageData preprocess ∧
              opts = Handler.recognizeOptions language preprocess autoMode := by
            cases preprocess <;> simpa using hmem
          rw [hd.1, hd.2, hrun] at herr
          simp at herr
        · intro key hmem
          have hk : key = cacheKey sum imageData language preprocess := by
            cases preprocess <;> simpa using hmem
          subst hk
          exact ⟨rfl, result, rfl, rfl, rfl⟩
        · intro err herr
          simp at herr

/-- A request whose key is bound in an enabled cache to an entry that has not expired at `u`,
and is left alone until then, is answered at `u` from that entry: one cache lookup, no
preprocessing, no engine call, no cache write. -/
theorem Handler.recognizeImage_served_from_entry {M : Type} (h : Handler)
    (sum : List UInt8 → String) (lib : ImageLib M) (ord : RangeOrder RecognizeResult)
    (nowSet : Int) (imageData : List UInt8) (language : String) (preprocess autoMode : Bool)
    (c : Cache RecognizeResult) (entry : CacheEntry RecognizeResult)
    (trace : List (Int × CacheOp RecognizeResult)) (u : Int)
    (hsize : (imageData.length : Int) ≤ h.MaxImageSize)
    (hen : c.enabled = true)
    (hidx : mapIndex c.store (cacheKey sum imageData language preprocess) = some entry)
    (hu : u ≤ entry.ExpireTime)
    (hclock : ∀ p ∈ trace, p.1 ≤ u)
    (hkeep : Cache.Untouched (cacheKey sum imageData language preprocess) c trace)
    (hcache : h.cache = c.run trace) :
    h.recognizeImage sum lib ord u nowSet imageData language preprocess autoMode
      = { result := .ok entry.Value, cache := h.cache
          calls := [.lookup (cacheKey sum imageData language preprocess)] } := by
  obtain ⟨hen2, hidx2⟩ := Cache.run_keeps_live (cacheKey sum imageData language preprocess)
    entry u hu trace c hen hidx hclock hkeep
  apply Handler.recognizeImage_of_hit h sum lib ord u nowSet imageData language preprocess
    autoMode entry.Value hsize
  rw [hcache]
  simp [Cache.Get, hen2, hidx2, not_lt.mpr hu]

/-- C15: with the cache enabled, let a first `recognizeImage` call for (bytes, language,
preprocess) miss the cache and succeed with result `r` (which it stores at clock reading
`nowSet`). Then every later call for the same bytes, language and preprocess flag, made at a
clock reading `u` before `nowSet + ttl` on the cache as left by the first call and by any calls
in between that neither overwrite, delete, evict nor clear its key, returns `r` after a single
cache lookup: the preprocessor is not run, the engine is not invoked and the cache is not
written. This holds whatever the `autoMode` argument, the engine and the preprocessor of the
later call are. -/
theorem Handler.recognizeImage_repeat_served_from_cache {M : Type} (h : Handler)
    (sum : List UInt8 → String) (lib : ImageLib M) (ord : RangeOrder RecognizeResult)
    (nowGet nowSet : Int) (imageData : List UInt8) (language : String)
    (preprocess autoMode : Bool) (r : RecognizeResult)
    (trace : List (Int × CacheOp RecognizeResult)) (u : Int)
    (hen : h.cache.enabled = true)
    (hmiss : h.cache.Get nowGet (cacheKey sum imageData language preprocess) = none)
    (hfirst : (h.recognizeImage sum lib ord nowGet nowSet imageData language preprocess
      autoMode).result = .ok r)
    (hclock : ∀ p ∈ trace, p.1 ≤ u)
    (hkeep : Cache.Untouched (cacheKey sum imageData language preprocess)
      (h.recognizeImage sum lib ord nowGet nowSet imageData language preprocess autoMode).cache
      trace)
    (hu : u < nowSet + h.cache.ttl) :
    ∀ (h2 : Handler) (lib2 : ImageLib M) (ord2 : RangeOrder RecognizeResult) (nowSet2 : Int)
      (autoMode2 : Bool),
      h2.MaxImageSize = h.MaxImageSize →
      h2.cache = ((h.recognizeImage sum lib ord nowGet nowSet imageData language preprocess
        autoMode).cache).run trace →
      h2.recognizeImage sum lib2 ord2 u nowSet2 imageData language preprocess autoMode2
        = { result := .ok r, cache := h2.cache
            calls := [.lookup (cacheKey sum imageData language preprocess)] } := by
  have hsize : (imageData.length : Int) ≤ h.MaxImageSize := by
    by_contra hbig
    rw [Handler.recognizeImage_of_too_large h sum lib ord nowGet nowSet imageData language
      preprocess autoMode (not_le.mp hbig)] at hfirst
    simp at hfirst
  rw [Handler.recognizeImage_of_miss h sum lib ord nowGet nowSet imageData language preprocess
    autoMode hsize hmiss] at hfirst hkeep ⊢
  simp only at hfirst
  simp only [hfirst] at hkeep ⊢
  intro h2 lib2 ord2 nowSet2 autoMode2 hmax hcache
  obtain ⟨m, hm⟩ := Cache.Set_store_of_enabled h.cache ord nowSet
    (cacheKey sum imageData language preprocess) r hen
  have hen1 : (h.cache.Set ord nowSet (cacheKey sum imageData language preprocess) r).enabled
      = true := by
    rw [Cache.Set_enabled]; exact hen
  have hidx : mapIndex
      (h.cache.Set ord nowSet (cacheKey sum imageData language preprocess) r).store
      (cacheKey sum imageData language preprocess) = some ⟨r, nowSet + h.cache.ttl⟩ := by
    rw [hm]; exact mapIndex_mapStore_self m _ _
  exact Handler.recognizeImage_served_from_entry h2 sum lib2 ord2 nowSet2 imageData language
    preprocess autoMode2 _ ⟨r, nowSet + h.cache.ttl⟩ trace u (by rw [hmax]; exact hsize) hen1
    hidx (le_of_lt hu) hclock hkeep hcache

/-- C15 on the sample handler: the first call, at clock readings 0 and 1, stores the engine's
result; after a sweep at 20, a call at 50 for the same bytes, language and preprocess flag (and
another `autoMode`) makes a single cache lookup and returns that result. -/
theorem Handler.recognizeImage_repeat_served_from_cache_witness :
    ({ sampleHandler with
        cache := ((sampleHandler.recognizeImage sampleSum brokenLib RangeOrder.stored 0 1
          [1, 2, 3] "eng" true true).cache).run [(20, CacheOp.sweep)] }.recognizeImage
        sampleSum brokenLib RangeOrder.stored 50 51 [1, 2, 3] "eng" true false).calls
      = [.lookup (cacheKey sampleSum [1, 2, 3] "eng" true)] ∧
    ({ sampleHandler with
        cache := ((sampleHandler.recognizeImage sampleSum brokenLib RangeOrder.stored 0 1
          [1, 2, 3] "eng" true true).cache).run [(20, CacheOp.sweep)] }.recognizeImage
        sampleSum brokenLib RangeOrder.stored 50 51 [1, 2, 3] "eng" true false).result
      = .ok { Text := "hello", Confidence := 90, Language := "eng", Duration := 5
              Metadata := [("auto_mode", "true")] } :=
  ⟨congrArg RecognizeRun.calls
      (Handler.recognizeImage_repeat_served_from_cache sampleHandler sampleSum brokenLib
        RangeOrder.stored 0 1 [1, 2, 3] "eng" true true
        { Text := "hello", Confidence := 90, Language := "eng", Duration := 5
          Metadata := [("auto_mode", "true")] }
        [(20, CacheOp.sweep)] 50 rfl (by decide) rfl (by decide) ⟨trivial, trivial⟩ (by decide)
        { sampleHandler with
          cache := ((sampleHandler.recognizeImage sampleSum brokenLib RangeOrder.stored 0 1
            [1, 2, 3] "eng" true true).cache).run [(20, CacheOp.sweep)] }
        brokenLib RangeOrder.stored 51 false rfl rfl),
   congrArg RecognizeRun.result
      (Handler.recognizeImage_repeat_served_from_cache sampleHandler sampleSum brokenLib
        RangeOrder.stored 0 1 [1, 2, 3] "eng" true true
        { Text := "hello", Confidence := 90, Language := "eng", Duration := 5
          Metadata := [("auto_mode", "true")] }
        [(20, CacheOp.sweep)] 50 rfl (by decide) rfl (by decide) ⟨trivial, trivial⟩ (by decide)
        { sampleHandler with
          cache := ((sampleHandler.recognizeImage sampleSum brokenLib RangeOrder.stored 0 1
            [1, 2, 3] "eng" true true).cache).run [(20, CacheOp.sweep)] }
        brokenLib RangeOrder.stored 51 false rfl rfl)⟩

/-! ## Theorems: `handleBatchRecognize` -/

theorem Handler.stringElements_map_some (paths : List String) :
    Handler.stringElements (paths.map some) = paths := by
  induction paths with
  | nil => rfl
  | cons path rest ih => simp [Handler.stringElements, ih]

/-- Writing entries into the result slice does not change its length. -/
theorem batch_writes_length (paths : List String) (entry : Nat → String → BatchEntry)
    (completion : List Nat) :
    ∀ results : List (Option BatchEntry),
      (completion.foldl
        (fun results index =>
          match paths[index]? with
          | none => results
          | some imagePath => results.set index (some (entry index imagePath)))
        results).length = results.length := by
  induction completion with
  | nil => intro results; rfl
  | cons index rest ih =>
    intro results
    rw [List.foldl_cons, ih]
    cases paths[index]? <;> simp

/-- The writes of other goroutines leave slot `i` alone. -/
theorem batch_writes_other (paths : List String) (entry : Nat → String → BatchEntry)
    (completion : List Nat) (i : Nat) (hi : i ∉ completion) :
    ∀ results : List (Option BatchEntry),
      (completion.foldl
        (fun results index =>
          match paths[index]? with
          | none => results
          | some imagePath => results.set index (some (entry index imagePath)))
        results)[i]? = results[i]? := by
  induction completion with
  | nil => intro results; rfl
  | cons index rest ih =>
    intro results
    have hne : index ≠ i := fun h => hi (h ▸ List.mem_cons_self _ _)
    have hrest : i ∉ rest := fun h => hi (List.mem_cons_of_mem _ h)
    rw [List.foldl_cons, ih hrest]
    cases paths[index]? with
    | none => rfl
    | some imagePath => exact List.getElem?_set_ne hne

/-- Once the goroutine of index `i` has written, slot `i` holds its entry, whatever the order
of the writes. -/
theorem batch_writes_own (paths : List String) (entry : Nat → String → BatchEntry)
    (completion : List Nat) (hnodup : completion.Nodup) (i : Nat) (path : String)
    (hpath : paths[i]? = some path) (hi : i ∈ completion) :
    ∀ results : List (Option BatchEntry), i < results.length →
      (completion.foldl
        (fun results index =>
          match paths[index]? with
          | none => results
          | some imagePath => results.set index (some (entry index imagePath)))
        results)[i]? = some (some (entry i path)) := by
  induction completion with
  | nil => exact absurd hi (List.not_mem_nil _)
  | cons index rest ih =>
    intro results hlen
    rw [List.nodup_cons] at hnodup
    rw [List.foldl_cons]
    rcases List.mem_cons.mp hi with h | h
    · subst h
      rw [batch_writes_other paths entry rest i hnodup.1, hpath]
      exact List.getElem?_set_self hlen
    · apply ih hnodup.2 h
      cases paths[index]? <;> simpa using hlen

/-- C16: for every non-empty list of `n` path strings, whatever each goroutine finds in the
shared cache and in whatever order the goroutines finish, batch recognition succeeds with
`count = n` and `n` result entries; entry `i` carries path `i`, and it is an error entry exactly
when reading image `i` failed or recognizing it failed, and a success entry otherwise. -/
theorem Handler.handleBatchRecognize_preserves_order {M : Type} (h : Handler)
    (sum : List UInt8 → String) (lib : ImageLib M) (fs : String → FileState) (args : BatchArgs)
    (turns : Nat → Turn) (completion : List Nat) (paths : List String)
    (hpaths : paths ≠ [])
    (hargs : args.image_paths = some (paths.map some))
    (hdone : completion.Perm (List.range paths.length)) :
    ∃ response, h.handleBatchRecognize sum lib fs args turns completion = .ok response ∧
      response.count = paths.length ∧ response.results.length = paths.length ∧
      ∀ (i : Nat) (path : String), paths[i]? = some path →
        ∃ entry, response.results[i]? = some (some entry) ∧ entry.path = path ∧
          (entry.isError = true ↔
            ((∃ err, Handler.readImageFile fs path = .error err) ∨
              ∃ imageData err, Handler.readImageFile fs path = .ok imageData ∧
                ({ h with cache := (turns i).cache }.recognizeImage sum lib (turns i).ord
                  (turns i).nowGet (turns i).nowSet imageData (args.language.getD h.Language)
                  (args.preprocess.getD true) (args.auto_mode.getD true)).result
                  = .error err)) := by
  have hlen : paths.length ≠ 0 := fun h0 => hpaths (List.length_eq_zero.mp h0)
  have hnodup : completion.Nodup := hdone.nodup_iff.mpr (List.nodup_range _)
  unfold Handler.handleBatchRecognize
  simp only [hargs, Handler.stringElements_map_some, hlen, if_false]
  refine ⟨_, rfl, ?_, ?_, ?_⟩
  · simp only
    rw [batch_writes_length paths _ completion]
    simp
  · simp only
    rw [batch_writes_length paths _ completion]
    simp
  · intro i path hpath
    have hi : i < paths.length := (List.getElem?_eq_some.mp hpath).1
    have hmem : i ∈ completion := hdone.mem_iff.mpr (List.mem_range.mpr hi)
    refine ⟨h.batchItem sum lib fs (turns i) path (args.language.getD h.Language)
      (args.preprocess.getD true) (args.auto_mode.getD true), ?_, ?_, ?_⟩
    · exact batch_writes_own paths
        (fun index imagePath => h.batchItem sum lib fs (turns index) imagePath
          (args.language.getD h.Language) (args.preprocess.getD true)
          (args.auto_mode.getD true))
        completion hnodup i path hpath hmem _ (by simpa using hi)
    · unfold Handler.batchItem
      cases Handler.readImageFile fs path with
      | error err => rfl
      | ok imageData =>
        simp only
        cases ({ h with cache := (turns i).cache }.recognizeImage sum lib (turns i).ord
          (turns i).nowGet (turns i).nowSet imageData (args.language.getD h.Language)
          (args.preprocess.getD true) (args.auto_mode.getD true)).result <;> rfl
    · unfold Handler.batchItem
      cases hread : Handler.readImageFile fs path with
      | error err => simp [BatchEntry.isError]
      | ok imageData =>
        simp only
        cases hrun : ({ h with cache := (turns i).cache }.recognizeImage sum lib (turns i).ord
          (turns i).nowGet (turns i).nowSet imageData (args.language.getD h.Language)
          (args.preprocess.getD true) (args.auto_mode.getD true)).result with
        | error err => simp [BatchEntry.isError, hrun]
        | ok result => simp [BatchEntry.isError, hrun]

/-- C16 on the paths A, B, C, of which only B cannot be read, with the goroutines finishing in
the order C, A, B: the response has three entries, for A, B and C in that order, and only the
second is an error entry. -/
theorem Handler.handleBatchRecognize_preserves_order_witness :
    (∃ response,
      sampleHandler.handleBatchRecognize sampleSum brokenLib sampleFiles
        { image_paths := some (["A", "B", "C"].map some), language := none, preprocess := none
          auto_mode := none } (fun _ => sampleTurn) [2, 0, 1] = .ok response ∧
      response.count = ["A", "B", "C"].length ∧
      response.results.length = ["A", "B", "C"].length ∧
      ∀ (i : Nat) (path : String), ["A", "B", "C"][i]? = some path →
        ∃ entry, response.results[i]? = some (some entry) ∧ entry.path = path ∧
          (entry.isError = true ↔
            ((∃ err, Handler.readImageFile sampleFiles path = .error err) ∨
              ∃ imageData err, Handler.readImageFile sampleFiles path = .ok imageData ∧
                ({ sampleHandler with cache := sampleTurn.cache }.recognizeImage sampleSum
                  brokenLib sampleTurn.ord sampleTurn.nowGet sampleTurn.nowSet imageData "eng"
                  true true).result = .error err))) ∧
    (match sampleHandler.handleBatchRecognize sampleSum brokenLib sampleFiles
        { image_paths := some (["A", "B", "C"].map some), language := none, preprocess := none
          auto_mode := none } (fun _ => sampleTurn) [2, 0, 1] with
      | .ok response =>
        response.results.map (Option.map (fun entry => (entry.path, entry.isError)))
      | .error _ => [])
      = [some ("A", false), some ("B", true), some ("C", false)] :=
  ⟨Handler.handleBatchRecognize_preserves_order sampleHandler sampleSum brokenLib sampleFiles
      { image_paths := some (["A", "B", "C"].map some), language := none, preprocess := none
        auto_mode := none } (fun _ => sampleTurn) [2, 0, 1] ["A", "B", "C"] (by decide) rfl
      (by decide),
   by decide⟩

/-! ## Theorems: the worker pool -/

/-- C17 (the flag does not follow the two-state machine on the code): a new pool of two workers
is started and stopped (its two idle workers return while `Stop` waits), which leaves it not
started; `Start` then succeeds and sets the flag again; but every `Stop` of the pool so
restarted panics in `close(p.taskQueue)`, the channel having been closed by the first `Stop`,
and the pool stays started. -/
theorem pool.WorkerPool.Stop_panics_after_restart :
    ∃ p2 : pool.WorkerPool String,
      (pool.NewWorkerPool 2 10 : pool.WorkerPool String).Start.1.Stop [.exit, .exit]
        = .returned p2 ∧
      p2.started = false ∧ p2.Start.2 = none ∧ p2.Start.1.started = true ∧
      ∀ during, p2.Start.1.Stop during = .panicked "close of closed channel" :=
  ⟨_, rfl, rfl, rfl, rfl, fun _ => rfl⟩

/-- The flag as designed, on a pool whose channels are open: `Start` fails exactly on a started
pool and leaves the pool started either way; `Stop` does nothing to a pool that is not started,
and a `Stop` of a started pool that returns leaves it not started. -/
theorem pool.WorkerPool.started_flag_on_open_pool {V : Type} (p : pool.WorkerPool V)
    (hopen : p.taskQueueClosed = false) :
    (p.Start.2 = none ↔ p.started = false) ∧ p.Start.1.started = true ∧
    (p.started = true → p.Start.1 = p) ∧
    (p.started = false → ∀ during, p.Stop during = .returned p) ∧
    (∀ during p1, p.Stop during = .returned p1 → p1.started = false) := by
  refine ⟨?_, ?_, ?_, ?_, ?_⟩
  · unfold pool.WorkerPool.Start
    cases p.started <;> simp
  · unfold pool.WorkerPool.Start
    cases hs : p.started <;> simp [hs]
  · intro hs
    simp [pool.WorkerPool.Start, hs]
  · intro hs during
    simp [pool.WorkerPool.Stop, hs]
  · intro during p1 hstop
    unfold pool.WorkerPool.Stop at hstop
    cases hs : p.started with
    | false =>
      simp only [hs, Bool.not_false, if_true, pool.Outcome.returned.injEq] at hstop
      rw [← hstop]; exact hs
    | true =>
      simp only [hs, hopen, Bool.not_true, Bool.false_eq_true, if_false] at hstop
      split at hstop
      · simp at hstop
      · split at hstop
        · simp at hstop
        · split at hstop
          · simp at hstop
          · simp only [pool.Outcome.returned.injEq] at hstop
            rw [← hstop]

/-- C18 (counterexample): a started pool of one worker with queue capacity 0 holds 0 tasks,
which is its capacity; with the worker parked in its receive, `Submit` hands the task to the
worker and returns no error instead of "task queue full". -/
theorem pool.WorkerPool.Submit_hands_over_on_capacity_zero :
    (pool.NewWorkerPool 1 0 : pool.WorkerPool String).Start.1.started = true ∧
    (pool.NewWorkerPool 1 0 : pool.WorkerPool String).Start.1.taskQueue.length
      = (pool.NewWorkerPool 1 0 : pool.WorkerPool String).Start.1.queueSize ∧
    ∃ p1, (pool.NewWorkerPool 1 0 : pool.WorkerPool String).Start.1.Submit
        { receiverParked := true, preferDone := false } pool.sampleTask = .returned (p1, none) ∧
      p1.accepted.map (fun t => t.ID) = ["task1"] ∧
      p1.holding.map (fun r => r.TaskID) = ["task1"] :=
  ⟨rfl, rfl, _, rfl, rfl, rfl⟩

theorem pool.WorkerPool.Submit_queue_le {V : Type} (p : pool.WorkerPool V) (sel : pool.Select)
    (task : pool.Task V) (p1 : pool.WorkerPool V) (err : Option String)
    (hle : p.taskQueue.length ≤ p.queueSize)
    (h : p.Submit sel task = .returned (p1, err)) :
    p1.taskQueue.length ≤ p1.queueSize ∧ p1.queueSize = p.queueSize := by
  unfold pool.WorkerPool.Submit pool.WorkerPool.send at h
  split at h
  · simp only [pool.Outcome.returned.injEq, Prod.mk.injEq] at h
    rw [← h.1]; exact ⟨hle, rfl⟩
  · split at h
    · split at h
      · simp only [pool.Outcome.returned.injEq, Prod.mk.injEq] at h
        rw [← h.1]; exact ⟨hle, rfl⟩
      · split at h
        · simp at h
        · split at h
          · rename_i hroom
            simp only [pool.Outcome.returned.injEq, Prod.mk.injEq] at h
            rw [← h.1]
            refine ⟨?_, rfl⟩
            simp only [List.length_append, List.length_singleton]
            exact hroom
          · simp only [pool.Outcome.returned.injEq, Prod.mk.injEq] at h
            rw [← h.1]; exact ⟨hle, rfl⟩
    · split at h
      · simp only [pool.Outcome.returned.injEq, Prod.mk.injEq] at h
        rw [← h.1]; exact ⟨hle, rfl⟩
      · simp only [pool.Outcome.returned.injEq, Prod.mk.injEq] at h
        rw [← h.1]; exact ⟨hle, rfl⟩

theorem pool.WorkerPool.fire_queue_le {V : Type} (p : pool.WorkerPool V) (e : pool.Event)
    (p1 : pool.WorkerPool V) (hle : p.taskQueue.length ≤ p.queueSize)
    (h : p.fire e = some p1) :
    p1.taskQueue.length ≤ p1.queueSize ∧ p1.queueSize = p.queueSize := by
  cases e with
  | take =>
    simp only [pool.WorkerPool.fire] at h
    split at h
    · simp at h
    · rename_i task rest hq
      split at h
      · simp only [Option.some.injEq] at h
        rw [← h]
        rw [hq] at hle
        simp only [List.length_cons] at hle
        exact ⟨by simp only; omega, rfl⟩
      · simp at h
  | publish i =>
    simp only [pool.WorkerPool.fire] at h
    split at h
    · simp at h
    · split at h
      · simp only [Option.some.injEq] at h
        rw [← h]; exact ⟨hle, rfl⟩
      · simp at h
  | handover i =>
    simp only [pool.WorkerPool.fire] at h
    split at h
    · simp at h
    · split at h
      · simp only [Option.some.injEq] at h
        rw [← h]; exact ⟨hle, rfl⟩
      · simp at h
  | receive =>
    simp only [pool.WorkerPool.fire] at h
    split at h
    · simp at h
    · simp only [Option.some.injEq] at h
      rw [← h]; exact ⟨hle, rfl⟩
  | exit =>
    simp only [pool.WorkerPool.fire] at h
    split at h
    · simp only [Option.some.injEq] at h
      rw [← h]; exact ⟨hle, rfl⟩
    · simp at h
  | drop i =>
    simp only [pool.WorkerPool.fire] at h
    split at h
    · simp at h
    · split at h
      · simp only [Option.some.injEq] at h
        rw [← h]; exact ⟨hle, rfl⟩
      · simp at h

theorem pool.WorkerPool.run_queue_le {V : Type} (steps : List (pool.Step V)) :
    ∀ (p p1 : pool.WorkerPool V), p.taskQueue.length ≤ p.queueSize → p.run steps = some p1 →
      p1.taskQueue.length ≤ p1.queueSize := by
  induction steps with
  | nil =>
    intro p p1 hle h
    simp only [pool.WorkerPool.run, Option.some.injEq] at h
    rw [← h]; exact hle
  | cons step rest ih =>
    intro p p1 hle h
    cases step with
    | submit sel task =>
      simp only [pool.WorkerPool.run] at h
      split at h
      · rename_i p2 err hsub
        exact ih p2 p1 (pool.WorkerPool.Submit_queue_le p sel task p2 err hle hsub).1 h
      · simp at h
      · simp at h
    | event e =>
      simp only [pool.WorkerPool.run] at h
      split at h
      · simp at h
      · rename_i p2 hfire
        exact ih p2 p1 (pool.WorkerPool.fire_queue_le p e p2 hle hfire).1 h

/-- C18 (amended): on a started pool whose task queue is open and whose context is live (no
`Stop` has been called on it), with queue capacity at least 1: if the queue holds as many tasks
as its capacity, `Submit` returns "task queue full" and leaves the pool as it was; if it holds
fewer, `Submit` appends the task and returns no error; along every course of `Submit` calls and
worker events the number of queued tasks stays within the capacity. On any pool that is not
started `Submit` fails with "worker pool not started" and leaves the pool as it was. -/
theorem pool.WorkerPool.Submit_on_open_pool {V : Type} (p : pool.WorkerPool V)
    (sel : pool.Select) (task : pool.Task V)
    (hstarted : p.started = true) (hopen : p.taskQueueClosed = false)
    (hlive : p.ctxDone = false) (hcap : 1 ≤ p.queueSize) :
    (p.taskQueue.length = p.queueSize →
      p.Submit sel task = .returned (p, some "task queue full")) ∧
    (p.taskQueue.length < p.queueSize →
      p.Submit sel task
        = .returned ({ p with taskQueue := p.taskQueue ++ [task]
                              accepted := p.accepted ++ [task] }, none)) ∧
    (p.taskQueue.length ≤ p.queueSize →
      ∀ (steps : List (pool.Step V)) (p1 : pool.WorkerPool V), p.run steps = some p1 →
        p1.taskQueue.length ≤ p1.queueSize) ∧
    (∀ q : pool.WorkerPool V, q.started = false →
      q.Submit sel task = .returned (q, some "worker pool not started")) := by
  refine ⟨?_, ?_, ?_, ?_⟩
  · intro hfull
    have h1 : ¬ p.taskQueue.length < p.queueSize := by omega
    have h2 : ¬ p.taskQueue.length = 0 := by omega
    simp [pool.WorkerPool.Submit, pool.WorkerPool.sendReady, hstarted, hopen, hlive, h1, h2]
  · intro hroom
    simp [pool.WorkerPool.Submit, pool.WorkerPool.sendReady, pool.WorkerPool.send, hstarted,
      hopen, hlive, hroom]
  · intro hle steps p1 hrun
    exact pool.WorkerPool.run_queue_le steps p p1 hle hrun
  · intro q hq
    simp [pool.WorkerPool.Submit, hq]

/-- C18 (amended) on a started pool of two workers and capacity 1: the first `Submit` is
accepted, and the second, with the queue full, returns "task queue full". -/
theorem pool.WorkerPool.Submit_on_open_pool_witness :
    (∃ p1, (pool.NewWorkerPool 2 1 : pool.WorkerPool String).Start.1.Submit
        { receiverParked := false, preferDone := false } pool.sampleTask = .returned (p1, none) ∧
      p1.taskQueue.map (fun t => t.ID) = ["task1"]) ∧
    ({ (pool.NewWorkerPool 2 1 : pool.WorkerPool String).Start.1 with
        taskQueue := [pool.sampleTask] }.Submit
        { receiverParked := false, preferDone := false } pool.failingTask
      = .returned ({ (pool.NewWorkerPool 2 1 : pool.WorkerPool String).Start.1 with
        taskQueue := [pool.sampleTask] }, some "task queue full")) :=
  ⟨⟨_, (pool.WorkerPool.Submit_on_open_pool (pool.NewWorkerPool 2 1).Start.1
      { receiverParked := false, preferDone := false } pool.sampleTask rfl rfl rfl
      (by decide)).2.1 (by decide), rfl⟩,
   (pool.WorkerPool.Submit_on_open_pool
      { (pool.NewWorkerPool 2 1 : pool.WorkerPool String).Start.1 with
        taskQueue := [pool.sampleTask] }
      { receiverParked := false, preferDone := false } pool.failingTask rfl rfl rfl
      (by decide)).1 rfl⟩

theorem pool.perm_cons_eraseIdx {α : Type} (l : List α) :
    ∀ (i : Nat) (r : α), l[i]? = some r → l.Perm (r :: l.eraseIdx i) := by
  induction l with
  | nil => intro i r h; simp at h
  | cons a rest ih =>
    intro i r h
    cases i with
    | zero =>
      simp only [List.getElem?_cons_zero, Option.some.injEq] at h
      subst h
      simp
    | succ j =>
      simp only [List.getElem?_cons_succ] at h
      have := ih j r h
      simp only [List.eraseIdx_cons_succ]
      exact (List.Perm.cons a this).trans (List.Perm.swap r a _)

/-- The events that can happen on an open pool, with their effect: a take, a publish, a
handover or a receive. -/
theorem pool.WorkerPool.fire_cases {V : Type} (p p1 : pool.WorkerPool V) (e : pool.Event)
    (hopen : p.Open) (h : p.fire e = some p1) :
    (∃ task rest, p.taskQueue = task :: rest ∧ p.holding.length < p.workers ∧
      p1 = { p with taskQueue := rest, holding := p.holding ++ [task.result false] }) ∨
    (∃ i result, p.holding[i]? = some result ∧ p.resultQueue.length < p.queueSize ∧
      p1 = { p with resultQueue := p.resultQueue ++ [result]
                    holding := p.holding.eraseIdx i }) ∨
    (∃ i result, p.holding[i]? = some result ∧ p.resultQueue = [] ∧
      p1 = { p with received := p.received ++ [result], holding := p.holding.eraseIdx i }) ∨
    (∃ result rest, p.resultQueue = result :: rest ∧
      p1 = { p with resultQueue := rest, received := p.received ++ [result] }) := by
  obtain ⟨_, hq, hr, hctx⟩ := hopen
  cases e with
  | take =>
    simp only [pool.WorkerPool.fire] at h
    split at h
    · simp at h
    · rename_i task rest htq
      split at h
      · rename_i hidle
        simp only [Option.some.injEq] at h
        left
        exact ⟨task, rest, htq, hidle, by rw [← h, hctx]⟩
      · simp at h
  | publish i =>
    simp only [pool.WorkerPool.fire] at h
    split at h
    · simp at h
    · rename_i result hres
      split at h
      · rename_i hroom
        simp only [Option.some.injEq] at h
        right; left
        exact ⟨i, result, hres, hroom.2, h.symm⟩
      · simp at h
  | handover i =>
    simp only [pool.WorkerPool.fire] at h
    split at h
    · simp at h
    · rename_i result hres
      split at h
      · rename_i hempty
        simp only [Option.some.injEq] at h
        right; right; left
        exact ⟨i, result, hres, List.length_eq_zero.mp hempty.2, h.symm⟩
      · simp at h
  | receive =>
    simp only [pool.WorkerPool.fire] at h
    split at h
    · simp at h
    · rename_i result rest hrq
      simp only [Option.some.injEq] at h
      right; right; right
      exact ⟨result, rest, hrq, h.symm⟩
  | exit =>
    simp [pool.WorkerPool.fire, hq, hctx] at h
  | drop i =>
    simp only [pool.WorkerPool.fire] at h
    split at h
    · simp at h
    · simp [hctx] at h

/-- What a `Submit` does on an open pool: it returns, either with an error and the pool as it
was, or with no error after queueing the task or handing it to a parked worker. -/
theorem pool.WorkerPool.Submit_cases {V : Type} (p : pool.WorkerPool V) (sel : pool.Select)
    (task : pool.Task V) (hopen : p.Open) :
    (∃ err, p.Submit sel task = .returned (p, some err)) ∨
    p.Submit sel task
      = .returned ({ p with taskQueue := p.taskQueue ++ [task]
                            accepted := p.accepted ++ [task] }, none) ∨
    p.Submit sel task
      = .returned ({ p with holding := p.holding ++ [task.result false]
                            accepted := p.accepted ++ [task] }, none) := by
  obtain ⟨hs, hq, _, hctx⟩ := hopen
  unfold pool.WorkerPool.Submit pool.WorkerPool.send
  simp only [hs, hq, hctx, Bool.not_true, Bool.false_eq_true, if_false, Bool.false_and]
  split
  · split
    · right; left; rfl
    · right; right; rfl
  · left; exact ⟨_, rfl⟩

theorem pool.WorkerPool.Inv_fire {V : Type} (p p1 : pool.WorkerPool V) (e : pool.Event)
    (hinv : p.Inv) (h : p.fire e = some p1) :
    p1.Inv ∧ p1.workers = p.workers ∧ p1.backlog < p.backlog := by
  obtain ⟨hopen, hperm, htasks, hresults⟩ := hinv
  have hopen1 := hopen
  obtain ⟨hs, hq, hr, hctx⟩ := hopen1
  rcases pool.WorkerPool.fire_cases p p1 e hopen h with
    ⟨task, rest, htq, _, rfl⟩ | ⟨i, result, hres, _, rfl⟩ | ⟨i, result, hres, _, rfl⟩ |
    ⟨result, rest, hrq, rfl⟩
  · refine ⟨⟨⟨hs, hq, hr, hctx⟩, ?_, ?_, ?_⟩, rfl, ?_⟩
    · refine List.Perm.trans ?_ hperm
      rw [List.perm_iff_count]
      intro a
      simp [pool.WorkerPool.accountedIDs, htq, List.count_cons, pool.Task.result]
      split <;> omega
    · intro t ht
      exact htasks t (by rw [htq]; exact List.mem_cons_of_mem _ ht)
    · intro r hmem
      simp only [List.mem_append, List.mem_singleton] at hmem
      rcases hmem with ((hmem | hmem) | hmem) | hmem
      · exact hresults r (by simp [hmem])
      · exact ⟨task, htasks task (by rw [htq]; exact List.mem_cons_self _ _), hmem⟩
      · exact hresults r (by simp [hmem])
      · exact hresults r (by simp [hmem])
    · simp [pool.WorkerPool.backlog, htq]
      omega
  · have hp := pool.perm_cons_eraseIdx p.holding i result hres
    have hlen := hp.length_eq
    refine ⟨⟨⟨hs, hq, hr, hctx⟩, ?_, htasks, ?_⟩, rfl, ?_⟩
    · refine List.Perm.trans ?_ hperm
      have hc := fun a => (List.Perm.map (fun r : pool.Result V => r.TaskID) hp).count_eq a
      rw [List.perm_iff_count]
      intro a
      have := hc a
      simp [pool.WorkerPool.accountedIDs, List.count_cons] at this ⊢
      split at this <;> first | omega | (simp_all; try omega)
    · intro r hmem
      simp only [List.mem_append, List.mem_singleton] at hmem
      rcases hmem with (hmem | hmem | hmem) | hmem
      · exact hresults r (by simp [List.mem_of_mem_eraseIdx hmem])
      · exact hresults r (by simp [hmem])
      · exact hresults r (by simp [hmem, List.getElem?_mem hres])
      · exact hresults r (by simp [hmem])
    · simp only [List.length_cons] at hlen
      simp [pool.WorkerPool.backlog]
      omega
  · have hp := pool.perm_cons_eraseIdx p.holding i result hres
    have hlen := hp.length_eq
    refine ⟨⟨⟨hs, hq, hr, hctx⟩, ?_, htasks, ?_⟩, rfl, ?_⟩
    · refine List.Perm.trans ?_ hperm
      have hc := fun a => (List.Perm.map (fun r : pool.Result V => r.TaskID) hp).count_eq a
      rw [List.perm_iff_count]
      intro a
      have := hc a
      simp [pool.WorkerPool.accountedIDs, List.count_cons] at this ⊢
      split at this <;> first | omega | (simp_all; try omega)
    · intro r hmem
      simp only [List.mem_append, List.mem_singleton] at hmem
      rcases hmem with (hmem | hmem) | hmem | hmem
      · exact hresults r (by simp [List.mem_of_mem_eraseIdx hmem])
      · exact hresults r (by simp [hmem])
      · exact hresults r (by simp [hmem])
      · exact hresults r (by simp [hmem, List.getElem?_mem hres])
    · simp only [List.length_cons] at hlen
      simp [pool.WorkerPool.backlog]
      omega
  · refine ⟨⟨⟨hs, hq, hr, hctx⟩, ?_, htasks, ?_⟩, rfl, ?_⟩
    · refine List.Perm.trans ?_ hperm
      rw [List.perm_iff_count]
      intro a
      simp [pool.WorkerPool.accountedIDs, hrq, List.count_cons]
      split <;> omega
    · intro r hmem
      simp only [List.mem_append, List.mem_singleton] at hmem
      rcases hmem with (hmem | hmem) | hmem | hmem
      · exact hresults r (by simp [hmem])
      · exact hresults r (by simp [hrq, hmem])
      · exact hresults r (by simp [hmem])
      · exact hresults r (by simp [hrq, hmem])
    · simp [pool.WorkerPool.backlog, hrq]

theorem pool.WorkerPool.Inv_Submit {V : Type} (p p1 : pool.WorkerPool V) (sel : pool.Select)
    (task : pool.Task V) (err : Option String) (hinv : p.Inv)
    (h : p.Submit sel task = .returned (p1, err)) :
    p1.Inv ∧ p1.workers = p.workers := by
  obtain ⟨hopen, hperm, htasks, hresults⟩ := hinv
  have hopen1 := hopen
  obtain ⟨hs, hq, hr, hctx⟩ := hopen1
  rcases pool.WorkerPool.Submit_cases p sel task hopen with ⟨err1, h1⟩ | h1 | h1
  · rw [h1] at h
    simp only [pool.Outcome.returned.injEq, Prod.mk.injEq] at h
    rw [← h.1]
    exact ⟨⟨hopen, hperm, htasks, hresults⟩, rfl⟩
  · rw [h1] at h
    simp only [pool.Outcome.returned.injEq, Prod.mk.injEq] at h
    rw [← h.1]
    refine ⟨⟨⟨hs, hq, hr, hctx⟩, ?_, ?_, ?_⟩, rfl⟩
    · have hc := fun a => hperm.count_eq a
      rw [List.perm_iff_count]
      intro a
      have := hc a
      simp [pool.WorkerPool.accountedIDs, List.count_cons] at this ⊢
      omega
    · intro t ht
      simp only [List.mem_append, List.mem_singleton] at ht ⊢
      rcases ht with ht | ht
      · exact Or.inl (htasks t ht)
      · exact Or.inr ht
    · intro r hmem
      obtain ⟨t, ht, hrt⟩ := hresults r hmem
      exact ⟨t, List.mem_append.mpr (Or.inl ht), hrt⟩
  · rw [h1] at h
    simp only [pool.Outcome.returned.injEq, Prod.mk.injEq] at h
    rw [← h.1]
    refine ⟨⟨⟨hs, hq, hr, hctx⟩, ?_, ?_, ?_⟩, rfl⟩
    · have hc := fun a => hperm.count_eq a
      rw [List.perm_iff_count]
      intro a
      have := hc a
      simp [pool.WorkerPool.accountedIDs, List.count_cons, pool.Task.result] at this ⊢
      omega
    · intro t ht
      exact List.mem_append.mpr (Or.inl (htasks t ht))
    · intro r hmem
      simp only [List.mem_append, List.mem_singleton] at hmem
      rcases hmem with ((hmem | hmem) | hmem) | hmem
      · obtain ⟨t, ht, hrt⟩ := hresults r (by simp [hmem])
        exact ⟨t, List.mem_append.mpr (Or.inl ht), hrt⟩
      · exact ⟨task, by simp, hmem⟩
      · obtain ⟨t, ht, hrt⟩ := hresults r (by simp [hmem])
        exact ⟨t, List.mem_append.mpr (Or.inl ht), hrt⟩
      · obtain ⟨t, ht, hrt⟩ := hresults r (by simp [hmem])
        exact ⟨t, List.mem_append.mpr (Or.inl ht), hrt⟩

theorem pool.WorkerPool.Inv_Start {V : Type} (workerCount : Int) (queueSize : Nat) :
    (pool.NewWorkerPool workerCount queueSize : pool.WorkerPool V).Start.1.Inv ∧
    (pool.NewWorkerPool workerCount queueSize : pool.WorkerPool V).Start.1.workers
      = workerCount.toNat := by
  refine ⟨⟨⟨rfl, rfl, rfl, rfl⟩, ?_, ?_, ?_⟩, ?_⟩
  · exact List.Perm.refl _
  · intro t ht
    exact absurd ht (List.not_mem_nil t)
  · intro r hr
    exact absurd hr (List.not_mem_nil r)
  · simp [pool.NewWorkerPool, pool.WorkerPool.Start]

theorem pool.WorkerPool.Inv_run {V : Type} (steps : List (pool.Step V)) :
    ∀ (p p1 : pool.WorkerPool V), p.Inv → p.run steps = some p1 →
      p1.Inv ∧ p1.workers = p.workers := by
  induction steps with
  | nil =>
    intro p p1 hinv h
    simp only [pool.WorkerPool.run, Option.some.injEq] at h
    rw [← h]; exact ⟨hinv, rfl⟩
  | cons step rest ih =>
    intro p p1 hinv h
    cases step with
    | submit sel task =>
      simp only [pool.WorkerPool.run] at h
      split at h
      · rename_i p2 err hsub
        obtain ⟨hinv2, hw2⟩ := pool.WorkerPool.Inv_Submit p p2 sel task err hinv hsub
        obtain ⟨hinv1, hw1⟩ := ih p2 p1 hinv2 h
        exact ⟨hinv1, hw1.trans hw2⟩
      · simp at h
      · simp at h
    | event e =>
      simp only [pool.WorkerPool.run] at h
      split at h
      · simp at h
      · rename_i p2 hfire
        obtain ⟨hinv2, hw2, _⟩ := pool.WorkerPool.Inv_fire p p2 e hinv hfire
        obtain ⟨hinv1, hw1⟩ := ih p2 p1 hinv2 h
        exact ⟨hinv1, hw1.trans hw2⟩

/-- Without a further `Submit`, an open pool can make at most `backlog` moves. -/
theorem pool.WorkerPool.exec_length_le_backlog {V : Type} (events : List pool.Event) :
    ∀ (p p1 : pool.WorkerPool V), p.Inv → p.exec events = some p1 →
      events.length + p1.backlog ≤ p.backlog := by
  induction events with
  | nil =>
    intro p p1 _ h
    simp only [pool.WorkerPool.exec, Option.some.injEq] at h
    rw [← h]; simp
  | cons e rest ih =>
    intro p p1 hinv h
    simp only [pool.WorkerPool.exec] at h
    split at h
    · simp at h
    · rename_i p2 hfire
      obtain ⟨hinv2, _, hlt⟩ := pool.WorkerPool.Inv_fire p p2 e hinv hfire
      have := ih p2 p1 hinv2 h
      simp only [List.length_cons]
      omega

/-- As long as a task is queued or a result is held or waits in the result queue, a pool with
at least one worker can make a move. -/
theorem pool.WorkerPool.progress {V : Type} (p : pool.WorkerPool V) (hopen : p.Open)
    (hworkers : 1 ≤ p.workers)
    (hpending : p.taskQueue ≠ [] ∨ p.holding ≠ [] ∨ p.resultQueue ≠ []) :
    ∃ e, (p.fire e).isSome = true := by
  obtain ⟨_, _, hr, _⟩ := hopen
  cases hh : p.holding with
  | cons result rest =>
    have h0 : p.holding[0]? = some result := by rw [hh]; simp
    by_cases hroom : p.resultQueue.length < p.queueSize
    · exact ⟨.publish 0, by simp [pool.WorkerPool.fire, h0, hr, hroom]⟩
    · cases hrq : p.resultQueue with
      | nil => exact ⟨.handover 0, by simp [pool.WorkerPool.fire, h0, hr, hrq]⟩
      | cons r1 rest1 => exact ⟨.receive, by simp [pool.WorkerPool.fire, hrq]⟩
  | nil =>
    cases hrq : p.resultQueue with
    | cons r1 rest1 => exact ⟨.receive, by simp [pool.WorkerPool.fire, hrq]⟩
    | nil =>
      cases htq : p.taskQueue with
      | nil => simp [hh, hrq, htq] at hpending
      | cons task rest =>
        refine ⟨.take, ?_⟩
        have : 0 < p.workers := hworkers
        simp [pool.WorkerPool.fire, htq, hh, this]

/-- C19: let a new pool with at least one worker be started, and let any course of `Submit`
calls, worker moves and receives follow, in which the accepted tasks have distinct IDs (`K` of
them). Then at every moment the results published so far have distinct task IDs, each the ID of
an accepted task, and there are at most `K` of them; once no task is queued and no worker holds
a result, exactly `K` results have been published and their task IDs are those of the accepted
tasks, each once (and they have all been received once the result queue is empty); until then a
move is always possible; and without a further `Submit` at most `backlog` moves, which is at
most `3 K`, can be made. So every course that goes on with the results being received ends with
exactly `K` results, one for each task. -/
theorem pool.WorkerPool.every_task_yields_one_result {V : Type} (workerCount : Int)
    (queueSize : Nat) (steps : List (pool.Step V)) (p : pool.WorkerPool V)
    (hworkers : 1 ≤ workerCount)
    (hrun : (pool.NewWorkerPool workerCount queueSize : pool.WorkerPool V).Start.1.run steps
      = some p)
    (hids : (p.accepted.map (fun t => t.ID)).Nodup) :
    ((p.published.map (fun r => r.TaskID)).Nodup ∧
      (∀ r ∈ p.published, r.TaskID ∈ p.accepted.map (fun t => t.ID)) ∧
      p.published.length ≤ p.accepted.length) ∧
    (p.taskQueue = [] → p.holding = [] →
      p.published.length = p.accepted.length ∧
      (p.published.map (fun r => r.TaskID)).Perm (p.accepted.map (fun t => t.ID)) ∧
      (p.resultQueue = [] → p.received = p.published)) ∧
    ((p.taskQueue ≠ [] ∨ p.holding ≠ [] ∨ p.resultQueue ≠ []) →
      ∃ e, (p.fire e).isSome = true) ∧
    ((∀ (events : List pool.Event) (p1 : pool.WorkerPool V), p.exec events = some p1 →
        events.length ≤ p.backlog) ∧
      p.backlog ≤ 3 * p.accepted.length) := by
  obtain ⟨hinv0, hw0⟩ := pool.WorkerPool.Inv_Start (V := V) workerCount queueSize
  obtain ⟨hinv, hw⟩ := pool.WorkerPool.Inv_run steps _ p hinv0 hrun
  have hinv1 := hinv
  obtain ⟨hopen, hperm, _, hresults⟩ := hinv1
  have hnodup : p.accountedIDs.Nodup := hperm.nodup_iff.mpr hids
  have hsub : (p.published.map (fun r => r.TaskID)).Sublist p.accountedIDs := by
    simp only [pool.WorkerPool.published, pool.WorkerPool.accountedIDs, List.map_append,
      List.append_assoc]
    exact List.sublist_append_of_sublist_right
      (List.sublist_append_of_sublist_right (List.Sublist.refl _))
  have hlen : p.accountedIDs.length = p.accepted.length := by
    rw [hperm.length_eq, List.length_map]
  refine ⟨⟨hnodup.sublist hsub, ?_, ?_⟩, ?_, ?_, ?_, ?_⟩
  · intro r hr
    have : r.TaskID ∈ p.accountedIDs :=
      hsub.subset (List.mem_map_of_mem (fun r : pool.Result V => r.TaskID) hr)
    exact hperm.mem_iff.mp this
  · have := hsub.length_le
    rw [List.length_map] at this
    omega
  · intro htq hh
    have heq : p.accountedIDs = p.published.map (fun r => r.TaskID) := by
      simp [pool.WorkerPool.accountedIDs, pool.WorkerPool.published, htq, hh]
    refine ⟨?_, ?_, ?_⟩
    · rw [← hlen, heq, List.length_map]
    · rw [← heq]; exact hperm
    · intro hrq
      simp [pool.WorkerPool.published, hrq]
  · intro hpending
    apply pool.WorkerPool.progress p hopen _ hpending
    rw [hw, hw0]
    omega
  · intro events p1 hexec
    have := pool.WorkerPool.exec_length_le_backlog events p p1 hinv hexec
    omega
  · have : p.accountedIDs.length
        = p.taskQueue.length + p.holding.length + p.resultQueue.length + p.received.length := by
      simp [pool.WorkerPool.accountedIDs]
      omega
    simp only [pool.WorkerPool.backlog]
    omega

/-- C19 on the sample course (two workers, the two sample tasks): the two results received
carry the two task IDs, and no move is left. -/
theorem pool.WorkerPool.every_task_yields_one_result_witness :
    pool.sampleEnd.published.length = pool.sampleEnd.accepted.length ∧
    (pool.sampleEnd.published.map (fun r => r.TaskID)).Perm
      (pool.sampleEnd.accepted.map (fun t => t.ID)) ∧
    pool.sampleEnd.received.map (fun r => r.TaskID) = ["task1", "task-error"] :=
  ⟨((pool.WorkerPool.every_task_yields_one_result 2 10 pool.sampleCourse pool.sampleEnd
      (by decide) rfl (by decide)).2.1 rfl rfl).1,
   ((pool.WorkerPool.every_task_yields_one_result 2 10 pool.sampleCourse pool.sampleEnd
      (by decide) rfl (by decide)).2.1 rfl rfl).2.1,
   rfl⟩

/-- C20: along every course of a started pool, every result that a worker holds, that waits in
the result queue or that has been received is the result of an accepted task: its `TaskID` is
the task's ID and its `Value`, `Error` and `Duration` are what the task's `Execute` returned and
took. A worker that takes a task builds its result whatever `Execute` returned, an error
included, and sending the result leaves it as it is. -/
theorem pool.WorkerPool.results_carry_task_outcome {V : Type} (workerCount : Int)
    (queueSize : Nat) (steps : List (pool.Step V)) (p : pool.WorkerPool V)
    (hrun : (pool.NewWorkerPool workerCount queueSize : pool.WorkerPool V).Start.1.run steps
      = some p) :
    (∀ r ∈ p.holding ++ p.resultQueue ++ p.received, ∃ t ∈ p.accepted,
      r.TaskID = t.ID ∧ r.Value = (t.Execute false).Value ∧
      r.Error = (t.Execute false).Error ∧ r.Duration = (t.Execute false).elapsed) ∧
    (∀ task rest, p.taskQueue = task :: rest → p.holding.length < p.workers →
      p.fire .take
        = some { p with
            taskQueue := rest
            holding := p.holding ++ [{ TaskID := task.ID, Value := (task.Execute false).Value
                                       Error := (task.Execute false).Error
                                       Duration := (task.Execute false).elapsed }] }) ∧
    (∀ i result, p.holding[i]? = some result → p.resultQueue.length < p.queueSize →
      p.fire (.publish i)
        = some { p with resultQueue := p.resultQueue ++ [result]
                        holding := p.holding.eraseIdx i }) := by
  obtain ⟨hinv0, _⟩ := pool.WorkerPool.Inv_Start (V := V) workerCount queueSize
  obtain ⟨hinv, _⟩ := pool.WorkerPool.Inv_run steps _ p hinv0 hrun
  obtain ⟨⟨_, _, hr, hctx⟩, _, _, hresults⟩ := hinv
  refine ⟨?_, ?_, ?_⟩
  · intro r hmem
    obtain ⟨t, ht, hrt⟩ := hresults r hmem
    subst hrt
    exact ⟨t, ht, rfl, rfl, rfl, rfl⟩
  · intro task rest htq hidle
    simp [pool.WorkerPool.fire, htq, hidle, hctx, pool.Task.result]
  · intro i result hres hroom
    simp [pool.WorkerPool.fire, hres, hr, hroom]

/-- C20 on the sample course: the result received for the failing task carries its ID and its
error "test error", the result of the other task its ID and value. -/
theorem pool.WorkerPool.results_carry_task_outcome_witness :
    (∀ r ∈ pool.sampleEnd.holding ++ pool.sampleEnd.resultQueue ++ pool.sampleEnd.received,
      ∃ t ∈ pool.sampleEnd.accepted,
        r.TaskID = t.ID ∧ r.Value = (t.Execute false).Value ∧
        r.Error = (t.Execute false).Error ∧ r.Duration = (t.Execute false).elapsed) ∧
    pool.sampleEnd.received
      = [{ TaskID := "task1", Value := "result-task1", Error := none, Duration := 10 },
         { TaskID := "task-error", Value := "", Error := some "test error", Duration := 0 }] :=
  ⟨(pool.WorkerPool.results_carry_task_outcome 2 10 pool.sampleCourse pool.sampleEnd rfl).1,
   rfl⟩

/-! ## Theorems: the engine pool -/

theorem NewEnginePool.loop_eq (config : EngineConfig) (remaining : Nat) :
    ∀ (i : Nat) (pool : EnginePool), NewEnginePool.loop config i remaining pool =
      ({ pool with cgoEngines := pool.cgoEngines ++ List.range' pool.constructed remaining
                   constructed := pool.constructed + remaining }, none) := by
  induction remaining with
  | zero => intro i pool; simp [NewEnginePool.loop]
  | succ n ih =>
    intro i pool
    simp only [NewEnginePool.loop, TesseractCGoEngine.Initialize]
    rw [ih]
    simp [List.range'_succ, Nat.add_assoc, Nat.add_comm 1 n]

theorem NewEnginePool_eq (config : EngineConfig) (poolSize : Nat) :
    NewEnginePool config poolSize =
      ({ cgoEngines := List.range poolSize, poolSize := poolSize, chanClosed := false
         config := config, constructed := poolSize, closeCalls := [] }, none) := by
  unfold NewEnginePool
  rw [NewEnginePool.loop_eq]
  simp [List.range_eq_range']

theorem EnginePool.closeErrors_length (engineClose : List Nat → Nat → Option String)
    (engines : List Nat) :
    ∀ calls, (EnginePool.closeErrors engineClose calls engines).length = engines.length := by
  induction engines with
  | nil => intro calls; rfl
  | cons e rest ih => intro calls; simp [EnginePool.closeErrors, ih]

/-- The loop of `Close` calls `Close` on every instance, in order, and ends with the last error
that a call returned, or with the `lastErr` it started from when no call returned one. -/
theorem EnginePool.closeLoop_eq (engineClose : List Nat → Nat → Option String)
    (engines : List Nat) :
    ∀ (calls : List Nat) (lastErr : Option String),
      EnginePool.closeLoop engineClose engines (calls, lastErr) =
        (calls ++ engines,
          match (EnginePool.closeErrors engineClose calls engines).reduceOption.getLast? with
          | some err => some err
          | none => lastErr) := by
  induction engines with
  | nil => intro calls lastErr; simp [EnginePool.closeLoop, EnginePool.closeErrors]
  | cons e rest ih =>
    intro calls lastErr
    cases hc : engineClose calls e with
    | none =>
      simp only [EnginePool.closeLoop, EnginePool.closeErrors, hc, ih,
        List.reduceOption_cons_of_none, List.append_assoc, List.singleton_append]
    | some err =>
      simp only [EnginePool.closeLoop, EnginePool.closeErrors, hc, ih,
        List.reduceOption_cons_of_some, List.append_assoc, List.singleton_append]
      cases hr : (EnginePool.closeErrors engineClose (calls ++ [e]) rest).reduceOption with
      | nil => simp [hr]
      | cons a l =>
        have hlast : (a :: l).getLast? = some ((a :: l).getLast (List.cons_ne_nil a l)) :=
          List.getLast?_eq_getLast _ _
        simp only [hr, List.getLast?_cons_cons, hlast]
/-- C21 (not the first error): a pool of two idle instances, 0 and 1, whose `Close` calls fail
with "first" and "second". `Close` closes both and returns "second", while the first error
encountered is "first". -/
theorem EnginePool.Close_returns_last_not_first :
    (NewEnginePool sampleEngineConfig 2).1.cgoEngines = [0, 1] ∧
    (EnginePool.closeErrors sampleEngineClose [] [0, 1]).reduceOption.head? = some "first" ∧
    ∃ p1, (NewEnginePool sampleEngineConfig 2).1.Close sampleEngineClose
        = .returned (p1, some "second") ∧ p1.closeCalls = [0, 1] := by
  refine ⟨by decide, by decide, _, rfl, by decide⟩

/-- C21 (amended): `Close` on a pool whose channel is open calls `Close` on every idle
instance, in queue order and whether or not an earlier call failed, leaves the pool closed and
empty, and returns the last error that one of these calls returned (`nil` when none failed). -/
theorem EnginePool.Close_closes_all_returns_last (p : EnginePool)
    (engineClose : List Nat → Nat → Option String) (hopen : p.chanClosed = false) :
    ∃ p1, p.Close engineClose = .returned (p1,
        (EnginePool.closeErrors engineClose p.closeCalls p.cgoEngines).reduceOption.getLast?) ∧
      p1.closeCalls = p.closeCalls ++ p.cgoEngines ∧ p1.cgoEngines = [] ∧
      p1.chanClosed = true ∧
      (EnginePool.closeErrors engineClose p.closeCalls p.cgoEngines).length
        = p.cgoEngines.length ∧
      ((∀ r ∈ EnginePool.closeErrors engineClose p.closeCalls p.cgoEngines, r = none) →
        (EnginePool.closeErrors engineClose p.closeCalls p.cgoEngines).reduceOption.getLast?
          = none) := by
  have hloop := EnginePool.closeLoop_eq engineClose p.cgoEngines p.closeCalls none
  have hlast : (match (EnginePool.closeErrors engineClose p.closeCalls
        p.cgoEngines).reduceOption.getLast? with
      | some err => some err
      | none => none) =
      (EnginePool.closeErrors engineClose p.closeCalls p.cgoEngines).reduceOption.getLast? := by
    cases (EnginePool.closeErrors engineClose p.closeCalls p.cgoEngines).reduceOption.getLast?
      <;> rfl
  rw [hlast] at hloop
  refine ⟨{ p with chanClosed := true, cgoEngines := [],
                    closeCalls := p.closeCalls ++ p.cgoEngines }, ?_, rfl, rfl, rfl,
    EnginePool.closeErrors_length engineClose p.cgoEngines _, ?_⟩
  · simp only [EnginePool.Close, hopen, Bool.false_eq_true, if_false, hloop]
  · intro hall
    have hnil : (EnginePool.closeErrors engineClose p.closeCalls p.cgoEngines).reduceOption
        = [] := by
      rw [List.reduceOption, List.filterMap_eq_nil_iff]
      intro r hr
      rw [hall r hr]
      rfl
    rw [hnil]
    rfl

theorem EnginePool.Close_closes_all_returns_last_witness :
    ∃ p1, (NewEnginePool sampleEngineConfig 2).1.Close sampleEngineClose = .returned (p1,
        (EnginePool.closeErrors sampleEngineClose (NewEnginePool sampleEngineConfig 2).1.closeCalls
          (NewEnginePool sampleEngineConfig 2).1.cgoEngines).reduceOption.getLast?) ∧
      p1.closeCalls = [0, 1] := by
  obtain ⟨p1, h1, h2, _⟩ := EnginePool.Close_closes_all_returns_last
    (NewEnginePool sampleEngineConfig 2).1 sampleEngineClose rfl
  exact ⟨p1, h1, by rw [h2]; decide⟩

theorem EnginePool.Put_open (p : EnginePool) (hopen : p.chanClosed = false) :
    p.Put none = .returned p ∧
    (∀ e, p.cgoEngines.length < p.poolSize →
      p.Put (some e) = .returned { p with cgoEngines := p.cgoEngines ++ [e] }) ∧
    (∀ e, ¬ p.cgoEngines.length < p.poolSize →
      p.Put (some e) = .returned { p with closeCalls := p.closeCalls ++ [e] }) := by
  refine ⟨rfl, ?_, ?_⟩
  · intro e h
    simp [EnginePool.Put, hopen, h]
  · intro e h
    simp [EnginePool.Put, hopen, h]

theorem EnginePool.Get_open (p : EnginePool) (hopen : p.chanClosed = false) :
    (∀ engine rest, p.cgoEngines = engine :: rest →
      p.Get = ({ p with cgoEngines := rest }, some engine, none)) ∧
    (p.cgoEngines = [] →
      p.Get = ({ p with constructed := p.constructed + 1 }, some p.constructed, none)) := by
  refine ⟨?_, ?_⟩
  · intro engine rest h
    simp [EnginePool.Get, h]
  · intro h
    simp [EnginePool.Get, h, hopen, TesseractCGoEngine.Initialize]

/-- A `Get` or `Put` on an open pool with at most `poolSize` idle instances returns and leaves
such a pool. -/
theorem EnginePool.run_keeps_bound (calls : List EnginePool.Call) :
    ∀ p : EnginePool, p.chanClosed = false → p.cgoEngines.length ≤ p.poolSize →
      ∃ p1, p.run calls = some p1 ∧ p1.chanClosed = false ∧ p1.poolSize = p.poolSize ∧
        p1.cgoEngines.length ≤ p1.poolSize := by
  induction calls with
  | nil => intro p hopen hle; exact ⟨p, rfl, hopen, rfl, hle⟩
  | cons call rest ih =>
    intro p hopen hle
    cases call with
    | get =>
      have hget := EnginePool.Get_open p hopen
      cases hq : p.cgoEngines with
      | nil =>
        have h1 := hget.2 hq
        obtain ⟨p1, hr, ho, hs, hl⟩ := ih { p with constructed := p.constructed + 1 } hopen hle
        exact ⟨p1, by simp only [EnginePool.run, h1]; exact hr, ho, hs, hl⟩
      | cons engine tail =>
        have h1 := hget.1 engine tail hq
        have hle1 : tail.length ≤ p.poolSize := by
          rw [hq] at hle
          simp at hle
          omega
        obtain ⟨p1, hr, ho, hs, hl⟩ := ih { p with cgoEngines := tail } hopen hle1
        exact ⟨p1, by simp only [EnginePool.run, h1]; exact hr, ho, hs, hl⟩
    | put engine =>
      have hput := EnginePool.Put_open p hopen
      cases engine with
      | none =>
        obtain ⟨p1, hr, ho, hs, hl⟩ := ih p hopen hle
        exact ⟨p1, by simp only [EnginePool.run, hput.1]; exact hr, ho, hs, hl⟩
      | some e =>
        by_cases hroom : p.cgoEngines.length < p.poolSize
        · have hle1 : (p.cgoEngines ++ [e]).length ≤ p.poolSize := by
            simp
            omega
          obtain ⟨p1, hr, ho, hs, hl⟩ :=
            ih { p with cgoEngines := p.cgoEngines ++ [e] } hopen hle1
          exact ⟨p1, by simp only [EnginePool.run, hput.2.1 e hroom]; exact hr, ho, hs, hl⟩
        · obtain ⟨p1, hr, ho, hs, hl⟩ :=
            ih { p with closeCalls := p.closeCalls ++ [e] } hopen hle
          exact ⟨p1, by simp only [EnginePool.run, hput.2.2 e hroom]; exact hr, ho, hs, hl⟩

/-- C22: a pool built with size N starts with N idle instances and no error; every sequence of
`Get` and `Put` calls on it runs without a panic and leaves at most N idle instances; and in
the pool so reached `Put` of a `nil` engine changes nothing, `Put` of an instance enqueues it
when fewer than N are idle, and otherwise closes it and leaves the queue as it was. -/
theorem EnginePool.idle_count_bounded (config : EngineConfig) (N : Nat)
    (calls : List EnginePool.Call) :
    (NewEnginePool config N).2 = none ∧ (NewEnginePool config N).1.cgoEngines.length = N ∧
    ∃ p, (NewEnginePool config N).1.run calls = some p ∧ p.cgoEngines.length ≤ N ∧
      p.Put none = .returned p ∧
      (∀ e, p.cgoEngines.length < N →
        p.Put (some e) = .returned { p with cgoEngines := p.cgoEngines ++ [e] }) ∧
      (∀ e, ¬ p.cgoEngines.length < N →
        p.Put (some e) = .returned { p with closeCalls := p.closeCalls ++ [e] }) := by
  rw [NewEnginePool_eq]
  refine ⟨rfl, by simp, ?_⟩
  obtain ⟨p, hr, ho, hs, hl⟩ := EnginePool.run_keeps_bound calls
    { cgoEngines := List.range N, poolSize := N, chanClosed := false
      config := config, constructed := N, closeCalls := [] } rfl (by simp)
  have hs1 : p.poolSize = N := hs
  have hput := EnginePool.Put_open p ho
  rw [hs1] at hl
  refine ⟨p, hr, hl, hput.1, ?_, ?_⟩
  · intro e h
    exact hput.2.1 e (by rw [hs1]; exact h)
  · intro e h
    exact hput.2.2 e (by rw [hs1]; exact h)
theorem EnginePool.perm_cons_erase_holding (held : List (Nat × Nat)) (a : Nat × Nat)
    (h : a ∈ held) : held.Perm (a :: held.erase a) := by
  induction held with
  | nil => simp at h
  | cons b t ih =>
    rw [List.erase_cons]
    by_cases hb : b = a
    · subst hb
      simp
    · have hbeq : (b == a) = false := by simpa using hb
      have ht : a ∈ t := by
        rcases List.mem_cons.mp h with h | h
        · exact absurd h.symm hb
        · exact h
      simp only [hbeq, Bool.false_eq_true, if_false]
      exact ((ih ht).cons b).trans (List.Perm.swap a b _)

theorem EnginePool.Usage.Inv_step (u : EnginePool.Usage) (move : EnginePool.Move)
    (hinv : u.Inv)
    (hheld : ∀ caller engine, move = .put caller engine → (caller, engine) ∈ u.held) :
    ∃ u1, u.step move = some u1 ∧ u1.Inv := by
  obtain ⟨hopen, hnodup, hlt⟩ := hinv
  cases move with
  | get caller =>
    have hget := EnginePool.Get_open u.pool hopen
    cases hq : u.pool.cgoEngines with
    | nil =>
      have h1 := hget.2 hq
      refine ⟨{ pool := { u.pool with constructed := u.pool.constructed + 1 }
                held := u.held ++ [(caller, u.pool.constructed)] }, ?_, hopen, ?_, ?_⟩
      · simp only [EnginePool.Usage.step, h1]
      · rw [hq] at hnodup hlt
        simp only [hq, List.nil_append, List.map_append, List.map_cons, List.map_nil] at hnodup ⊢
        rw [List.nodup_append]
        refine ⟨hnodup, List.nodup_singleton _, ?_⟩
        intro a ha hb
        have := hlt a (by simpa using ha)
        simp at hb
        omega
      · intro e he
        rw [hq] at hlt
        simp only [hq, List.nil_append, List.map_append, List.map_cons, List.map_nil,
          List.mem_append, List.mem_singleton] at he
        rcases he with he | he
        · have := hlt e (by simpa using he)
          show e < u.pool.constructed + 1
          omega
        · show e < u.pool.constructed + 1
          omega
    | cons engine rest =>
      have h1 := hget.1 engine rest hq
      have hperm : (rest ++ (u.held ++ [(caller, engine)]).map Prod.snd).Perm
          (u.pool.cgoEngines ++ u.held.map Prod.snd) := by
        rw [hq]
        simp only [List.map_append, List.map_cons, List.map_nil, List.cons_append]
        rw [← List.append_assoc]
        exact List.perm_append_singleton engine (rest ++ u.held.map Prod.snd)
      refine ⟨{ pool := { u.pool with cgoEngines := rest }
                held := u.held ++ [(caller, engine)] }, ?_, hopen, ?_, ?_⟩
      · simp only [EnginePool.Usage.step, h1]
      · exact hperm.nodup_iff.mpr hnodup
      · intro e he
        exact hlt e (hperm.mem_iff.mp he)
  | put caller engine =>
    have hmem := hheld caller engine rfl
    have hput := EnginePool.Put_open u.pool hopen
    have hsub : ((u.held.erase (caller, engine)).map Prod.snd).Sublist (u.held.map Prod.snd) :=
      (List.erase_sublist _ _).map _
    by_cases hroom : u.pool.cgoEngines.length < u.pool.poolSize
    · have h1 := hput.2.1 engine hroom
      have hperm : ((u.pool.cgoEngines ++ [engine]) ++
          (u.held.erase (caller, engine)).map Prod.snd).Perm
          (u.pool.cgoEngines ++ u.held.map Prod.snd) := by
        rw [List.append_assoc]
        refine List.Perm.append_left _ ?_
        have := (EnginePool.perm_cons_erase_holding u.held _ hmem).map Prod.snd
        simpa using this.symm
      refine ⟨{ pool := { u.pool with cgoEngines := u.pool.cgoEngines ++ [engine] }
                held := u.held.erase (caller, engine) }, ?_, hopen, ?_, ?_⟩
      · simp only [EnginePool.Usage.step, h1]
      · exact hperm.nodup_iff.mpr hnodup
      · intro e he
        exact hlt e (hperm.mem_iff.mp he)
    · have h1 := hput.2.2 engine hroom
      have hsub2 : (u.pool.cgoEngines ++ (u.held.erase (caller, engine)).map Prod.snd).Sublist
          (u.pool.cgoEngines ++ u.held.map Prod.snd) :=
        List.Sublist.append_left hsub _
      refine ⟨{ pool := { u.pool with closeCalls := u.pool.closeCalls ++ [engine] }
                held := u.held.erase (caller, engine) }, ?_, hopen, ?_, ?_⟩
      · simp only [EnginePool.Usage.step, h1]
      · exact hnodup.sublist hsub2
      · intro e he
        exact hlt e (hsub2.subset he)

theorem EnginePool.Usage.Inv_play (moves : List EnginePool.Move) :
    ∀ u : EnginePool.Usage, u.Inv → u.disciplined moves = true →
      ∃ u1, u.play moves = some u1 ∧ u1.Inv := by
  induction moves with
  | nil => intro u hinv _; exact ⟨u, rfl, hinv⟩
  | cons move rest ih =>
    intro u hinv hdis
    simp only [EnginePool.Usage.disciplined, Bool.and_eq_true] at hdis
    have hheld : ∀ caller engine, move = .put caller engine → (caller, engine) ∈ u.held := by
      intro caller engine hm
      rw [hm] at hdis
      simpa using hdis.1
    obtain ⟨u1, hstep, hinv1⟩ := EnginePool.Usage.Inv_step u move hinv hheld
    have hdis2 := hdis.2
    rw [hstep] at hdis2
    obtain ⟨u2, hplay, hinv2⟩ := ih u1 hinv1 hdis2
    exact ⟨u2, by simp only [EnginePool.Usage.play, hstep]; exact hplay, hinv2⟩

theorem NewEnginePool_Inv (config : EngineConfig) (N : Nat) :
    EnginePool.Usage.Inv { pool := (NewEnginePool config N).1, held := [] } := by
  rw [NewEnginePool_eq]
  refine ⟨rfl, ?_, ?_⟩
  · simpa using List.nodup_range N
  · intro e he
    simpa using he

/-- C23: from a pool built with size N and no instance handed out, along every sequence of
`Get` and `Put` calls in which a caller puts only an instance it holds, no call panics, no
instance is held twice (so never by two callers), the idle queue holds no instance twice and no
held instance; and in the pool so reached `Get` returns the head of the idle queue and removes
it, or, when the queue is empty, an instance constructed by this call, which nobody holds. -/
theorem EnginePool.no_instance_shared (config : EngineConfig) (N : Nat)
    (moves : List EnginePool.Move)
    (hdis : EnginePool.Usage.disciplined { pool := (NewEnginePool config N).1, held := [] }
      moves = true) :
    ∃ u, EnginePool.Usage.play { pool := (NewEnginePool config N).1, held := [] } moves = some u ∧
      (u.held.map Prod.snd).Nodup ∧
      (∀ c1 c2 e, (c1, e) ∈ u.held → (c2, e) ∈ u.held → c1 = c2) ∧
      u.pool.cgoEngines.Nodup ∧
      (∀ e ∈ u.pool.cgoEngines, ∀ c, (c, e) ∉ u.held) ∧
      (∀ engine rest, u.pool.cgoEngines = engine :: rest →
        u.pool.Get = ({ u.pool with cgoEngines := rest }, some engine, none)) ∧
      (u.pool.cgoEngines = [] →
        u.pool.Get = ({ u.pool with constructed := u.pool.constructed + 1 },
          some u.pool.constructed, none) ∧
        ∀ c, (c, u.pool.constructed) ∉ u.held) := by
  obtain ⟨u, hplay, hopen, hnodup, hlt⟩ :=
    EnginePool.Usage.Inv_play moves _ (NewEnginePool_Inv config N) hdis
  have hget := EnginePool.Get_open u.pool hopen
  rw [List.nodup_append] at hnodup
  obtain ⟨hq, hh, hdisj⟩ := hnodup
  refine ⟨u, hplay, hh, ?_, hq, ?_, hget.1, ?_⟩
  · intro c1 c2 e h1 h2
    have := List.inj_on_of_nodup_map hh h1 h2 rfl
    exact (Prod.mk.inj this).1
  · intro e he c hc
    exact hdisj he (List.mem_map_of_mem Prod.snd hc)
  · intro hempty
    refine ⟨hget.2 hempty, ?_⟩
    intro c hc
    have := hlt u.pool.constructed
      (List.mem_append_right _ (List.mem_map_of_mem Prod.snd hc))
    omega

theorem EnginePool.no_instance_shared_witness :
    ∃ u, EnginePool.Usage.play { pool := (NewEnginePool sampleEngineConfig 2).1, held := [] }
        sampleMoves = some u ∧ u.held = [(8, 1), (9, 2), (8, 0)] ∧ u.pool.cgoEngines = [] := by
  obtain ⟨u, hplay, _⟩ := EnginePool.no_instance_shared sampleEngineConfig 2 sampleMoves
    (by decide)
  refine ⟨u, hplay, ?_, ?_⟩
  · have h : EnginePool.Usage.play { pool := (NewEnginePool sampleEngineConfig 2).1, held := [] }
        sampleMoves = some { pool := { cgoEngines := [], poolSize := 2, chanClosed := false
                                       config := sampleEngineConfig, constructed := 3
                                       closeCalls := [] }
                             held := [(8, 1), (9, 2), (8, 0)] } := by decide
    rw [h] at hplay
    rw [← Option.some.inj hplay]
  · have h : EnginePool.Usage.play { pool := (NewEnginePool sampleEngineConfig 2).1, held := [] }
        sampleMoves = some { pool := { cgoEngines := [], poolSize := 2, chanClosed := false
                                       config := sampleEngineConfig, constructed := 3
                                       closeCalls := [] }
                             held := [(8, 1), (9, 2), (8, 0)] } := by decide
    rw [h] at hplay
    rw [← Option.some.inj hplay]

/-! ## Theorems: the skew estimate -/

theorem float64.round_slopes :
    float64.round slopeHalfAngle = .finite slopeHalfAngle ∧
    float64.round slopeQuarterAngle = .finite slopeQuarterAngle ∧
    float64.round slopeThreeQuartersAngle = .finite slopeThreeQuartersAngle ∧
    float64.half (float64.add slopeQuarterAngle slopeHalfAngle)
      = .finite (5714124232312557 / 281474976710656) := by
  decide!

theorem mapIndex_mapDelete_self {V : Type} (m : List (String × CacheEntry V)) (k : String) :
    mapIndex (mapDelete m k) k = none := by
  induction m with
  | nil => rfl
  | cons p rest ih =>
    obtain ⟨k1, e1⟩ := p
    by_cases hk : k1 = k
    · simpa [mapDelete, mapIndex, List.filter, hk] using ih
    · have hb : (k1 != k) = true := by simpa using hk
      have hb2 : (k == k1) = false := by simpa using Ne.symm hk
      simp only [mapDelete, mapIndex, List.filter, hb, List.lookup, hb2]
      exact ih

theorem mapIndex_mapDelete_other {V : Type} (m : List (String × CacheEntry V)) {k k1 : String}
    (hne : k1 ≠ k) : mapIndex (mapDelete m k) k1 = mapIndex m k1 := by
  induction m with
  | nil => rfl
  | cons p rest ih =>
    obtain ⟨k2, e2⟩ := p
    by_cases hk : k2 = k
    · have hb : (k1 == k2) = false := by
        rw [hk]
        simpa using hne
      simp only [mapDelete, mapIndex, List.lookup, hb] at ih ⊢
      simpa [List.filter, hk] using ih
    · have hb : (k2 != k) = true := by simpa using hk
      simp only [mapDelete, mapIndex, List.filter, hb, List.lookup] at ih ⊢
      rw [ih]

theorem mapDelete_of_absent {V : Type} (m : List (String × CacheEntry V)) {k : String}
    (habs : mapIndex m k = none) : mapDelete m k = m := by
  induction m with
  | nil => rfl
  | cons p rest ih =>
    obtain ⟨k1, e1⟩ := p
    by_cases hk : k = k1
    · subst hk
      simp [mapIndex, List.lookup] at habs
    · have hb : (k == k1) = false := by simpa using hk
      simp only [mapIndex, List.lookup, hb] at habs
      have hb2 : (k1 != k) = true := by simpa using Ne.symm hk
      have := ih habs
      simp only [mapDelete] at this ⊢
      simp [List.filter, hb2, this]

/-- C25: on an enabled cache, `Delete(k)` leaves the store with the entries of the other keys,
each with its value and expiry and in its place, and without an entry for `k`; capacity,
time-to-live and switch stay; deleting an absent key changes nothing. `Clear` leaves the empty
store, so that `Size` is 0 and `Get` reports absent for every key at every time. -/
theorem Cache.Delete_removes_one_Clear_removes_all {V : Type} (c : Cache V) (k : String)
    (hen : c.enabled = true) :
    (c.Delete k).store = c.store.filter (fun p => p.1 != k) ∧
    mapIndex (c.Delete k).store k = none ∧
    (∀ k1, k1 ≠ k → mapIndex (c.Delete k).store k1 = mapIndex c.store k1) ∧
    (c.Delete k).maxSize = c.maxSize ∧ (c.Delete k).ttl = c.ttl ∧
    (c.Delete k).enabled = c.enabled ∧
    (mapIndex c.store k = none → c.Delete k = c) ∧
    c.Clear.store = [] ∧ c.Clear.Size = 0 ∧ (∀ now key, c.Clear.Get now key = none) ∧
    c.Clear.maxSize = c.maxSize ∧ c.Clear.ttl = c.ttl ∧ c.Clear.enabled = c.enabled := by
  have hd : c.Delete k = { c with store := mapDelete c.store k } := by
    simp [Cache.Delete, hen]
  have hc : c.Clear = { c with store := [] } := by
    simp [Cache.Clear, hen]
  rw [hd, hc]
  refine ⟨rfl, mapIndex_mapDelete_self c.store k,
    fun k1 hk1 => mapIndex_mapDelete_other c.store hk1, rfl, rfl, rfl, ?_, rfl, rfl, ?_,
    rfl, rfl, rfl⟩
  · intro habs
    rw [mapDelete_of_absent c.store habs]
  · intro now key
    simp [Cache.Get, mapIndex]

theorem Cache.Delete_removes_one_Clear_removes_all_witness :
    (sampleCache.Delete "b").store = [("c", ⟨3, 12⟩), ("a", ⟨1, 10⟩)] ∧
    sampleCache.Clear.Size = 0 := by
  have h := Cache.Delete_removes_one_Clear_removes_all sampleCache "b" rfl
  exact ⟨by rw [h.1]; decide, h.2.2.2.2.2.2.2.2.1⟩
theorem mapDelete_keys_nodup {V : Type} (m : List (String × CacheEntry V)) (k : String)
    (hnodup : (m.map Prod.fst).Nodup) : ((mapDelete m k).map Prod.fst).Nodup :=
  hnodup.sublist ((List.filter_sublist m).map Prod.fst)

/-- C29: on an enabled cache that holds exactly `maxSize` entries, with pairwise distinct
non-empty keys and pairwise distinct expiry times, `Set(k, v)` for a key that is present first
removes the entry that expires earliest, whatever the order of the scan, and then writes the
entry of `k`. When the removed entry belongs to another key, that key is gone afterwards and
`Size` is `maxSize - 1`; when it is the entry of `k` itself, `Size` stays `maxSize`. -/
theorem Cache.Set_overwrite_in_full_cache_evicts {V : Type} (c : Cache V) (ord : RangeOrder V)
    (now : Int) (k : String) (v : V) (old : CacheEntry V)
    (hen : c.enabled = true) (hfull : (c.store.length : Int) = c.maxSize)
    (hnodup : (c.store.map Prod.fst).Nodup) (hkeys : ∀ p ∈ c.store, p.1 ≠ "")
    (hdistinct : (c.store.map (fun p => p.2.ExpireTime)).Nodup)
    (hpresent : (k, old) ∈ c.store) :
    ∃ k0 e0, (k0, e0) ∈ c.store ∧
      (∀ p ∈ c.store, p ≠ (k0, e0) → e0.ExpireTime < p.2.ExpireTime) ∧
      (c.Set ord now k v).store = mapStore (mapDelete c.store k0) k ⟨v, now + c.ttl⟩ ∧
      mapIndex (c.Set ord now k v).store k = some ⟨v, now + c.ttl⟩ ∧
      (k0 ≠ k → mapIndex (c.Set ord now k v).store k0 = none ∧
        ((c.Set ord now k v).Size : Int) = c.maxSize - 1) ∧
      (k0 = k → ((c.Set ord now k v).Size : Int) = c.maxSize) := by
  have hne : c.store ≠ [] := List.ne_nil_of_mem hpresent
  obtain ⟨k0, e0, hmem, hst, hlen, hmin⟩ :=
    Cache.evictOldest_removes_earliest c ord hne hnodup hkeys
  have hset : (c.Set ord now k v).store = mapStore (mapDelete c.store k0) k ⟨v, now + c.ttl⟩ := by
    unfold Cache.Set
    simp only [hen, Bool.not_true, Bool.false_eq_true, if_false]
    rw [if_pos (le_of_eq hfull.symm), hst]
  have hlen1 : (mapDelete c.store k0).length + 1 = c.store.length := by
    rw [← hst]
    exact hlen
  refine ⟨k0, e0, hmem, ?_, hset, ?_, ?_, ?_⟩
  · intro p hp hpne
    rcases lt_or_eq_of_le (hmin p hp) with h | h
    · exact h
    · exact absurd (List.inj_on_of_nodup_map hdistinct hp hmem h.symm) hpne
  · rw [hset]
    exact mapIndex_mapStore_self _ _ _
  · intro hk
    constructor
    · rw [hset]
      have : mapIndex (mapStore (mapDelete c.store k0) k ⟨v, now + c.ttl⟩) k0
          = mapIndex (mapDelete (mapDelete c.store k0) k) k0 := by
        have hb : (k0 == k) = false := by simpa using hk
        simp [mapStore, mapIndex, List.lookup, hb]
      rw [this, mapIndex_mapDelete_other _ hk]
      exact mapIndex_mapDelete_self _ _
    · have hin : (k, old) ∈ mapDelete c.store k0 := mem_mapDelete.mpr ⟨hpresent, Ne.symm hk⟩
      have h2 := mapDelete_length_of_mem (mapDelete c.store k0)
        (mapDelete_keys_nodup c.store k0 hnodup) hin
      have hsize : (c.Set ord now k v).Size = (mapDelete (mapDelete c.store k0) k).length + 1 := by
        simp [Cache.Size, hset, mapStore]
      rw [hsize, ← hfull]
      omega
  · intro hk
    subst hk
    have habs : mapIndex (mapDelete c.store k0) k0 = none := mapIndex_mapDelete_self _ _
    have hsize : (c.Set ord now k0 v).Size = (mapDelete c.store k0).length + 1 := by
      simp [Cache.Size, hset, mapStore, mapDelete_of_absent _ habs]
    rw [hsize, ← hfull]
    omega

theorem Cache.Set_overwrite_in_full_cache_evicts_witness :
    ∃ k0 e0, (k0, e0) ∈ sampleCache.store ∧
      (sampleCache.Set RangeOrder.reversed 5 "c" 9).store
        = mapStore (mapDelete sampleCache.store k0) "c" ⟨9, 5 + sampleCache.ttl⟩ ∧
      (k0 ≠ "c" → ((sampleCache.Set RangeOrder.reversed 5 "c" 9).Size : Int)
        = sampleCache.maxSize - 1) := by
  obtain ⟨k0, e0, h1, _, h3, _, h5, _⟩ :=
    Cache.Set_overwrite_in_full_cache_evicts sampleCache RangeOrder.reversed 5 "c" 9 ⟨3, 12⟩
      rfl (by decide) (by decide) (by decide) (by decide) (by decide)
  exact ⟨k0, e0, h1, h3, fun h => (h5 h).2⟩

/-! ## Theorems: the default configuration -/

/-- C26: the preprocessor that `NewHandler` builds from `GetDefault()` runs in automatic mode
with the analyzer thresholds 0 (sharpness), 0 (contrast), 0 (minimum brightness) and 200
(maximum brightness); for every image with non-negative readings its step list is
grayscale, binarization, deskew when the brightness is at most 200 and grayscale, darken,
binarization, deskew when it is above 200, so brighten, contrast_enhance and denoise never
occur in it. -/
theorem NewHandler.default_auto_steps (r : Readings) (hs : 0 ≤ r.sharpness)
    (hc : 0 ≤ r.contrast) (hb : 0 ≤ r.brightness) :
    (NewHandler.preprocessor config.GetDefault).analyzer
      = { sharpnessThreshold := 0, contrastThreshold := 0, brightnessMinThreshold := 0
          brightnessMaxThreshold := 200 } ∧
    (NewHandler.preprocessor config.GetDefault).config.AutoMode = true ∧
    (r.brightness ≤ 200 → (NewHandler.preprocessor config.GetDefault).pipeline (some r)
      = ["grayscale", "binarization", "deskew"]) ∧
    (r.brightness > 200 → (NewHandler.preprocessor config.GetDefault).pipeline (some r)
      = ["grayscale", "darken", "binarization", "deskew"]) ∧
    "brighten" ∉ (NewHandler.preprocessor config.GetDefault).pipeline (some r) ∧
    "contrast_enhance" ∉ (NewHandler.preprocessor config.GetDefault).pipeline (some r) ∧
    "denoise" ∉ (NewHandler.preprocessor config.GetDefault).pipeline (some r) := by
  have hs1 : ¬ r.sharpness < 0 := not_lt.mpr hs
  have hc1 : ¬ r.contrast < 0 := not_lt.mpr hc
  have hb1 : ¬ r.brightness < 0 := not_lt.mpr hb
  have hp : (NewHandler.preprocessor config.GetDefault).pipeline (some r)
      = if r.brightness > 200 then ["grayscale", "darken", "binarization", "deskew"]
        else ["grayscale", "binarization", "deskew"] := by
    simp only [Preprocessor.pipeline, NewHandler.preprocessor, NewHandler.preprocessorConfig,
      config.GetDefault, NewPreprocessor, NewQualityAnalyzer, QualityAnalyzer.Analyze,
      QualityAnalyzer.generatePipeline, if_true, hs1, hc1, hb1, if_false, List.nil_append]
    split <;> rfl
  refine ⟨rfl, rfl, ?_, ?_, ?_, ?_, ?_⟩
  · intro h
    rw [hp, if_neg (not_lt.mpr h)]
  · intro h
    rw [hp, if_pos h]
  · rw [hp]
    split <;> decide
  · rw [hp]
    split <;> decide
  · rw [hp]
    split <;> decide

theorem NewHandler.default_auto_steps_witness :
    (NewHandler.preprocessor config.GetDefault).pipeline (some ⟨10, 80, 120⟩)
      = ["grayscale", "binarization", "deskew"] ∧
    (NewHandler.preprocessor config.GetDefault).pipeline (some ⟨10, 80, 230⟩)
      = ["grayscale", "darken", "binarization", "deskew"] :=
  ⟨(NewHandler.default_auto_steps ⟨10, 80, 120⟩ (by decide) (by decide) (by decide)).2.2.1
      (by decide),
   (NewHandler.default_auto_steps ⟨10, 80, 230⟩ (by decide) (by decide) (by decide)).2.2.2.1
      (by decide)⟩

/-! ## Theorems: restarting the worker pool -/

/-- C27 (the two sequences named by the claim, on the code): a new pool of two workers and
capacity 10 is started and stopped, its two idle workers returning while `Stop` waits, and
started again. `Stop` then closes the task queue a second time and panics, whatever the workers
do; and `Submit` of any task, when its `select` takes the send case, sends on the closed task
queue and panics, while it returns "worker pool stopped" when the `select` takes the
`ctx.Done()` case. -/
theorem pool.WorkerPool.restart_closes_and_sends_on_closed_channel :
    ∃ p2 : pool.WorkerPool String,
      (pool.NewWorkerPool 2 10 : pool.WorkerPool String).Start.1.Stop [.exit, .exit]
        = .returned p2 ∧
      p2.Start.2 = none ∧ p2.Start.1.taskQueueClosed = true ∧
      (∀ during, p2.Start.1.Stop during = .panicked "close of closed channel") ∧
      (∀ sel task, sel.preferDone = false →
        p2.Start.1.Submit sel task = .panicked "send on closed channel") ∧
      (∀ sel task, sel.preferDone = true →
        p2.Start.1.Submit sel task = .returned (p2.Start.1, some "worker pool stopped")) := by
  refine ⟨_, rfl, rfl, rfl, fun _ => rfl, ?_, ?_⟩
  · intro sel task h
    simp [pool.WorkerPool.Submit, pool.WorkerPool.sendReady, pool.WorkerPool.send,
      pool.WorkerPool.Start, pool.NewWorkerPool, h]
  · intro sel task h
    simp [pool.WorkerPool.Submit, pool.WorkerPool.sendReady, pool.WorkerPool.Start,
      pool.NewWorkerPool, h]

/-! ## Theorems: non-string elements of `image_paths` -/

/-- The loop over `imagePathsInterface` keeps the string elements, in order. -/
theorem Handler.stringElements_eq_reduceOption (elements : List (Option String)) :
    Handler.stringElements elements = elements.reduceOption := by
  induction elements with
  | nil => rfl
  | cons e rest ih =>
    cases e with
    | none => simpa [Handler.stringElements, List.reduceOption_cons_of_none] using ih
    | some path => simp [Handler.stringElements, List.reduceOption_cons_of_some, ih]

/-- C28: the batch call fails exactly when `image_paths` is missing or not an array, or is an
array without a string element, and then with an INVALID_INPUT error. Otherwise, with the
goroutines finishing in any order, the response has one entry per string element of the array:
`count` and the number of entries are the number of string elements, and entry `i` is the
entry the goroutine for the `i`-th string element writes, carrying that string as its path. The
elements that are not strings get no goroutine and no entry. -/
theorem Handler.handleBatchRecognize_drops_non_strings {M : Type} (h : Handler)
    (sum : List UInt8 → String) (lib : ImageLib M) (fs : String → FileState) (args : BatchArgs)
    (turns : Nat → Turn) (completion : List Nat) :
    ((∃ err, h.handleBatchRecognize sum lib fs args turns completion = .error err) ↔
      (args.image_paths = none ∨
        ∃ elements, args.image_paths = some elements ∧ elements.reduceOption = [])) ∧
    (∀ err, h.handleBatchRecognize sum lib fs args turns completion = .error err →
      err.Code = .ErrInvalidInput) ∧
    (∀ elements, args.image_paths = some elements → elements.reduceOption ≠ [] →
      completion.Perm (List.range elements.reduceOption.length) →
      ∃ response, h.handleBatchRecognize sum lib fs args turns completion = .ok response ∧
        response.count = elements.reduceOption.length ∧
        response.results.length = elements.reduceOption.length ∧
        ∀ (i : Nat) (path : String), elements.reduceOption[i]? = some path →
          ∃ entry, response.results[i]? = some (some entry) ∧ entry.path = path ∧
            entry = h.batchItem sum lib fs (turns i) path (args.language.getD h.Language)
              (args.preprocess.getD true) (args.auto_mode.getD true)) := by
  refine ⟨?_, ?_, ?_⟩
  · unfold Handler.handleBatchRecognize
    cases hargs : args.image_paths with
    | none => simp
    | some elements =>
      simp only [Handler.stringElements_eq_reduceOption]
      by_cases hlen : elements.reduceOption.length = 0
      · have hnil : elements.reduceOption = [] := List.length_eq_zero.mp hlen
        simp [hlen, hnil]
      · have hnil : elements.reduceOption ≠ [] := fun h0 => hlen (by rw [h0]; rfl)
        simp [hlen, hnil]
  · intro err
    unfold Handler.handleBatchRecognize
    cases hargs : args.image_paths with
    | none =>
      intro herr
      simp only [Except.error.injEq] at herr
      rw [← herr]
      rfl
    | some elements =>
      simp only
      split
      · intro herr
        simp only [Except.error.injEq] at herr
        rw [← herr]
        rfl
      · intro herr
        simp at herr
  · intro elements hargs hne hdone
    have hlen : elements.reduceOption.length ≠ 0 := fun h0 => hne (List.length_eq_zero.mp h0)
    have hnodup : completion.Nodup := hdone.nodup_iff.mpr (List.nodup_range _)
    unfold Handler.handleBatchRecognize
    simp only [hargs, Handler.stringElements_eq_reduceOption, hlen, if_false]
    refine ⟨_, rfl, ?_, ?_, ?_⟩
    · simp only
      rw [batch_writes_length elements.reduceOption _ completion]
      simp
    · simp only
      rw [batch_writes_length elements.reduceOption _ completion]
      simp
    · intro i path hpath
      have hi : i < elements.reduceOption.length := (List.getElem?_eq_some.mp hpath).1
      have hmem : i ∈ completion := hdone.mem_iff.mpr (List.mem_range.mpr hi)
      refine ⟨h.batchItem sum lib fs (turns i) path (args.language.getD h.Language)
        (args.preprocess.getD true) (args.auto_mode.getD true), ?_, ?_, rfl⟩
      · exact batch_writes_own elements.reduceOption
          (fun index imagePath => h.batchItem sum lib fs (turns index) imagePath
            (args.language.getD h.Language) (args.preprocess.getD true)
            (args.auto_mode.getD true))
          completion hnodup i path hpath hmem _ (by simpa using hi)
      · unfold Handler.batchItem
        cases Handler.readImageFile fs path with
        | error err => rfl
        | ok imageData =>
          simp only
          cases ({ h with cache := (turns i).cache }.recognizeImage sum lib (turns i).ord
            (turns i).nowGet (turns i).nowSet imageData (args.language.getD h.Language)
            (args.preprocess.getD true) (args.auto_mode.getD true)).result <;> rfl

/-- C28 on the array A, 7, C (the second element is not a string) with the goroutines finishing
in the order C, A: two entries, for A and for C. -/
theorem Handler.handleBatchRecognize_drops_non_strings_witness :
    ∃ response,
      sampleHandler.handleBatchRecognize sampleSum brokenLib sampleFiles
        { image_paths := some [some "A", none, some "C"], language := none, preprocess := none
          auto_mode := none } (fun _ => sampleTurn) [1, 0] = .ok response ∧
      response.count = 2 ∧
      response.results.map (Option.map (fun entry => (entry.path, entry.isError)))
        = [some ("A", false), some ("C", false)] := by
  obtain ⟨response, hr, hc, _, _⟩ :=
    (Handler.handleBatchRecognize_drops_non_strings sampleHandler sampleSum brokenLib sampleFiles
      { image_paths := some [some "A", none, some "C"], language := none, preprocess := none
        auto_mode := none } (fun _ => sampleTurn) [1, 0]).2.2
      [some "A", none, some "C"] rfl (by decide) (by decide)
  refine ⟨response, hr, hc, ?_⟩
  have hval : (match sampleHandler.handleBatchRecognize sampleSum brokenLib sampleFiles
        { image_paths := some [some "A", none, some "C"], language := none, preprocess := none
          auto_mode := none } (fun _ => sampleTurn) [1, 0] with
      | .ok response =>
        response.results.map (Option.map (fun entry => (entry.path, entry.isError)))
      | .error _ => [])
      = [some ("A", false), some ("C", false)] := by decide
  rw [hr] at hval
  exact hval

/-! ## Theorems: the `autoMode` argument -/

/-- The engine passes the metadata of the options through to its result and reads it nowhere
else. -/
theorem TesseractEngine.RecognizeText_metadata (e : TesseractEngine) (imageData : List UInt8)
    (opts : RecognizeOptions) (metadata : List (String × String)) :
    e.RecognizeText imageData { opts with Metadata := metadata } =
      match e.RecognizeText imageData opts with
      | .error err => .error err
      | .ok result => .ok { result with Metadata := metadata } := by
  have hl : e.getLanguage { opts with Metadata := metadata } = e.getLanguage opts := rfl
  have hp : e.pageSegMode { opts with Metadata := metadata } = e.pageSegMode opts := rfl
  have hc : ∀ run, e.configureClient run { opts with Metadata := metadata }
      = e.configureClient run opts := fun _ => rfl
  unfold TesseractEngine.RecognizeText
  simp only [hl, hp, hc]
  generalize e.client (e.getLanguage opts) (e.pageSegMode opts) imageData = run
  cases e.configureClient run opts with
  | some err => rfl
  | none =>
    cases run.SetImageFromBytes with
    | some err => rfl
    | none =>
      cases run.ctxDone with
      | true => rfl
      | false =>
        cases run.Text with
        | error err => rfl
        | ok text => rfl

/-- C30: two `recognizeImage` calls from the same handler state, on the same bytes, language
and preprocess flag, at the same clock readings and with the same eviction order, that differ
only in `autoMode`: they make the same calls up to the metadata of the engine options (the same
cache key is looked up and stored, the same bytes are preprocessed and recognized, with the
same language, page segmentation mode and preprocess flag); the metadata is the single entry
"auto_mode"; the results, and the caches left behind, agree up to the metadata the engine copies
into its result. The steps come from the preprocessor, which the argument does not reach: with
the configured `AutoMode` off they are the default steps. -/
theorem Handler.recognizeImage_autoMode_reaches_metadata_only {M : Type} (h : Handler)
    (sum : List UInt8 → String) (lib : ImageLib M) (ord : RangeOrder RecognizeResult)
    (nowGet nowSet : Int) (imageData : List UInt8) (language : String) (preprocess : Bool)
    (a b : Bool) :
    (h.recognizeImage sum lib ord nowGet nowSet imageData language preprocess a).calls.map
        Invocation.withoutMetadata
      = (h.recognizeImage sum lib ord nowGet nowSet imageData language preprocess b).calls.map
        Invocation.withoutMetadata ∧
    (∀ data opts, Invocation.recognize data opts ∈
        (h.recognizeImage sum lib ord nowGet nowSet imageData language preprocess a).calls →
      data = h.processedData lib imageData preprocess ∧
      opts = { Language := language, PageSegMode := none, Preprocess := preprocess
               Metadata := [("auto_mode", formatBool a)] }) ∧
    (∀ key, (Invocation.lookup key ∈
          (h.recognizeImage sum lib ord nowGet nowSet imageData language preprocess a).calls ∨
        Invocation.store key ∈
          (h.recognizeImage sum lib ord nowGet nowSet imageData language preprocess a).calls) →
      key = cacheKey sum imageData language preprocess) ∧
    (h.recognizeImage sum lib ord nowGet nowSet imageData language preprocess a).result.map
        RecognizeResult.withoutMetadata
      = (h.recognizeImage sum lib ord nowGet nowSet imageData language preprocess b).result.map
        RecognizeResult.withoutMetadata ∧
    (h.recognizeImage sum lib ord nowGet nowSet imageData language preprocess a).cache.store.map
        (fun p => (p.1, p.2.ExpireTime, p.2.Value.withoutMetadata))
      = (h.recognizeImage sum lib ord nowGet nowSet imageData language preprocess
          b).cache.store.map
        (fun p => (p.1, p.2.ExpireTime, p.2.Value.withoutMetadata)) ∧
    (h.preprocessor.config.AutoMode = false →
      ∀ img, h.preprocessor.pipeline img = h.preprocessor.getDefaultPipeline) := by
  have hmeta : ∀ x : Bool,
      h.engine.RecognizeText (h.processedData lib imageData preprocess)
        (Handler.recognizeOptions language preprocess x) =
      match h.engine.RecognizeText (h.processedData lib imageData preprocess)
        { Language := language, PageSegMode := none, Preprocess := preprocess
          Metadata := [] } with
      | .error err => .error err
      | .ok result => .ok { result with Metadata := [("auto_mode", formatBool x)] } :=
    fun x => TesseractEngine.RecognizeText_metadata h.engine _
      { Language := language, PageSegMode := none, Preprocess := preprocess, Metadata := [] }
      [("auto_mode", formatBool x)]
  have hlast : h.preprocessor.config.AutoMode = false →
      ∀ img, h.preprocessor.pipeline img = h.preprocessor.getDefaultPipeline := by
    intro hoff img
    simp [Preprocessor.pipeline, hoff]
  by_cases hsize : h.MaxImageSize < (imageData.length : Int)
  · rw [Handler.recognizeImage_of_too_large h sum lib ord nowGet nowSet imageData language
        preprocess a hsize,
      Handler.recognizeImage_of_too_large h sum lib ord nowGet nowSet imageData language
        preprocess b hsize]
    exact ⟨rfl, by simp, by simp, rfl, rfl, hlast⟩
  · have hfit : (imageData.length : Int) ≤ h.MaxImageSize := not_lt.mp hsize
    cases hget : h.cache.Get nowGet (cacheKey sum imageData language preprocess) with
    | some cached =>
      rw [Handler.recognizeImage_of_hit h sum lib ord nowGet nowSet imageData language
          preprocess a cached hfit hget,
        Handler.recognizeImage_of_hit h sum lib ord nowGet nowSet imageData language
          preprocess b cached hfit hget]
      exact ⟨rfl, by simp, by simp, rfl, rfl, hlast⟩
    | none =>
      rw [Handler.recognizeImage_of_miss h sum lib ord nowGet nowSet imageData language
          preprocess a hfit hget,
        Handler.recognizeImage_of_miss h sum lib ord nowGet nowSet imageData language
          preprocess b hfit hget]
      simp only [hmeta a, hmeta b]
      cases h.engine.RecognizeText (h.processedData lib imageData preprocess)
        { Language := language, PageSegMode := none, Preprocess := preprocess
          Metadata := [] } with
      | error err =>
        refine ⟨?_, ?_, ?_, rfl, rfl, hlast⟩
        · cases preprocess <;>
            simp [Invocation.withoutMetadata, Handler.recognizeOptions]
        · intro data opts hmem
          cases preprocess <;>
            simpa [Handler.recognizeOptions] using hmem
        · intro key hmem
          cases preprocess <;> simpa using hmem
      | ok result =>
        refine ⟨?_, ?_, ?_, rfl, ?_, hlast⟩
        · cases preprocess <;>
            simp [Invocation.withoutMetadata, Handler.recognizeOptions]
        · intro data opts hmem
          cases preprocess <;>
            simpa [Handler.recognizeOptions] using hmem
        · intro key hmem
          cases preprocess <;> simpa using hmem
        · simp only [Cache.Set]
          split
          · rfl
          · simp [mapStore, RecognizeResult.withoutMetadata]

theorem Handler.recognizeImage_autoMode_reaches_metadata_only_witness :
    (sampleHandler.recognizeImage sampleSum brokenLib RangeOrder.stored 0 1 [1, 2, 3] "eng"
        true true).calls.map Invocation.withoutMetadata
      = (sampleHandler.recognizeImage sampleSum brokenLib RangeOrder.stored 0 1 [1, 2, 3] "eng"
        true false).calls.map Invocation.withoutMetadata ∧
    (sampleHandler.recognizeImage sampleSum brokenLib RangeOrder.stored 0 1 [1, 2, 3] "eng"
        true true).calls
      ≠ (sampleHandler.recognizeImage sampleSum brokenLib RangeOrder.stored 0 1 [1, 2, 3] "eng"
        true false).calls :=
  ⟨(Handler.recognizeImage_autoMode_reaches_metadata_only sampleHandler sampleSum brokenLib
      RangeOrder.stored 0 1 [1, 2, 3] "eng" true true false).1, by decide⟩
